import Mathlib

/-!
Verification of the `recverify` core (bit stream codec, binary recording
format, TAS script printer/parser) against its specification.

Modelling conventions, shared by every definition below:

* Rust machine integers are modelled as `Nat` with explicit `% 2^w`
  reductions at the points where the Rust type system truncates
  (`as u8`, u8 shift-left overflow, and so on).  Byte buffers are
  `List Nat` whose entries are below 256 (this is a typing fact in Rust;
  theorems that need it take it as a hypothesis).
* Rust `f64` is modelled as an exact rational (`ℚ`).  Every f64
  computation evaluated by a theorem below is exact in real f64
  arithmetic as well (small dyadic rationals), so no rounding behaviour
  is lost for those claims; angle values, where real f64 rounds, are
  never compared numerically by any claim.  `std::f64::consts::PI` is
  the dyadic rational `884279719003555 / 2^48`, the exact value of the
  f64 constant.
* Fallible Rust functions returning `Result<T>` become
  `Except Err T`; the `error_chain` error kinds that actually occur are
  the constructors of `Err`, one per distinct error site.
* Loops whose termination measure is the remaining input are written
  with an explicit fuel argument that the entry point instantiates with
  `length + 1`, which strictly dominates the number of iterations (each
  iteration consumes at least one element); the fuel-exhausted branch is
  unreachable.  This keeps every definition kernel-reducible.
-/

namespace Recverify

/-- Error kinds of `librec`.  Each constructor corresponds to one error
site of the source (all are `ErrorKind::GenericError` with the quoted
message, except `utf8` which is the `FromUtf8` foreign link and
`parseErr` which is `GenericError2` holding a rendered parse trace). -/
inductive Err where
  /-- GenericError: Reading too many bits -/
  | readTooMany
  /-- GenericError: Read EOF -/
  | readEof
  /-- GenericError: Writing too many bits -/
  | writeTooMany
  /-- GenericError: Value overflows bit count -/
  | valueOverflow
  /-- FromUtf8 foreign link: invalid UTF-8 in read_string -/
  | utf8
  /-- GenericError2: TAS text grammar violation (parse trace dropped) -/
  | parseErr
deriving DecidableEq, Repr

/-- Result type of `librec` operations. -/
abbrev Res (α : Type) := Except Err α

/-- The `BitStream` struct: a byte buffer with a (byte, bit) cursor.
`data` entries are u8 values (< 256 whenever the stream was built by the
code itself). -/
structure BitStream where
  data : List Nat
  bit_offset : Nat
  byte_offset : Nat
deriving DecidableEq, Repr

/-- BitStream::new -/
def BitStream.new (data : List Nat) : BitStream :=
  { data := data, bit_offset := 0, byte_offset := 0 }

/-- BitStream::eof -/
def BitStream.eof (bs : BitStream) : Bool :=
  bs.data.length ≤ bs.byte_offset

/-- BitStream::read_bits_u8.  The two error checks, then the cross-byte
and in-byte cases.  Rust's in-bounds indexing `data[i]` is rendered
`data.getD i 0`; the eof check proves the indices in range exactly as in
the source.  (For `bits = 0` the in-byte case shifts `0xFF` by 8, which
panics in debug Rust; no caller passes 0, and no theorem below relies on
the value read with `bits = 0`.) -/
def BitStream.read_bits_u8 (bs : BitStream) (bits : Nat) : Res (Nat × BitStream) :=
  if bits > 8 then .error .readTooMany
  else if bs.data.length ≤ bs.byte_offset ∨
          (bs.byte_offset = bs.data.length - 1 ∧ bs.bit_offset + bits > 8) then
    .error .readEof
  else if 8 ≤ bs.bit_offset + bits then
    let extra := (bs.bit_offset + bits) % 8
    let remain := bits - extra
    let first := bs.data.getD bs.byte_offset 0 >>> bs.bit_offset
    let next := bs.byte_offset + 1
    let result :=
      if 0 < extra then
        first ||| (((bs.data.getD next 0) &&& (0xFF >>> (8 - extra))) <<< remain) % 256
      else first
    .ok (result, { bs with byte_offset := next, bit_offset := extra })
  else
    .ok ((bs.data.getD bs.byte_offset 0 >>> bs.bit_offset) &&& (0xFF >>> (8 - bits)),
         { bs with bit_offset := bs.bit_offset + bits })

/-- BitStream::write_bits_u8.  `value` is a u8 in Rust, so it is reduced
mod 256 on entry (the call-site cast).  u8 shift-left overflow discards
high bits, hence the `% 256` after each `<<<`. -/
def BitStream.write_bits_u8 (bs : BitStream) (value bits : Nat) : Res BitStream :=
  let value := value % 256
  if bits > 8 then .error .writeTooMany
  else if ¬(bits = 8 ∨ value < 1 <<< bits) then .error .valueOverflow
  else
    let san := value &&& (0xFF >>> (8 - bits))
    let data :=
      if bs.data.length ≤ bs.byte_offset then
        bs.data ++ List.replicate (bs.byte_offset + 1 - bs.data.length) 0
      else bs.data
    if 8 ≤ bs.bit_offset + bits then
      let extra := (bs.bit_offset + bits) % 8
      let remain := bits - extra
      let first := san &&& (0xFF >>> (8 - remain))
      let data := data.set bs.byte_offset
        (data.getD bs.byte_offset 0 ||| (first <<< bs.bit_offset) % 256)
      let data := if 0 < extra then data ++ [(san >>> remain) &&& (0xFF >>> (8 - extra))]
                  else data
      .ok { data := data, bit_offset := extra, byte_offset := bs.byte_offset + 1 }
    else
      let data := data.set bs.byte_offset
        (data.getD bs.byte_offset 0 |||
          ((san <<< bs.bit_offset) % 256 &&& (0xFF >>> (8 - bits - bs.bit_offset))))
      .ok { data := data, bit_offset := bs.bit_offset + bits, byte_offset := bs.byte_offset }

/-- BitStream::read_bits_u16 -/
def BitStream.read_bits_u16 (bs : BitStream) (bits : Nat) : Res (Nat × BitStream) := do
  let (lower, bs) ← bs.read_bits_u8 (min bits 8)
  if bits ≤ 8 then return (lower, bs)
  else
    let (upper, bs) ← bs.read_bits_u8 (bits - 8)
    return (lower ||| upper <<< 8, bs)

/-- BitStream::read_bits_u32 -/
def BitStream.read_bits_u32 (bs : BitStream) (bits : Nat) : Res (Nat × BitStream) := do
  let (lower, bs) ← bs.read_bits_u16 (min bits 16)
  if bits ≤ 16 then return (lower, bs)
  else
    let (upper, bs) ← bs.read_bits_u16 (bits - 16)
    return (lower ||| upper <<< 16, bs)

/-- BitStream::read_bits_u64 -/
def BitStream.read_bits_u64 (bs : BitStream) (bits : Nat) : Res (Nat × BitStream) := do
  let (lower, bs) ← bs.read_bits_u32 (min bits 32)
  if bits ≤ 32 then return (lower, bs)
  else
    let (upper, bs) ← bs.read_bits_u32 (bits - 32)
    return (lower ||| upper <<< 32, bs)

/-- BitStream::write_bits_u16.  `value` is a u16 (mod 2^16 on entry). -/
def BitStream.write_bits_u16 (bs : BitStream) (value bits : Nat) : Res BitStream := do
  let value := value % 2 ^ 16
  if ¬(bits = 16 ∨ value < 1 <<< bits) then .error .valueOverflow
  else
    let bs ← bs.write_bits_u8 (value &&& 0xFF) (min bits 8)
    if bits ≤ 8 then return bs
    else bs.write_bits_u8 (value >>> 8) (bits - 8)

/-- BitStream::write_bits_u32. -/
def BitStream.write_bits_u32 (bs : BitStream) (value bits : Nat) : Res BitStream := do
  let value := value % 2 ^ 32
  if ¬(bits = 32 ∨ value < 1 <<< bits) then .error .valueOverflow
  else
    let bs ← bs.write_bits_u16 (value &&& 0xFFFF) (min bits 16)
    if bits ≤ 16 then return bs
    else bs.write_bits_u16 (value >>> 16) (bits - 16)

/-- BitStream::write_bits_u64.  The low-half mask is `0xFF_FF_FF`
exactly as written in the source (bit_stream.rs line 199): a 24-bit
mask, although the low half written is 32 bits wide. -/
def BitStream.write_bits_u64 (bs : BitStream) (value bits : Nat) : Res BitStream := do
  let value := value % 2 ^ 64
  if ¬(bits = 64 ∨ value < 1 <<< bits) then .error .valueOverflow
  else
    let bs ← bs.write_bits_u32 (value &&& 0xFFFFFF) (min bits 32)
    if bits ≤ 32 then return bs
    else bs.write_bits_u32 (value >>> 32) (bits - 32)

/-- BitStream::read_bool -/
def BitStream.read_bool (bs : BitStream) : Res (Bool × BitStream) := do
  let (v, bs) ← bs.read_bits_u8 1
  return (v = 1, bs)

/-- BitStream::read_u8 -/
def BitStream.read_u8 (bs : BitStream) : Res (Nat × BitStream) :=
  bs.read_bits_u8 8

/-- BitStream::write_bool -/
def BitStream.write_bool (bs : BitStream) (v : Bool) : Res BitStream :=
  bs.write_bits_u8 (if v then 1 else 0) 1

/-- BitStream::write_u8 -/
def BitStream.write_u8 (bs : BitStream) (v : Nat) : Res BitStream :=
  bs.write_bits_u8 v 8

/-- The byte-reading loop of BitStream::read_string (`?`-propagating,
no eof tolerance), reading `n` bytes. -/
def BitStream.readBytesStrict (bs : BitStream) : Nat → Res (List Nat × BitStream)
  | 0 => .ok ([], bs)
  | n + 1 => do
    let (b, bs1) ← bs.read_bits_u8 8
    let (rest, bs2) ← bs1.readBytesStrict n
    return (b :: rest, bs2)

/-- Whether a byte list is valid UTF-8, as checked by Rust's
`String::from_utf8` (RFC 3629: no overlongs, no surrogates, at most
U+10FFFF).  Modelled from the Rust standard library's validity rules. -/
def isValidUtf8 : List Nat → Bool
  | [] => true
  | b :: rest =>
    if b < 0x80 then isValidUtf8 rest
    else if b < 0xC2 then false
    else if b < 0xE0 then
      match rest with
      | b2 :: rest2 => 0x80 ≤ b2 && b2 < 0xC0 && isValidUtf8 rest2
      | [] => false
    else if b < 0xF0 then
      match rest with
      | b2 :: b3 :: rest3 =>
        (if b = 0xE0 then 0xA0 ≤ b2 && b2 < 0xC0
         else if b = 0xED then 0x80 ≤ b2 && b2 < 0xA0
         else 0x80 ≤ b2 && b2 < 0xC0) &&
        (0x80 ≤ b3 && b3 < 0xC0) && isValidUtf8 rest3
      | _ => false
    else if b < 0xF5 then
      match rest with
      | b2 :: b3 :: b4 :: rest4 =>
        (if b = 0xF0 then 0x90 ≤ b2 && b2 < 0xC0
         else if b = 0xF4 then 0x80 ≤ b2 && b2 < 0x90
         else 0x80 ≤ b2 && b2 < 0xC0) &&
        (0x80 ≤ b3 && b3 < 0xC0) && (0x80 ≤ b4 && b4 < 0xC0) && isValidUtf8 rest4
      | _ => false
    else false

/-- BitStream::read_string: a 1-byte length, that many raw bytes, then
UTF-8 validation.  A Rust `String` is modelled as its byte list. -/
def BitStream.read_string (bs : BitStream) : Res (List Nat × BitStream) := do
  let (length, bs1) ← bs.read_bits_u8 8
  let (bytes, bs2) ← bs1.readBytesStrict length
  if isValidUtf8 bytes then return (bytes, bs2) else .error .utf8

/-- The byte-writing loop of BitStream::write_string (also the byte
loops of Recording::into_stream). -/
def BitStream.writeBytes (bs : BitStream) : List Nat → Res BitStream
  | [] => .ok bs
  | b :: rest => do
    let bs1 ← bs.write_bits_u8 b 8
    bs1.writeBytes rest

/-- BitStream::write_string: `value.len() as u8` then the raw bytes.
The `as u8` cast is the `% 256` performed by write_bits_u8 on entry. -/
def BitStream.write_string (bs : BitStream) (s : List Nat) : Res BitStream := do
  let bs1 ← bs.write_bits_u8 s.length 8
  bs1.writeBytes s

/-- BitStream::read_optional -/
def BitStream.read_optional {α : Type} (bs : BitStream)
    (f : BitStream → Res (α × BitStream)) : Res (Option α × BitStream) := do
  let (b, bs1) ← bs.read_bool
  if b then
    let (v, bs2) ← f bs1
    return (some v, bs2)
  else return (none, bs1)

/-- BitStream::write_optional -/
def BitStream.write_optional {α : Type} (bs : BitStream) (v : Option α)
    (f : BitStream → α → Res BitStream) : Res BitStream :=
  match v with
  | some val => do
    let bs1 ← bs.write_bool true
    f bs1 val
  | none => bs.write_bool false

/-- Rust's saturating `as u64` cast from f64 (f64 modelled as ℚ):
truncation toward zero, negatives to 0, values at or above 2^64 to
u64::MAX. -/
def castF64U64 (x : ℚ) : Nat :=
  if x < 0 then 0 else min (Int.toNat ⌊x⌋) (2 ^ 64 - 1)

/-- BitStream::read_scaled_f64_bits: raw unsigned integer affine-mapped
by `raw * scale + offset`. -/
def BitStream.read_scaled_f64_bits (bs : BitStream) (bits : Nat) (scale offset : ℚ) :
    Res (ℚ × BitStream) := do
  let (inner, bs1) ← bs.read_bits_u64 bits
  return ((inner : ℚ) * scale + offset, bs1)

/-- BitStream::write_scaled_f64_bits: `(value - offset) / scale` cast to
u64 and written; the range guard of the source is commented out, so no
check happens before the cast. -/
def BitStream.write_scaled_f64_bits (bs : BitStream) (value : ℚ) (bits : Nat)
    (scale offset : ℚ) : Res BitStream :=
  bs.write_bits_u64 (castF64U64 ((value - offset) / scale)) bits

/-! ### The Move / Frame / Recording model (recording.rs) -/

/-- The exact rational value of the f64 constant `std::f64::consts::PI`
(bit pattern 0x400921FB54442D18). -/
def PIf64 : ℚ := 884279719003555 / 2 ^ 48

/-- The `Move` struct (one player's per-frame input sample).  `triggers`
is `[bool; 6]`, modelled as a list that the codec always builds with six
entries. -/
structure Move where
  yaw : Option ℚ
  pitch : Option ℚ
  roll : Option ℚ
  mx : ℚ
  my : ℚ
  mz : ℚ
  freelook : Bool
  triggers : List Bool
deriving DecidableEq, Repr

/-- The `Frame` struct: `moves: [Option<Move>; 2]` modelled as the two
slot fields `m0`, `m1`, plus the u16 `delta`. -/
structure Frame where
  m0 : Option Move
  m1 : Option Move
  delta : Nat
deriving DecidableEq, Repr

/-- Frame::has_move -/
def Frame.has_move (f : Frame) : Bool :=
  f.m0.isSome || f.m1.isSome

/-- The `Recording` struct; the Rust mission `String` is modelled as its
UTF-8 byte list. -/
structure Recording where
  mission : List Nat
  frames : List Frame
deriving DecidableEq, Repr

/-- Move::read_angle: a 16-bit scaled float in [0, 2π) folded into
[-π, π). -/
def Move.read_angle (bs : BitStream) : Res (ℚ × BitStream) := do
  let (angle, bs1) ← bs.read_scaled_f64_bits 16 (PIf64 / 32768) 0
  if PIf64 ≤ angle then return (angle - 2 * PIf64, bs1)
  else return (angle, bs1)

/-- Move::write_angle: negative angles are shifted into [0, 2π) before
quantisation. -/
def Move.write_angle (bs : BitStream) (angle : ℚ) : Res BitStream :=
  let angle := if angle < 0 then angle + 2 * PIf64 else angle
  bs.write_scaled_f64_bits angle 16 (PIf64 / 32768) 0

/-- Move::from_stream -/
def Move.from_stream (bs : BitStream) : Res (Move × BitStream) := do
  let (yaw, bs) ← bs.read_optional Move.read_angle
  let (pitch, bs) ← bs.read_optional Move.read_angle
  let (roll, bs) ← bs.read_optional Move.read_angle
  let (mx, bs) ← bs.read_scaled_f64_bits 6 (1 / 16) (-1)
  let (my, bs) ← bs.read_scaled_f64_bits 6 (1 / 16) (-1)
  let (mz, bs) ← bs.read_scaled_f64_bits 6 (1 / 16) (-1)
  let (freelook, bs) ← bs.read_bool
  let (t0, bs) ← bs.read_bool
  let (t1, bs) ← bs.read_bool
  let (t2, bs) ← bs.read_bool
  let (t3, bs) ← bs.read_bool
  let (t4, bs) ← bs.read_bool
  let (t5, bs) ← bs.read_bool
  return ({ yaw := yaw, pitch := pitch, roll := roll, mx := mx, my := my, mz := mz,
            freelook := freelook, triggers := [t0, t1, t2, t3, t4, t5] }, bs)

/-- Move::into_stream.  The source's `for i in 0..6` trigger loop is the
six indexed writes (`getD i false` is the array access). -/
def Move.into_stream (m : Move) (bs : BitStream) : Res BitStream := do
  let bs ← bs.write_optional m.yaw Move.write_angle
  let bs ← bs.write_optional m.pitch Move.write_angle
  let bs ← bs.write_optional m.roll Move.write_angle
  let bs ← bs.write_scaled_f64_bits m.mx 6 (1 / 16) (-1)
  let bs ← bs.write_scaled_f64_bits m.my 6 (1 / 16) (-1)
  let bs ← bs.write_scaled_f64_bits m.mz 6 (1 / 16) (-1)
  let bs ← bs.write_bool m.freelook
  let bs ← bs.write_bool (m.triggers.getD 0 false)
  let bs ← bs.write_bool (m.triggers.getD 1 false)
  let bs ← bs.write_bool (m.triggers.getD 2 false)
  let bs ← bs.write_bool (m.triggers.getD 3 false)
  let bs ← bs.write_bool (m.triggers.getD 4 false)
  bs.write_bool (m.triggers.getD 5 false)

/-- Frame::from_stream -/
def Frame.from_stream (bs : BitStream) : Res (Frame × BitStream) := do
  let (move0, bs) ← bs.read_optional Move.from_stream
  let (move1, bs) ← bs.read_optional Move.from_stream
  let (delta, bs) ← bs.read_bits_u16 10
  return ({ m0 := move0, m1 := move1, delta := delta }, bs)

/-- Frame::into_stream -/
def Frame.into_stream (f : Frame) (bs : BitStream) : Res BitStream := do
  let bs ← bs.write_optional f.m0 (fun bs mv => mv.into_stream bs)
  let bs ← bs.write_optional f.m1 (fun bs mv => mv.into_stream bs)
  bs.write_bits_u16 f.delta 10

/-- The byte-collecting loop of Recording::from_stream: read `n` bytes,
but stop the whole decode successfully (`none`) if the stream hits EOF
mid-read (`if bs.eof() { return Ok(Recording { mission, frames }) }`). -/
def BitStream.readBytesEof (bs : BitStream) : Nat → Res (Option (List Nat × BitStream))
  | 0 => .ok (some ([], bs))
  | n + 1 =>
    if bs.eof then .ok none
    else do
      let (b, bs1) ← bs.read_bits_u8 8
      let rest ← bs1.readBytesEof n
      return rest.map fun (bytes, bs2) => (b :: bytes, bs2)

/-- The frame loop of Recording::from_stream, returning the frames read
from the cursor on.  `fuel` dominates the number of iterations (each
iteration consumes at least the length byte); the entry point passes
`data.length + 1`, so the fuel-exhausted branch is unreachable. -/
def Recording.readFramesGo : Nat → BitStream → Res (List Frame)
  | 0, _ => .error .readEof
  | fuel + 1, bs =>
    if bs.eof then .ok []
    else do
      let (length, bs1) ← bs.read_u8
      if length = 0 then .ok []
      else
        match ← bs1.readBytesEof length with
        | none => .ok []
        | some (bytes, bs2) => do
          let (f, _) ← Frame.from_stream (BitStream.new bytes)
          let rest ← Recording.readFramesGo fuel bs2
          return f :: rest

/-- Recording::from_stream -/
def Recording.from_stream (bs : BitStream) : Res Recording := do
  let (mission, bs1) ← bs.read_string
  let frames ← Recording.readFramesGo (bs1.data.length + 1) bs1
  return { mission := mission, frames := frames }

/-- The per-frame emission loop of Recording::into_stream: each frame is
encoded into a fresh stream, its byte count floored at 4, and the length
byte, the bytes, then the zero padding are written. -/
def Recording.writeFrames (bs : BitStream) : List Frame → Res BitStream
  | [] => .ok bs
  | f :: rest => do
    let inner ← f.into_stream (BitStream.new [])
    let bytes := inner.data
    let len := max bytes.length 4
    let extra := len - bytes.length
    let bs ← bs.write_u8 len
    let bs ← bs.writeBytes bytes
    let bs ← bs.writeBytes (List.replicate extra 0)
    Recording.writeFrames bs rest

/-- Recording::into_stream -/
def Recording.into_stream (r : Recording) (bs : BitStream) : Res BitStream := do
  let bs1 ← bs.write_string r.mission
  Recording.writeFrames bs1 r.frames

/-- Decoding a byte buffer as done by the callers of
Recording::from_stream (`BitStream::new(bytes)` then from_stream). -/
def Recording.fromBytes (l : List Nat) : Res Recording :=
  Recording.from_stream (BitStream.new l)

/-- Encoding a Recording as done by the callers of
Recording::into_stream (fresh empty stream, then `bytes()`). -/
def Recording.intoBytes (r : Recording) : Res (List Nat) :=
  (r.into_stream (BitStream.new [])).map (·.data)

/-- A Frame's own packed byte form (the fresh inner stream of
Recording::into_stream). -/
def Frame.intoBytes (f : Frame) : Res (List Nat) :=
  (f.into_stream (BitStream.new [])).map (·.data)

/-- Decoding one Frame from an independent byte blob with its own
zero-based cursor, as Recording::from_stream does. -/
def Frame.fromBytes (l : List Nat) : Res Frame :=
  (Frame.from_stream (BitStream.new l)).map (·.1)

/-! ### The TasFile model (tas_rec.rs): data and Recording conversion -/

/-- The `Sequence` struct of the text format (name held as the Rust
String's byte list). -/
structure Sequence where
  name : List Nat
  frames : List Frame
deriving DecidableEq, Repr

/-- The `TasFile` struct. -/
structure TasFile where
  mission : List Nat
  sequences : List Sequence
deriving DecidableEq, Repr

/-- ASCII text as its byte list (every literal below is pure ASCII, so
this is its UTF-8 encoding). -/
def asciiBytes (s : String) : List Nat :=
  s.data.map Char.toNat

/-- TasFile::from_rec -/
def TasFile.from_rec (r : Recording) : TasFile :=
  { mission := r.mission,
    sequences := [{ name := asciiBytes "Imported", frames := r.frames }] }

/-- TasFile::into_rec: the sequences' frame lists concatenated in
order. -/
def TasFile.into_rec (t : TasFile) : Recording :=
  { mission := t.mission, frames := (t.sequences.map (·.frames)).flatten }

/-- The flattened Frame list of a TasFile (the sequence-concatenated
list the spec's round-trip property compares). -/
def TasFile.flatten (t : TasFile) : List Frame :=
  (t.sequences.map (·.frames)).flatten

/-! ### The TAS text printer (tas_rec.rs: TasFile::print and helpers)

The printer renders into a byte list (the Rust code renders into any
`Write` sink; only an in-memory buffer is ever used by the program, and
every `write_fmt` to it succeeds, so the `Result` layer is dropped).

Numbers are printed with Rust's `Display`: a `u16`/`u32` as its decimal
digits (`natDigits`), an `f64` by `fmtF64` below.  Rust prints an f64 as
the shortest decimal string that re-parses to the same f64; under the
development's exact-rational model of f64 this is modelled as the exact
terminating decimal expansion of the (dyadic) rational, which equally
re-parses to exactly the same value, so round-trip behaviour through
`str::parse::<f64>` matches.  For a non-dyadic rational (impossible as
an f64 value) the fallback prints the integer part only; every theorem
below that touches floats assumes dyadic values. -/

/-- Decimal digit bytes of `n`, most significant first (fuel-based; the
fuel `n + 1` never runs out since `n / 10 < n` for `n ≥ 10`). -/
def natDigitsGo : Nat → Nat → List Nat
  | 0, _ => []
  | fuel + 1, n =>
    if n < 10 then [48 + n] else natDigitsGo fuel (n / 10) ++ [48 + n % 10]

/-- Rust `Display` of an unsigned integer: its decimal digit bytes. -/
def natDigits (n : Nat) : List Nat :=
  natDigitsGo (n + 1) n

/-- Left-pad a digit string with `'0'` bytes to length `k`. -/
def padZeros (k : Nat) (l : List Nat) : List Nat :=
  List.replicate (k - l.length) 48 ++ l

/-- Floor base-2 logarithm, fuel-based (`n` halvings always reach a
value below 2, so fuel `n` never runs out; `log2 0 = 0`). -/
def log2Go : Nat → Nat → Nat
  | 0, _ => 0
  | fuel + 1, n => if n < 2 then 0 else log2Go fuel (n / 2) + 1

/-- `Nat.log2`, kernel-reducible. -/
def natLog2 (n : Nat) : Nat :=
  log2Go n n

/-- `Display` of an f64 under the exact-rational model: for a dyadic
value `± M / 2^k` (scaled to `± (M * 5^k) / 10^k`) the exact decimal
expansion with `k` fractional digits, no fractional part when `k = 0`.
See the section comment for the shortest-representation caveat. -/
def fmtF64 (q : ℚ) : List Nat :=
  let sign : List Nat := if q.num < 0 then [45] else []
  let k := natLog2 q.den
  if q.den = 2 ^ k then
    let M := q.num.natAbs * 5 ^ k
    if k = 0 then sign ++ natDigits M
    else sign ++ natDigits (M / 10 ^ k) ++ [46] ++ padZeros k (natDigits (M % 10 ^ k))
  else sign ++ natDigits (q.num.natAbs / q.den)

/-- `mv.triggers[i] as u8` rendered by `Display`: `"1"` or `"0"`. -/
def boolBit (b : Bool) : List Nat :=
  if b then [49] else [48]

/-- TasFile::escape: wrap in double quotes, doubling backslashes and
escaping embedded double quotes. -/
def TasFile.escape (v : List Nat) : List Nat :=
  34 :: (v.map fun b =>
    if b = 92 then [92, 92] else if b = 34 then [92, 34] else [b]).flatten ++ [34]

/-- TasFile::print_move: an indented brace block, with the camera / move
/ triggers lines only when the slot is present (absent yaw/pitch/roll
print as their `unwrap_or(0.0)`). -/
def TasFile.print_move (opt_mv : Option Move) : List Nat :=
  asciiBytes "      \x7b\n" ++
  (match opt_mv with
   | some mv =>
     asciiBytes "         camera (" ++ fmtF64 (mv.yaw.getD 0) ++ [32] ++
       fmtF64 (mv.pitch.getD 0) ++ [32] ++ fmtF64 (mv.roll.getD 0) ++ asciiBytes ")\n" ++
     asciiBytes "         move (" ++ fmtF64 mv.mx ++ [32] ++ fmtF64 mv.my ++ [32] ++
       fmtF64 mv.mz ++ asciiBytes ")\n" ++
     asciiBytes "         triggers (" ++ boolBit (mv.triggers.getD 0 false) ++ [32] ++
       boolBit (mv.triggers.getD 1 false) ++ [32] ++ boolBit (mv.triggers.getD 2 false) ++
       [32] ++ boolBit (mv.triggers.getD 3 false) ++ [32] ++
       boolBit (mv.triggers.getD 4 false) ++ [32] ++ boolBit (mv.triggers.getD 5 false) ++
       asciiBytes ")\n"
   | none => []) ++
  asciiBytes "      \x7d\n"

/-- The inner run counter of TasFile::print_sequence: how many frames at
the head of the list (starting from the one after the current frame)
extend a run of move-less frames with delta `d`. -/
def countRun (d : Nat) : List Frame → Nat
  | [] => 0
  | f :: rest => if f.has_move ∨ f.delta ≠ d then 0 else 1 + countRun d rest

/-- The frame loop of TasFile::print_sequence: renders the frame lines
(with their elapsed-time `//` comments) threading the u32 elapsed
counter; a run of `combined > 1` equal move-less frames collapses into
one `frames` line.  Fuel-based; one list element is consumed per step,
so fuel `frames.length + 1` never runs out. -/
def TasFile.printFrames : Nat → List Frame → Nat → List Nat × Nat
  | 0, _, e => ([], e)
  | _ + 1, [], e => ([], e)
  | fuel + 1, f :: rest, e =>
    let e1 := (e + f.delta) % 2 ^ 32
    if f.has_move then
      let line := asciiBytes "      moveframe " ++ natDigits f.delta ++
        asciiBytes " ms //" ++ natDigits e1 ++ [10] ++
        TasFile.print_move f.m0 ++ TasFile.print_move f.m1
      let next := TasFile.printFrames fuel rest e1
      (line ++ next.1, next.2)
    else
      let combined := 1 + countRun f.delta rest
      if 1 < combined then
        let e2 := (e1 + f.delta * (combined - 1) % 2 ^ 32) % 2 ^ 32
        let line := asciiBytes "      frames " ++ natDigits combined ++ [32] ++
          natDigits f.delta ++ asciiBytes " ms // " ++ natDigits e1 ++
          asciiBytes " -> " ++ natDigits e2 ++ [10]
        let next := TasFile.printFrames fuel (rest.drop (combined - 1)) e2
        (line ++ next.1, next.2)
      else
        let line := asciiBytes "      frame " ++ natDigits f.delta ++
          asciiBytes " ms // " ++ natDigits e1 ++ [10]
        let next := TasFile.printFrames fuel rest e1
        (line ++ next.1, next.2)

/-- TasFile::print_sequence: brace block holding the escaped name and
the frame lines; returns the rendered text and the updated elapsed
counter. -/
def TasFile.print_sequence (seq : Sequence) (elapsed : Nat) : List Nat × Nat :=
  let body := TasFile.printFrames (seq.frames.length + 1) seq.frames elapsed
  (asciiBytes "   \x7b\n      " ++ TasFile.escape seq.name ++ [10] ++ body.1 ++
     asciiBytes "   \x7d\n", body.2)

/-- The sequence loop of TasFile::print, threading the elapsed counter
from 0. -/
def TasFile.printSeqs : List Sequence → Nat → List Nat
  | [], _ => []
  | s :: rest, e =>
    let txt := TasFile.print_sequence s e
    txt.1 ++ TasFile.printSeqs rest txt.2

/-- TasFile::print: outer brace block with the escaped mission, then the
sequences. -/
def TasFile.print (t : TasFile) : List Nat :=
  asciiBytes "\x7b\n   " ++ TasFile.escape t.mission ++ [10] ++
    TasFile.printSeqs t.sequences 0 ++ asciiBytes "\x7d\n"

/-! ### Comment stripping (TasFile::parse, the `//.*` regex pass)

`Regex::replace_all` with pattern `//.*` deletes every maximal run that
starts with two slashes and extends to (not including) the next newline:
`.` matches everything except `\n`. -/

/-- One left-to-right pass deleting `//`-to-end-of-line runs.
Fuel-based; every step consumes at least one byte, so fuel
`length + 1` never runs out. -/
def stripCommentsGo : Nat → List Nat → List Nat
  | 0, l => l
  | _ + 1, [] => []
  | fuel + 1, b :: rest =>
    if b = 47 ∧ rest.headD 0 = 47 then
      stripCommentsGo fuel ((rest.drop 1).dropWhile (fun c => c ≠ 10))
    else b :: stripCommentsGo fuel rest

/-- `re.replace_all(input, "")` for `re = //.*`. -/
def stripComments (l : List Nat) : List Nat :=
  stripCommentsGo (l.length + 1) l

/-- The frame lines of `TasFile.printFrames` with their `//` comments
already removed (what `stripComments` turns them into; the elapsed
counter only ever fed the comments). -/
def cleanFrames : Nat → List Frame → List Nat
  | 0, _ => []
  | _ + 1, [] => []
  | fuel + 1, f :: rest =>
    if f.has_move then
      asciiBytes "      moveframe " ++ natDigits f.delta ++ asciiBytes " ms " ++ [10] ++
        TasFile.print_move f.m0 ++ TasFile.print_move f.m1 ++ cleanFrames fuel rest
    else
      let combined := 1 + countRun f.delta rest
      if 1 < combined then
        asciiBytes "      frames " ++ natDigits combined ++ [32] ++ natDigits f.delta ++
          asciiBytes " ms " ++ [10] ++ cleanFrames fuel (rest.drop (combined - 1))
      else
        asciiBytes "      frame " ++ natDigits f.delta ++ asciiBytes " ms " ++ [10] ++
          cleanFrames fuel rest

/-- A printed sequence after comment removal. -/
def cleanSeq (s : Sequence) : List Nat :=
  asciiBytes "   \x7b\n      " ++ TasFile.escape s.name ++ [10] ++
    cleanFrames (s.frames.length + 1) s.frames ++ asciiBytes "   \x7d\n"

/-- Printed sequences after comment removal. -/
def cleanSeqs : List Sequence → List Nat
  | [] => []
  | s :: rest => cleanSeq s ++ cleanSeqs rest

/-- A printed TasFile after comment removal: what `TasFile.parse`
actually hands to the grammar. -/
def cleanPrint (t : TasFile) : List Nat :=
  asciiBytes "\x7b\n   " ++ TasFile.escape t.mission ++ [10] ++ cleanSeqs t.sequences ++
    asciiBytes "\x7d\n"

/-! ### The nom 5.1 parser model (tas_rec.rs grammar)

A parser takes the remaining input and yields either `ok rest value`, a
recoverable `fail` (nom's `Err::Error` — an `alt`/`opt` may try
something else), or an unrecoverable `abort` (nom's `Err::Failure`,
produced by `cut`).  The `VerboseError` payload (error contexts and
spans) only feeds the error message, so it is not modelled, and
`context(..)` wrappers are identity.  All complete-input (`&str`)
combinators are modelled; `Incomplete` never arises for them. -/

inductive PRes (α : Type) where
  | ok (rest : List Nat) (val : α)
  | fail
  | abort
deriving DecidableEq, Repr

abbrev Parser (α : Type) := List Nat → PRes α

/-- nom `map` -/
def pMap {α β : Type} (p : Parser α) (f : α → β) : Parser β := fun i =>
  match p i with
  | .ok r v => .ok r (f v)
  | .fail => .fail
  | .abort => .abort

/-- Sequencing as used by nom's `tuple`/`pair`: run `p`, then `q` on its
rest, pairing the results. -/
def pThen {α β : Type} (p : Parser α) (q : Parser β) : Parser (α × β) := fun i =>
  match p i with
  | .ok r v =>
    match q r with
    | .ok r2 w => .ok r2 (v, w)
    | .fail => .fail
    | .abort => .abort
  | .fail => .fail
  | .abort => .abort

/-- nom `preceded` -/
def pPreceded {α β : Type} (p : Parser α) (q : Parser β) : Parser β :=
  pMap (pThen p q) (·.2)

/-- nom `terminated` -/
def pTerminated {α β : Type} (p : Parser α) (q : Parser β) : Parser α :=
  pMap (pThen p q) (·.1)

/-- nom `delimited` -/
def pDelimited {α β γ : Type} (a : Parser α) (b : Parser β) (c : Parser γ) : Parser β :=
  pPreceded a (pTerminated b c)

/-- nom `separated_pair` -/
def pSeparatedPair {α σ β : Type} (a : Parser α) (s : Parser σ) (b : Parser β) :
    Parser (α × β) :=
  pMap (pThen a (pThen s b)) fun v => (v.1, v.2.2)

/-- nom `opt`: an `Err::Error` becomes `none` without consuming;
`Err::Failure` still propagates. -/
def pOpt {α : Type} (p : Parser α) : Parser (Option α) := fun i =>
  match p i with
  | .ok r v => .ok r (some v)
  | .fail => .ok i none
  | .abort => .abort

/-- nom `cut`: upgrade a recoverable error to a failure. -/
def pCut {α : Type} (p : Parser α) : Parser α := fun i =>
  match p i with
  | .ok r v => .ok r v
  | .fail => .abort
  | .abort => .abort

/-- nom `alt` over two branches: the second runs only on `Err::Error`. -/
def pAlt2 {α : Type} (p q : Parser α) : Parser α := fun i =>
  match p i with
  | .ok r v => .ok r v
  | .fail => q i
  | .abort => .abort

/-- nom `alt` over three branches. -/
def pAlt3 {α : Type} (p q r : Parser α) : Parser α :=
  pAlt2 p (pAlt2 q r)

/-- nom `char` (complete): match one exact byte. -/
def pChar (c : Nat) : Parser Nat := fun i =>
  match i with
  | b :: rest => if b = c then .ok rest c else .fail
  | [] => .fail

/-- nom `one_of` (complete): match one byte from a set. -/
def pOneOf (set : List Nat) : Parser Nat := fun i =>
  match i with
  | b :: rest => if b ∈ set then .ok rest b else .fail
  | [] => .fail

/-- nom `tag` (complete): match an exact byte string. -/
def pTag (t : List Nat) : Parser (List Nat) := fun i =>
  if i.take t.length = t then .ok (i.drop t.length) t else .fail

/-- nom `take_while` (complete): longest (possibly empty) prefix
satisfying the predicate. -/
def pTakeWhile (f : Nat → Bool) : Parser (List Nat) := fun i =>
  .ok (i.dropWhile f) (i.takeWhile f)

/-- Byte-set membership as a Bool predicate. -/
def inSet (set : List Nat) (b : Nat) : Bool :=
  decide (b ∈ set)

/-- Byte-set non-membership as a Bool predicate. -/
def notInSet (set : List Nat) (b : Nat) : Bool :=
  decide (b ∉ set)

/-- ASCII decimal digit test. -/
def isDigitB (b : Nat) : Bool :=
  decide (48 ≤ b ∧ b ≤ 57)

/-- nom `is_not` (complete): longest prefix containing no byte of the
set; errors if that prefix is empty. -/
def pIsNot (set : List Nat) : Parser (List Nat) := fun i =>
  let run := i.takeWhile (notInSet set)
  if run.isEmpty then .fail else .ok (i.drop run.length) run

/-- nom `is_a` (complete): longest prefix of bytes from the set; errors
if that prefix is empty. -/
def pIsA (set : List Nat) : Parser (List Nat) := fun i =>
  let run := i.takeWhile (inSet set)
  if run.isEmpty then .fail else .ok (i.drop run.length) run

/-- nom `digit1` (complete): one or more ASCII decimal digits. -/
def digit1 : Parser (List Nat) := fun i =>
  let run := i.takeWhile isDigitB
  if run.isEmpty then .fail else .ok (i.drop run.length) run

/-- The loop of nom `escaped(normal, '\\', one_of(esc))` (complete): the
recognized span is returned as a raw slice, with no unescaping.  `input`
is the full input (for slicing), `i` the current position.  Each
recursive call strictly consumes, so fuel `input.length + 1` never runs
out. -/
def escapedGo (normal : Parser (List Nat)) (esc : List Nat) :
    Nat → List Nat → List Nat → PRes (List Nat)
  | 0, _, _ => .fail
  | fuel + 1, input, i =>
    if i.isEmpty then .ok [] input
    else
      match normal i with
      | .ok i2 _ =>
        if i2.isEmpty then .ok [] input
        else if i.length ≤ i2.length then .ok i (input.take (input.length - i.length))
        else escapedGo normal esc fuel input i2
      | .abort => .abort
      | .fail =>
        if i.headD 0 = 92 then
          match i with
          | [_] => .fail
          | _ :: i1 =>
            match pOneOf esc i1 with
            | .ok i2 _ =>
              if i2.isEmpty then .ok [] input
              else escapedGo normal esc fuel input i2
            | .fail => .fail
            | .abort => .abort
          | [] => .fail
        else .ok i (input.take (input.length - i.length))

/-- nom `escaped` (complete). -/
def pEscaped (normal : Parser (List Nat)) (esc : List Nat) : Parser (List Nat) :=
  fun input => escapedGo normal esc (input.length + 1) input input

/-- The loop of nom 5.1 `many0`, after at least one element has been
consumed.  nom's infinite-loop guard errors when an iteration consumes
nothing; positions of suffixes of one input are compared by length.
Every surviving iteration strictly consumes, so fuel `i.length + 1`
never runs out. -/
def many0Go {α : Type} (p : Parser α) : Nat → List Nat → PRes (List α)
  | 0, _ => .fail
  | fuel + 1, i =>
    match p i with
    | .fail => .ok i []
    | .abort => .abort
    | .ok i1 v =>
      if i.length ≤ i1.length then .fail
      else
        match many0Go p fuel i1 with
        | .ok i2 vs => .ok i2 (v :: vs)
        | .fail => .fail
        | .abort => .abort

/-- nom `many0`. -/
def many0 {α : Type} (p : Parser α) : Parser (List α) := fun i =>
  many0Go p (i.length + 1) i

/-- The loop of nom 5.1 `separated_list` after the first element:
separator then element, stopping (keeping the pre-separator position) on
a recoverable error of either, with no-progress guards after the
separator and after the element (against the pre-separator position). -/
def sepListGo {σ α : Type} (sep : Parser σ) (p : Parser α) : Nat → List Nat → PRes (List α)
  | 0, _ => .fail
  | fuel + 1, i =>
    match sep i with
    | .fail => .ok i []
    | .abort => .abort
    | .ok i1 _ =>
      if i.length ≤ i1.length then .fail
      else
        match p i1 with
        | .fail => .ok i []
        | .abort => .abort
        | .ok i2 v =>
          if i.length ≤ i2.length then .fail
          else
            match sepListGo sep p fuel i2 with
            | .ok i3 vs => .ok i3 (v :: vs)
            | .fail => .fail
            | .abort => .abort

/-- nom 5.1 `separated_list`: a recoverable error of the first element
yields the empty list; the first element must consume. -/
def separated_list {σ α : Type} (sep : Parser σ) (p : Parser α) : Parser (List α) :=
  fun i =>
  match p i with
  | .fail => .ok i []
  | .abort => .abort
  | .ok i1 v =>
    if i.length ≤ i1.length then .fail
    else
      match sepListGo sep p (i1.length + 1) i1 with
      | .ok i2 vs => .ok i2 (v :: vs)
      | .fail => .fail
      | .abort => .abort

/-- The body of nom `recognize_float`: optional sign, then digits with
optional fraction or a leading-dot fraction, then an optional exponent
whose digit part is `cut`. -/
def recognizeFloatInner : Parser Unit :=
  pMap
    (pThen (pOpt (pAlt2 (pChar 43) (pChar 45)))
      (pThen
        (pAlt2
          (pMap (pThen digit1 (pOpt (pThen (pChar 46) (pOpt digit1)))) fun _ => ())
          (pMap (pThen (pChar 46) digit1) fun _ => ()))
        (pOpt (pThen (pAlt2 (pChar 101) (pChar 69))
          (pThen (pOpt (pAlt2 (pChar 43) (pChar 45))) (pCut digit1))))))
    fun _ => ()

/-- nom `recognize_float`: the consumed span as a slice. -/
def recognizeFloat : Parser (List Nat) := fun i =>
  match recognizeFloatInner i with
  | .ok rest _ => .ok rest (i.take (i.length - rest.length))
  | .fail => .fail
  | .abort => .abort

/-- Digit bytes read as a decimal number (the accumulator fold of a
decimal literal). -/
def digitsToNat (l : List Nat) : Nat :=
  l.foldl (fun a b => a * 10 + (b - 48)) 0

/-- The exact rational value of a span recognized by `recognizeFloat`:
optional sign, integer digits, optional `.` + fraction digits, optional
`e`/`E` exponent.  Rust's `str::parse::<f64>` rounds this value to the
nearest f64; under the exact-rational f64 model the value itself is
kept (exact for every span the printer emits). -/
def parseFloatBytes (l : List Nat) : ℚ :=
  let sp1 : ℚ × List Nat :=
    if l.headD 0 = 45 then (-1, l.drop 1)
    else if l.headD 0 = 43 then (1, l.drop 1)
    else (1, l)
  let ip := sp1.2.takeWhile isDigitB
  let l2 := sp1.2.dropWhile isDigitB
  let fp2 : List Nat × List Nat :=
    if l2.headD 0 = 46 then
      ((l2.drop 1).takeWhile isDigitB, (l2.drop 1).dropWhile isDigitB)
    else ([], l2)
  let mant : ℚ := (digitsToNat ip : ℚ) + (digitsToNat fp2.1 : ℚ) / 10 ^ fp2.1.length
  let ed := (fp2.2.drop 1).headD 0
  let ex : Int :=
    if fp2.2 = [] then 0
    else if ed = 45 then -(digitsToNat ((fp2.2.drop 2).takeWhile isDigitB) : Int)
    else if ed = 43 then (digitsToNat ((fp2.2.drop 2).takeWhile isDigitB) : Int)
    else (digitsToNat ((fp2.2.drop 1).takeWhile isDigitB) : Int)
  sp1.1 * mant * (10 : ℚ) ^ ex

/-- nom `double` (complete): recognize a float span and parse it. -/
def double : Parser ℚ := fun i =>
  match recognizeFloat i with
  | .ok rest txt => .ok rest (parseFloatBytes txt)
  | .fail => .fail
  | .abort => .abort

/-! ### The grammar rules of tas_rec.rs -/

/-- The whitespace set of `sp`: space, tab, CR, LF. -/
def wsChar (b : Nat) : Bool :=
  b = 32 || b = 9 || b = 13 || b = 10

/-- sp -/
def sp : Parser (List Nat) :=
  pTakeWhile wsChar

/-- ws_before -/
def ws_before {α : Type} (inner : Parser α) : Parser α :=
  pPreceded (pOpt sp) inner

/-- ws_wrap -/
def ws_wrap {α : Type} (inner : Parser α) : Parser α :=
  pPreceded (pOpt sp) (pTerminated inner (pOpt sp))

/-- delim_context_cut (the `context` wrapper only labels errors). -/
def delim_context_cut {α β γ : Type} (before : Parser α) (inner : Parser β)
    (after : Parser γ) : Parser β :=
  pPreceded before (pCut (pTerminated inner after))

/-- parse_str: `escaped(is_not("\"\\"), '\\', one_of("\"n\\"))` — the
raw span between the quotes, escapes left in place. -/
def parse_str : Parser (List Nat) :=
  pEscaped (pIsNot [34, 92]) [34, 110, 92]

/-- string -/
def stringRule : Parser (List Nat) :=
  pPreceded (pChar 34) (pCut (pTerminated parse_str (pChar 34)))

/-- Rust `as u16` from f64: saturating cast (negative to 0, NaN never
arises in the model). -/
def castF64U16 (q : ℚ) : Nat :=
  if q < 0 then 0 else min (Int.toNat ⌊q⌋) (2 ^ 16 - 1)

/-- Rust `as usize` from f64 (64-bit target): saturating cast. -/
def castF64Usize (q : ℚ) : Nat :=
  if q < 0 then 0 else min (Int.toNat ⌊q⌋) (2 ^ 64 - 1)

/-- empty_frame: `<ms> ms` — one move-less frame. -/
def empty_frame : Parser (List Frame) :=
  ws_before (pMap (pTerminated double (pPreceded sp (pTag (asciiBytes "ms"))))
    fun ms => [{ m0 := none, m1 := none, delta := castF64U16 ms }])

/-- empty_frames: `<n> [<ms> ms]` — `n` move-less frames, delta
defaulting to 1. -/
def empty_frames : Parser (List Frame) :=
  ws_before (pMap
    (pThen double (pOpt (pDelimited sp double (pPreceded sp (pTag (asciiBytes "ms"))))))
    fun nm => List.replicate (castF64Usize nm.1)
      { m0 := none, m1 := none, delta := (nm.2.map castF64U16).getD 1 })

/-- float3: `( f f f )` with optional whitespace, cut after `(`. -/
def float3 : Parser (ℚ × ℚ × ℚ) :=
  delim_context_cut (pChar 40)
    (ws_wrap (pThen (pPreceded (pOpt sp) double)
      (pThen (pPreceded (pOpt sp) double) (pPreceded (pOpt sp) double))))
    (pChar 41)

/-- `a.chars().nth(0).map_or(false, |ch| ch == '1')` on an `is_a("01")`
run. -/
def bit01 (l : List Nat) : Bool :=
  l.headD 0 = 49

/-- bool6: `( b b b b b b )` of `is_a("01")` runs, cut after `(`. -/
def bool6 : Parser (Bool × Bool × Bool × Bool × Bool × Bool) :=
  delim_context_cut (pChar 40)
    (ws_wrap (pMap
      (pThen (pPreceded (pOpt sp) (pIsA [48, 49]))
        (pThen (pPreceded (pOpt sp) (pIsA [48, 49]))
          (pThen (pPreceded (pOpt sp) (pIsA [48, 49]))
            (pThen (pPreceded (pOpt sp) (pIsA [48, 49]))
              (pThen (pPreceded (pOpt sp) (pIsA [48, 49]))
                (pPreceded (pOpt sp) (pIsA [48, 49])))))))
      fun t => (bit01 t.1, bit01 t.2.1, bit01 t.2.2.1, bit01 t.2.2.2.1,
        bit01 t.2.2.2.2.1, bit01 t.2.2.2.2.2)))
    (pChar 41)

/-- move_inner: camera / move / triggers lines.  Note the construction:
yaw/pitch/roll always `Some`, `freelook` always `true`. -/
def move_inner : Parser Move :=
  ws_wrap (pMap
    (pThen (pPreceded (pTag (asciiBytes "camera")) (ws_wrap float3))
      (pThen (pPreceded (pTag (asciiBytes "move")) (ws_wrap float3))
        (pPreceded (pTag (asciiBytes "triggers")) (ws_wrap bool6))))
    fun v =>
      { yaw := some v.1.1, pitch := some v.1.2.1, roll := some v.1.2.2,
        mx := v.2.1.1, my := v.2.1.2.1, mz := v.2.1.2.2, freelook := true,
        triggers := [v.2.2.1, v.2.2.2.1, v.2.2.2.2.1, v.2.2.2.2.2.1,
          v.2.2.2.2.2.2.1, v.2.2.2.2.2.2.2] })

/-- move_: `{ [move_inner] }`, cut after `{`. -/
def move_ : Parser (Option Move) :=
  delim_context_cut (pChar 123) (ws_before (pOpt move_inner)) (pChar 125)

/-- move_frame: `<ms> ms <move_> <move_>` — one frame with two move
slots. -/
def move_frame : Parser (List Frame) :=
  ws_before (pMap
    (pSeparatedPair (pTerminated double (pPreceded sp (pTag (asciiBytes "ms"))))
      sp (pSeparatedPair move_ sp move_))
    fun v => [{ m0 := v.2.1, m1 := v.2.2, delta := castF64U16 v.1 }])

/-- frame: `frames …` | `frame …` | `moveframe …`, each cut after its
keyword. -/
def frameRule : Parser (List Frame) :=
  pAlt3 (pPreceded (pTag (asciiBytes "frames")) (pCut empty_frames))
        (pPreceded (pTag (asciiBytes "frame")) (pCut empty_frame))
        (pPreceded (pTag (asciiBytes "moveframe")) (pCut move_frame))

/-- sequence: `{ "name" frame* }` with `sp`-separated frames, the frame
lists concatenated. -/
def sequenceRule : Parser Sequence :=
  delim_context_cut (pChar 123)
    (ws_wrap (pMap (pSeparatedPair stringRule sp (separated_list sp frameRule))
      fun v => { name := v.1, frames := v.2.flatten }))
    (pChar 125)

/-- tasfile: `{ "mission" sequence* }`. -/
def tasfile : Parser TasFile :=
  delim_context_cut (pChar 123)
    (pMap (pThen (ws_wrap stringRule) (many0 (ws_wrap sequenceRule)))
      fun v => { mission := v.1, sequences := v.2 })
    (pChar 125)

/-- TasFile::parse: strip `//` comments, run the grammar, and collapse
both error variants (whose payload only feeds the message) to the
parse-error kind. -/
def TasFile.parse (input : List Nat) : Res TasFile :=
  match tasfile (stripComments input) with
  | .ok _ tf => .ok tf
  | _ => .error .parseErr

/-! ### What a print → parse round trip preserves

`move_inner` reconstructs every move with `yaw`/`pitch`/`roll` wrapped
in `Some` (the printer substituted 0.0 for an absent one), `freelook`
hard-coded to `true` (the printer never emits it), and exactly the six
printed triggers.  The following maps state that normalization. -/

/-- The move a print → parse round trip returns in place of `mv`. -/
def moveNorm (mv : Move) : Move :=
  { yaw := some (mv.yaw.getD 0), pitch := some (mv.pitch.getD 0),
    roll := some (mv.roll.getD 0), mx := mv.mx, my := mv.my, mz := mv.mz,
    freelook := true,
    triggers := [mv.triggers.getD 0 false, mv.triggers.getD 1 false,
      mv.triggers.getD 2 false, mv.triggers.getD 3 false, mv.triggers.getD 4 false,
      mv.triggers.getD 5 false] }

/-- Frame-wise normalization: both move slots normalized, delta kept. -/
def frameNorm (f : Frame) : Frame :=
  { m0 := f.m0.map moveNorm, m1 := f.m1.map moveNorm, delta := f.delta }

/-- TasFile-wise normalization: structure and names kept, every frame
normalized. -/
def tasNormalize (t : TasFile) : TasFile :=
  { mission := t.mission,
    sequences := t.sequences.map fun s => { name := s.name, frames := s.frames.map frameNorm } }

/-- Text that prints into a quoted literal the comment pass and the
grammar read back verbatim: printable ASCII without `"`, `/` or `\`
(escapes are not unescaped by `parse_str`, a `//` would be taken for a
comment, and a newline would restart `sp`). -/
def safeText (s : List Nat) : Bool :=
  s.all fun b => decide (32 ≤ b ∧ b ≤ 126 ∧ b ≠ 34 ∧ b ≠ 47 ∧ b ≠ 92)

/-- A rational that is an exact f64-style dyadic: denominator a power of
two (every actual f64 value satisfies this). -/
def dyadicQ (q : ℚ) : Bool :=
  q.den == 2 ^ natLog2 q.den

/-- A move all of whose printed floats are dyadic (exactly
re-parseable). -/
def moveSafe (mv : Move) : Bool :=
  dyadicQ (mv.yaw.getD 0) && dyadicQ (mv.pitch.getD 0) && dyadicQ (mv.roll.getD 0) &&
    dyadicQ mv.mx && dyadicQ mv.my && dyadicQ mv.mz

/-- A frame whose delta fits u16 and whose moves are safe. -/
def frameSafe (f : Frame) : Bool :=
  decide (f.delta < 2 ^ 16) && f.m0.all moveSafe && f.m1.all moveSafe

/-- A sequence with safe name and frames; the length bound keeps a
collapsed `frames <n>` count exactly f64-representable. -/
def seqSafe (s : Sequence) : Bool :=
  safeText s.name && decide (s.frames.length < 2 ^ 53) && s.frames.all frameSafe

/-- A TasFile the round-trip theorem covers. -/
def tasSafe (t : TasFile) : Bool :=
  safeText t.mission && t.sequences.all seqSafe

/-- The counterexample to claim C3's literal statement: one moveframe
whose move has `freelook := false`. -/
def c3Move : Move :=
  { yaw := some 0, pitch := some 0, roll := some 0, mx := 0, my := 0, mz := 0,
    freelook := false, triggers := [false, false, false, false, false, false] }

/-- The TasFile of that counterexample: one sequence holding one
moveframe with `c3Move` in slot 0. -/
def c3X : TasFile :=
  { mission := [],
    sequences := [{ name := [], frames := [{ m0 := some c3Move, m1 := none, delta := 16 }] }] }

/-! ### Concrete instances used by counterexamples and witnesses -/

/-- Mission `Test Mission` as UTF-8 bytes. -/
def testMission : List Nat := asciiBytes "Test Mission"

/-- The Recording of spec §8's worked example: mission `Test Mission`,
one Frame with both move slots absent and delta 16. -/
def testRecording : Recording :=
  { mission := testMission, frames := [{ m0 := none, m1 := none, delta := 16 }] }

/-- The byte sequence spec §8 (and claim C2) asserts for
`testRecording`. -/
def claimedC2Bytes : List Nat :=
  [12, 84, 101, 115, 116, 32, 77, 105, 115, 115, 105, 111, 110, 4, 0x10, 0, 0, 0, 0]

/-- The byte sequence the code actually produces for `testRecording`. -/
def actualC2Bytes : List Nat :=
  [12, 84, 101, 115, 116, 32, 77, 105, 115, 115, 105, 111, 110, 4, 0x40, 0, 0, 0]

/-- Streams whose byte entries are u8 values and whose bit cursor is in
[0, 8): the typing invariant every Rust-reachable stream satisfies. -/
def BitStream.wf (bs : BitStream) : Prop :=
  (∀ b ∈ bs.data, b < 256) ∧ bs.bit_offset < 8

/-- A write cursor standing aligned at the end of the buffer (the state
of every outer stream between whole-byte writes). -/
def BitStream.atEnd (bs : BitStream) : Prop :=
  bs.bit_offset = 0 ∧ bs.byte_offset = bs.data.length

/-- A sequence of length-prefixed frame blocks as laid out in an encoded
recording: each block is its length byte followed by its payload. -/
def encBlocks (blocks : List (List Nat)) : List Nat :=
  (blocks.map fun b => b.length :: b).flatten

/-- The cursor's absolute bit position. -/
def BitStream.bitPos (bs : BitStream) : Nat :=
  8 * bs.byte_offset + bs.bit_offset

/-- Invariant of every stream reachable by writes from an empty stream:
the bit cursor is in [0, 8) and the buffer holds exactly the bytes
written so far (one trailing partial byte when the bit cursor is
mid-byte). -/
def BitStream.winv (bs : BitStream) : Prop :=
  bs.bit_offset < 8 ∧
  bs.data.length = bs.byte_offset + (if bs.bit_offset = 0 then 0 else 1)

/-- The round trip claim C1 quantifies: write `v` with `bits` bits via
write_bits_u64 into a stream whose cursor starts at bit offset `off`,
then read `bits` bits back from the produced bytes at the same starting
offset. -/
def roundtrip64 (v bits off : Nat) : Res Nat := do
  let bs ← (BitStream.mk [] off 0).write_bits_u64 v bits
  let (r, _) ← (BitStream.mk bs.data off 0).read_bits_u64 bits
  return r

deriving instance DecidableEq for Except

/-- A following byte after which every number-like parser stops: the
printer only ever puts a space or a closing parenthesis there. -/
def numStop (r : List Nat) : Prop :=
  ∀ x ∈ r.take 1, x = 32 ∨ x = 41

/-- The ws-stripped remainder of the printed text at a sequence
boundary: the position where `many0 (ws_wrap sequenceRule)` resumes. -/
def seqsTail : List Sequence → List Nat → List Nat
  | [], r => 125 :: r
  | s :: rest, r =>
    123 :: (10 :: (asciiBytes "      " ++ (TasFile.escape s.name ++ (10 ::
      (cleanFrames (s.frames.length + 1) s.frames ++ (asciiBytes "   " ++
        (125 :: (10 :: (cleanSeqs rest ++ 125 :: r)))))))))

/-! ## Theorems -/

/-- Destructor for a successful monadic bind over `Except`. -/
theorem bind_ok {α β : Type} {e : Res α} {f : α → Res β} {c : β}
    (h : e.bind f = .ok c) : ∃ a, e = .ok a ∧ f a = .ok c := by
  cases e with
  | ok a => exact ⟨a, rfl, h⟩
  | error err => simp [Except.bind] at h

/-- Claim C9: converting a Recording to a TasFile and back yields the
original Recording: the mission is unchanged and the frames are the
concatenation of the single generated sequence's frames. -/
theorem c9_rec_tas_roundtrip (r : Recording) : (TasFile.from_rec r).into_rec = r := by
  cases r
  simp [TasFile.from_rec, TasFile.into_rec]

/-- Claim C1 (code bug): the spec's round trip `read(write(v, n), n) = v`
fails at n = 33, v = 2^24, starting bit offset 0: the readback is 0, not
2^24, because write_bits_u64 masks its low half with the 24-bit mask
0xFF_FF_FF instead of a 32-bit mask. -/
theorem c1_write_read_u64_bug :
    roundtrip64 (2 ^ 24) 33 0 = .ok 0 ∧ (0 : Nat) ≠ 2 ^ 24 := by
  constructor
  · rfl
  · decide

/-- Claim C2 (counterexample): encoding the `Test Mission` single-frame
Recording does not produce the byte sequence the claim states (delta 16
lands at 0x40 behind the two presence bits, and no terminating
zero-length byte is emitted). -/
theorem c2_example_bytes_claim_false :
    Recording.intoBytes testRecording ≠ .ok claimedC2Bytes := by
  decide

/-- Claim C2 (amended): the encoding is the mission length byte, the
ASCII mission, frame-length byte 4, the frame bytes 0x40 0x00 (two zero
presence bits, then delta 16 packed low-bit-first), zero padding up to
4 bytes, and no terminating zero-length byte. -/
theorem c2_example_bytes_actual :
    Recording.intoBytes testRecording = .ok actualC2Bytes := by
  decide

/-- The u8 mask `0xFF >> (8 - e)` is the low-`e`-bits mask. -/
theorem mask8_eq : ∀ e, e ≤ 8 → 0xFF >>> (8 - e) = 2 ^ e - 1 := by decide

/-- Right-shifting a value below `2 ^ m` by `k ≤ m` lands below
`2 ^ (m - k)`. -/
theorem shiftRight_lt_pow {x m k : Nat} (hx : x < 2 ^ m) (hk : k ≤ m) :
    x >>> k < 2 ^ (m - k) := by
  rw [Nat.shiftRight_eq_div_pow]
  have h2 : 0 < 2 ^ k := Nat.pos_pow_of_pos k (by omega)
  rw [Nat.div_lt_iff_lt_mul h2, ← Nat.pow_add]
  have : m - k + k = m := by omega
  rwa [this]

/-- Masking with the low-`e`-bits mask bounds the result. -/
theorem and_mask_lt {x e : Nat} (he : e ≤ 8) : x &&& (0xFF >>> (8 - e)) < 2 ^ e := by
  rw [mask8_eq e he]
  exact Nat.and_lt_two_pow x (by have := Nat.pos_pow_of_pos e (show 0 < 2 by omega); omega)

/-- Entries of a byte list are below 256 wherever the list is indexed
with a default of 0. -/
theorem getD_lt256 {l : List Nat} (hdata : ∀ b ∈ l, b < 256) (i : Nat) :
    l.getD i 0 < 256 := by
  induction l generalizing i with
  | nil => simp [List.getD]
  | cons a t ih =>
    cases i with
    | zero => simpa using hdata a (by simp)
    | succ n =>
      simp only [List.getD_cons_succ]
      exact ih (fun b hb => hdata b (by simp [hb])) n

/-- Success anatomy of read_bits_u8 on a well-formed stream: the value
fits the requested width, well-formedness is preserved and the buffer is
untouched. -/
theorem read_bits_u8_ok {bs bs' : BitStream} {v bits : Nat} (hwf : bs.wf)
    (h : bs.read_bits_u8 bits = .ok (v, bs')) :
    v < 2 ^ bits ∧ bs'.wf ∧ bs'.data = bs.data := by
  obtain ⟨hdata, hbo⟩ := hwf
  unfold BitStream.read_bits_u8 at h
  split at h
  · simp at h
  split at h
  · simp at h
  rename_i hbits heof
  push_neg at hbits
  split at h
  · rename_i hcross
    simp only [Except.ok.injEq, Prod.mk.injEq] at h
    obtain ⟨hv, hbs'⟩ := h
    subst hbs'
    subst hv
    have hmod : (bs.bit_offset + bits) % 8 = bs.bit_offset + bits - 8 := by omega
    have hbyte : bs.data.getD bs.byte_offset 0 < 2 ^ 8 := getD_lt256 hdata _
    have hfirst : bs.data.getD bs.byte_offset 0 >>> bs.bit_offset < 2 ^ bits := by
      have h1 : bs.data.getD bs.byte_offset 0 >>> bs.bit_offset < 2 ^ (8 - bs.bit_offset) :=
        shiftRight_lt_pow hbyte (by omega)
      exact lt_of_lt_of_le h1 (Nat.pow_le_pow_right (by omega) (by omega))
    refine ⟨?_, ⟨hdata, by simp [hmod]; omega⟩, rfl⟩
    split
    · rename_i hextra
      apply Nat.or_lt_two_pow hfirst
      calc ((bs.data.getD (bs.byte_offset + 1) 0 &&&
              (0xFF >>> (8 - (bs.bit_offset + bits) % 8))) <<<
                (bits - (bs.bit_offset + bits) % 8)) % 256
          ≤ (bs.data.getD (bs.byte_offset + 1) 0 &&&
              (0xFF >>> (8 - (bs.bit_offset + bits) % 8))) <<<
                (bits - (bs.bit_offset + bits) % 8) := Nat.mod_le _ _
        _ < 2 ^ ((bs.bit_offset + bits) % 8) * 2 ^ (bits - (bs.bit_offset + bits) % 8) := by
            rw [Nat.shiftLeft_eq]
            exact mul_lt_mul_of_pos_right (and_mask_lt (by omega))
              (Nat.pos_pow_of_pos _ (by omega))
        _ = 2 ^ bits := by rw [← Nat.pow_add]; congr 1; omega
    · exact hfirst
  · rename_i hsmall
    simp only [Except.ok.injEq, Prod.mk.injEq] at h
    obtain ⟨hv, hbs'⟩ := h
    subst hbs'
    subst hv
    refine ⟨and_mask_lt (by omega), ⟨hdata, by simp; omega⟩, rfl⟩

/-- Bind on a ready `ok` value steps to the continuation. -/
theorem ok_bind {α β : Type} (a : α) (f : α → Res β) : (Except.ok a : Res α) >>= f = f a := rfl

/-- Destructor for a successful `pure` over `Except`. -/
theorem pure_ok {α : Type} {a c : α} (h : (pure a : Res α) = .ok c) : a = c := by
  simpa [pure, Except.pure] using h

/-- Composing two widths: `lo ||| hi <<< k` fits `k + m` bits. -/
theorem or_shift_lt {lo hi k m : Nat} (hlo : lo < 2 ^ k) (hhi : hi < 2 ^ m) :
    lo ||| hi <<< k < 2 ^ (k + m) := by
  apply Nat.or_lt_two_pow
  · exact lt_of_lt_of_le hlo (Nat.pow_le_pow_right (by omega) (by omega))
  · rw [Nat.shiftLeft_eq]
    calc hi * 2 ^ k < 2 ^ m * 2 ^ k :=
          mul_lt_mul_of_pos_right hhi (Nat.pos_pow_of_pos _ (by omega))
      _ = 2 ^ (k + m) := by rw [← Nat.pow_add]; congr 1; omega

/-- Success anatomy of read_bits_u16 (chained from read_bits_u8). -/
theorem read_bits_u16_ok {bs bs' : BitStream} {v bits : Nat} (hwf : bs.wf)
    (h : bs.read_bits_u16 bits = .ok (v, bs')) :
    v < 2 ^ bits ∧ bs'.wf ∧ bs'.data = bs.data := by
  unfold BitStream.read_bits_u16 at h
  obtain ⟨⟨lo, bs1⟩, h1, h2⟩ := bind_ok h
  dsimp only at h2
  obtain ⟨hlo, hwf1, hd1⟩ := read_bits_u8_ok hwf h1
  by_cases hb : bits ≤ 8
  · rw [if_pos hb] at h2
    obtain ⟨h3, h4⟩ := Prod.mk.injEq .. ▸ pure_ok h2
    subst h3; subst h4
    refine ⟨lt_of_lt_of_le hlo (by rw [min_eq_left hb]), hwf1, hd1⟩
  · rw [if_neg hb] at h2
    obtain ⟨⟨hi, bs2⟩, h3, h4⟩ := bind_ok h2
    dsimp only at h4
    obtain ⟨hhi, hwf2, hd2⟩ := read_bits_u8_ok hwf1 h3
    obtain ⟨h5, h6⟩ := Prod.mk.injEq .. ▸ pure_ok h4
    subst h5; subst h6
    have hv : lo ||| hi <<< 8 < 2 ^ bits := by
      have : min bits 8 = 8 := by omega
      rw [this] at hlo
      have := or_shift_lt hlo hhi
      have heq : 8 + (bits - 8) = bits := by omega
      rwa [heq] at this
    exact ⟨hv, hwf2, hd2.trans hd1⟩

/-- Success anatomy of read_bits_u32. -/
theorem read_bits_u32_ok {bs bs' : BitStream} {v bits : Nat} (hwf : bs.wf)
    (h : bs.read_bits_u32 bits = .ok (v, bs')) :
    v < 2 ^ bits ∧ bs'.wf ∧ bs'.data = bs.data := by
  unfold BitStream.read_bits_u32 at h
  obtain ⟨⟨lo, bs1⟩, h1, h2⟩ := bind_ok h
  dsimp only at h2
  obtain ⟨hlo, hwf1, hd1⟩ := read_bits_u16_ok hwf h1
  by_cases hb : bits ≤ 16
  · rw [if_pos hb] at h2
    obtain ⟨h3, h4⟩ := Prod.mk.injEq .. ▸ pure_ok h2
    subst h3; subst h4
    refine ⟨lt_of_lt_of_le hlo (by rw [min_eq_left hb]), hwf1, hd1⟩
  · rw [if_neg hb] at h2
    obtain ⟨⟨hi, bs2⟩, h3, h4⟩ := bind_ok h2
    dsimp only at h4
    obtain ⟨hhi, hwf2, hd2⟩ := read_bits_u16_ok hwf1 h3
    obtain ⟨h5, h6⟩ := Prod.mk.injEq .. ▸ pure_ok h4
    subst h5; subst h6
    have hv : lo ||| hi <<< 16 < 2 ^ bits := by
      have : min bits 16 = 16 := by omega
      rw [this] at hlo
      have := or_shift_lt hlo hhi
      have heq : 16 + (bits - 16) = bits := by omega
      rwa [heq] at this
    exact ⟨hv, hwf2, hd2.trans hd1⟩

/-- Success anatomy of read_bits_u64. -/
theorem read_bits_u64_ok {bs bs' : BitStream} {v bits : Nat} (hwf : bs.wf)
    (h : bs.read_bits_u64 bits = .ok (v, bs')) :
    v < 2 ^ bits ∧ bs'.wf ∧ bs'.data = bs.data := by
  unfold BitStream.read_bits_u64 at h
  obtain ⟨⟨lo, bs1⟩, h1, h2⟩ := bind_ok h
  dsimp only at h2
  obtain ⟨hlo, hwf1, hd1⟩ := read_bits_u32_ok hwf h1
  by_cases hb : bits ≤ 32
  · rw [if_pos hb] at h2
    obtain ⟨h3, h4⟩ := Prod.mk.injEq .. ▸ pure_ok h2
    subst h3; subst h4
    refine ⟨lt_of_lt_of_le hlo (by rw [min_eq_left hb]), hwf1, hd1⟩
  · rw [if_neg hb] at h2
    obtain ⟨⟨hi, bs2⟩, h3, h4⟩ := bind_ok h2
    dsimp only at h4
    obtain ⟨hhi, hwf2, hd2⟩ := read_bits_u32_ok hwf1 h3
    obtain ⟨h5, h6⟩ := Prod.mk.injEq .. ▸ pure_ok h4
    subst h5; subst h6
    have hv : lo ||| hi <<< 32 < 2 ^ bits := by
      have : min bits 32 = 32 := by omega
      rw [this] at hlo
      have := or_shift_lt hlo hhi
      have heq : 32 + (bits - 32) = bits := by omega
      rwa [heq] at this
    exact ⟨hv, hwf2, hd2.trans hd1⟩

/-- read_bool preserves well-formedness and the buffer. -/
theorem read_bool_ok {bs bs' : BitStream} {b : Bool} (hwf : bs.wf)
    (h : bs.read_bool = .ok (b, bs')) : bs'.wf ∧ bs'.data = bs.data := by
  unfold BitStream.read_bool at h
  obtain ⟨⟨v, bs1⟩, h1, h2⟩ := bind_ok h
  dsimp only at h2
  obtain ⟨-, hwf1, hd1⟩ := read_bits_u8_ok hwf h1
  obtain ⟨-, h4⟩ := Prod.mk.injEq .. ▸ pure_ok h2
  subst h4
  exact ⟨hwf1, hd1⟩

/-- read_scaled_f64_bits yields `raw * scale + offset` for a raw value
fitting the width, preserving well-formedness and the buffer. -/
theorem read_scaled_ok {bs bs' : BitStream} {bits : Nat} {scale offset q : ℚ} (hwf : bs.wf)
    (h : bs.read_scaled_f64_bits bits scale offset = .ok (q, bs')) :
    (∃ raw : Nat, raw < 2 ^ bits ∧ q = (raw : ℚ) * scale + offset) ∧
      bs'.wf ∧ bs'.data = bs.data := by
  unfold BitStream.read_scaled_f64_bits at h
  obtain ⟨⟨raw, bs1⟩, h1, h2⟩ := bind_ok h
  dsimp only at h2
  obtain ⟨hraw, hwf1, hd1⟩ := read_bits_u64_ok hwf h1
  obtain ⟨h3, h4⟩ := Prod.mk.injEq .. ▸ pure_ok h2
  subst h4
  exact ⟨⟨raw, hraw, h3.symm⟩, hwf1, hd1⟩

/-- read_angle preserves well-formedness and the buffer. -/
theorem read_angle_ok {bs bs' : BitStream} {q : ℚ} (hwf : bs.wf)
    (h : Move.read_angle bs = .ok (q, bs')) : bs'.wf ∧ bs'.data = bs.data := by
  unfold Move.read_angle at h
  obtain ⟨⟨a, bs1⟩, h1, h2⟩ := bind_ok h
  dsimp only at h2
  obtain ⟨-, hwf1, hd1⟩ := read_scaled_ok hwf h1
  by_cases hc : PIf64 ≤ a
  · rw [if_pos hc] at h2
    obtain ⟨-, h4⟩ := Prod.mk.injEq .. ▸ pure_ok h2
    subst h4
    exact ⟨hwf1, hd1⟩
  · rw [if_neg hc] at h2
    obtain ⟨-, h4⟩ := Prod.mk.injEq .. ▸ pure_ok h2
    subst h4
    exact ⟨hwf1, hd1⟩

/-- read_optional preserves well-formedness and the buffer whenever the
payload reader does. -/
theorem read_optional_ok {α : Type} {bs bs' : BitStream} {v : Option α}
    {f : BitStream → Res (α × BitStream)} (hwf : bs.wf)
    (hf : ∀ {bsa bsb : BitStream} {a : α}, bsa.wf → f bsa = .ok (a, bsb) →
            bsb.wf ∧ bsb.data = bsa.data)
    (h : bs.read_optional f = .ok (v, bs')) : bs'.wf ∧ bs'.data = bs.data := by
  unfold BitStream.read_optional at h
  obtain ⟨⟨b, bs1⟩, h1, h2⟩ := bind_ok h
  dsimp only at h2
  obtain ⟨hwf1, hd1⟩ := read_bool_ok hwf h1
  by_cases hb : b = true
  · rw [if_pos hb] at h2
    obtain ⟨⟨a, bs2⟩, h3, h4⟩ := bind_ok h2
    dsimp only at h4
    obtain ⟨hwf2, hd2⟩ := hf hwf1 h3
    obtain ⟨-, h6⟩ := Prod.mk.injEq .. ▸ pure_ok h4
    subst h6
    exact ⟨hwf2, hd2.trans hd1⟩
  · rw [if_neg hb] at h2
    obtain ⟨-, h4⟩ := Prod.mk.injEq .. ▸ pure_ok h2
    subst h4
    exact ⟨hwf1, hd1⟩

/-- Bounds of a decoded 6-bit scaled float with scale 1/16 and offset
-1: the value lies in [-1, 47/16]. -/
theorem scaled6_bounds {raw : Nat} (hraw : raw < 2 ^ 6) :
    -1 ≤ (raw : ℚ) * (1 / 16) + (-1) ∧ (raw : ℚ) * (1 / 16) + (-1) ≤ 47 / 16 := by
  have h0 : (0 : ℚ) ≤ (raw : ℚ) := Nat.cast_nonneg raw
  have h63 : (raw : ℚ) ≤ 63 := by
    have : raw ≤ 63 := by omega
    exact_mod_cast this
  constructor <;> nlinarith

/-- Claim C4 (counterexample): the byte buffer [0xF8, 0x01, 0, 0]
decodes as a Move (yaw/pitch/roll absent, mx raw bits all ones) whose mx
is 47/16 = 2.9375, outside the claimed interval [-1.0, 0.9375]. -/
theorem c4_move_range_claim_false :
    (Move.from_stream (BitStream.new [248, 1, 0, 0])).map (fun p => p.1.mx) =
      .ok (47 / 16) ∧ ¬((47 : ℚ) / 16 ≤ 15 / 16) := by
  constructor
  · with_unfolding_all rfl
  · norm_num

/-- Claim C4 (amended): for every byte buffer and cursor position (bit
offset below 8) from which Move::from_stream returns Ok, each of mx, my,
mz lies in [-1.0, 47/16 = 2.9375]: the raw field is 6 bits, so the
scaled value reaches 63/16 - 1, not the claimed 0.9375 (which is the
maximum of a 5-bit field). -/
theorem c4_move_range_amended {bs bs' : BitStream} {mv : Move}
    (hbytes : ∀ b ∈ bs.data, b < 256) (hbit : bs.bit_offset < 8)
    (h : Move.from_stream bs = .ok (mv, bs')) :
    (-1 ≤ mv.mx ∧ mv.mx ≤ 47 / 16) ∧ (-1 ≤ mv.my ∧ mv.my ≤ 47 / 16) ∧
      (-1 ≤ mv.mz ∧ mv.mz ≤ 47 / 16) := by
  have hangle : ∀ {bsa bsb : BitStream} {a : ℚ}, bsa.wf →
      Move.read_angle bsa = .ok (a, bsb) → bsb.wf ∧ bsb.data = bsa.data :=
    fun hw hh => read_angle_ok hw hh
  unfold Move.from_stream at h
  obtain ⟨⟨yaw, bs1⟩, h1, h⟩ := bind_ok h
  dsimp only at h
  obtain ⟨hwf1, -⟩ := read_optional_ok ⟨hbytes, hbit⟩ hangle h1
  obtain ⟨⟨pitch, bs2⟩, h2, h⟩ := bind_ok h
  dsimp only at h
  obtain ⟨hwf2, -⟩ := read_optional_ok hwf1 hangle h2
  obtain ⟨⟨roll, bs3⟩, h3, h⟩ := bind_ok h
  dsimp only at h
  obtain ⟨hwf3, -⟩ := read_optional_ok hwf2 hangle h3
  obtain ⟨⟨mx, bs4⟩, h4, h⟩ := bind_ok h
  dsimp only at h
  obtain ⟨⟨rawx, hrawx, hmx⟩, hwf4, -⟩ := read_scaled_ok hwf3 h4
  obtain ⟨⟨my, bs5⟩, h5, h⟩ := bind_ok h
  dsimp only at h
  obtain ⟨⟨rawy, hrawy, hmy⟩, hwf5, -⟩ := read_scaled_ok hwf4 h5
  obtain ⟨⟨mz, bs6⟩, h6, h⟩ := bind_ok h
  dsimp only at h
  obtain ⟨⟨rawz, hrawz, hmz⟩, hwf6, -⟩ := read_scaled_ok hwf5 h6
  obtain ⟨⟨fl, bs7⟩, h7, h⟩ := bind_ok h
  dsimp only at h
  obtain ⟨⟨t0, bs8⟩, h8, h⟩ := bind_ok h
  dsimp only at h
  obtain ⟨⟨t1, bs9⟩, h9, h⟩ := bind_ok h
  dsimp only at h
  obtain ⟨⟨t2, bs10⟩, h10, h⟩ := bind_ok h
  dsimp only at h
  obtain ⟨⟨t3, bs11⟩, h11, h⟩ := bind_ok h
  dsimp only at h
  obtain ⟨⟨t4, bs12⟩, h12, h⟩ := bind_ok h
  dsimp only at h
  obtain ⟨⟨t5, bs13⟩, h13, h⟩ := bind_ok h
  dsimp only at h
  obtain ⟨hrec, -⟩ := Prod.mk.injEq .. ▸ pure_ok h
  subst hrec
  subst hmx; subst hmy; subst hmz
  exact ⟨scaled6_bounds hrawx, scaled6_bounds hrawy, scaled6_bounds hrawz⟩

/-- Witness for the amended C4 at the all-zero buffer: the decoded Move
has mx = my = mz = -1, inside [-1, 47/16]. -/
theorem c4_move_range_amended_witness :
    (-1 ≤ (-1 : ℚ) ∧ (-1 : ℚ) ≤ 47 / 16) ∧ (-1 ≤ (-1 : ℚ) ∧ (-1 : ℚ) ≤ 47 / 16) ∧
      (-1 ≤ (-1 : ℚ) ∧ (-1 : ℚ) ≤ 47 / 16) :=
  @c4_move_range_amended (BitStream.new [0, 0, 0, 0])
    { data := [0, 0, 0, 0], bit_offset := 4, byte_offset := 3 }
    { yaw := none, pitch := none, roll := none, mx := -1, my := -1, mz := -1,
      freelook := false, triggers := [false, false, false, false, false, false] }
    (by decide) (by decide) (by with_unfolding_all rfl)

/-- Claim C8: read_bits_u8 fails with the range error exactly when the
requested width exceeds 8; fails with the end-of-data error exactly
when, the width being admissible, the byte cursor is at or past the
buffer end or sits on the final byte with bit_offset + bits > 8 (the
range check precedes the EOF check, as in the source); and returns Ok in
every other case. -/
theorem c8_read_bits_u8_errors (bs : BitStream) (bits : Nat) (hbo : bs.bit_offset < 8) :
    (bs.read_bits_u8 bits = .error .readTooMany ↔ 8 < bits) ∧
    (bs.read_bits_u8 bits = .error .readEof ↔
      (bits ≤ 8 ∧ (bs.data.length ≤ bs.byte_offset ∨
        (bs.byte_offset = bs.data.length - 1 ∧ 8 < bs.bit_offset + bits)))) ∧
    ((∃ out, bs.read_bits_u8 bits = .ok out) ↔
      (bits ≤ 8 ∧ ¬(bs.data.length ≤ bs.byte_offset ∨
        (bs.byte_offset = bs.data.length - 1 ∧ 8 < bs.bit_offset + bits)))) := by
  unfold BitStream.read_bits_u8
  by_cases h1 : bits > 8
  · rw [if_pos h1]
    refine ⟨by simp [h1], by simp; omega, by simp; omega⟩
  · rw [if_neg h1]
    by_cases h2 : bs.data.length ≤ bs.byte_offset ∨
        (bs.byte_offset = bs.data.length - 1 ∧ bs.bit_offset + bits > 8)
    · rw [if_pos h2]
      refine ⟨by simp; omega, by simp; omega, by simp; omega⟩
    · rw [if_neg h2]
      by_cases h3 : 8 ≤ bs.bit_offset + bits
      · rw [if_pos h3]
        exact ⟨by simp; omega, by simp; omega, by simp; omega⟩
      · rw [if_neg h3]
        exact ⟨by simp; omega, by simp; omega, by simp; omega⟩

/-- Witness for C8 at a concrete stream: one data byte, cursor at its
start, a 4-bit read is Ok and neither error fires. -/
theorem c8_read_bits_u8_errors_witness :
    ((BitStream.new [7]).read_bits_u8 4 = .error .readTooMany ↔ 8 < 4) ∧
    ((BitStream.new [7]).read_bits_u8 4 = .error .readEof ↔
      (4 ≤ 8 ∧ ((BitStream.new [7]).data.length ≤ (BitStream.new [7]).byte_offset ∨
        ((BitStream.new [7]).byte_offset = (BitStream.new [7]).data.length - 1 ∧
          8 < (BitStream.new [7]).bit_offset + 4)))) ∧
    ((∃ out, (BitStream.new [7]).read_bits_u8 4 = .ok out) ↔
      (4 ≤ 8 ∧ ¬((BitStream.new [7]).data.length ≤ (BitStream.new [7]).byte_offset ∨
        ((BitStream.new [7]).byte_offset = (BitStream.new [7]).data.length - 1 ∧
          8 < (BitStream.new [7]).bit_offset + 4)))) :=
  c8_read_bits_u8_errors (BitStream.new [7]) 4 (by decide)

/-- castF64U64 never reaches 2^64 (the saturating cast tops out at
u64::MAX). -/
theorem castF64U64_lt (x : ℚ) : castF64U64 x < 2 ^ 64 := by
  unfold castF64U64
  split
  · positivity
  · have : min (Int.toNat ⌊x⌋) (2 ^ 64 - 1) ≤ 2 ^ 64 - 1 := min_le_right _ _
    omega

/-- Claim C5 (counterexample): at value 4, width 6, scale 1/16, offset
-1 the scaled integer is 80, which does not fit 6 bits, and the write
fails with the value-overflow error instead of succeeding and wrapping
as the claim states. -/
theorem c5_scaled_write_claim_false :
    castF64U64 ((4 - (-1) : ℚ) / (1 / 16)) = 80 ∧ ¬(80 < 2 ^ 6) ∧
    (BitStream.new []).write_scaled_f64_bits 4 6 (1 / 16) (-1) = .error .valueOverflow := by
  refine ⟨by with_unfolding_all rfl, by decide, by with_unfolding_all rfl⟩

/-- Claim C5 (amended): write_scaled_f64_bits itself performs no range
check before the (saturating) integer cast, but whenever the cast scaled
value does not fit the requested width (bits < 64), write_bits_u64's own
value check rejects the write with the value-overflow error; nothing is
written and no wrap-around occurs. -/
theorem c5_scaled_write_amended (bs : BitStream) (value scale offset : ℚ) (bits : Nat)
    (hbits : bits < 64) (hbig : 2 ^ bits ≤ castF64U64 ((value - offset) / scale)) :
    bs.write_scaled_f64_bits value bits scale offset = .error .valueOverflow := by
  unfold BitStream.write_scaled_f64_bits BitStream.write_bits_u64
  have hlt : castF64U64 ((value - offset) / scale) % 2 ^ 64 =
      castF64U64 ((value - offset) / scale) :=
    Nat.mod_eq_of_lt (castF64U64_lt _)
  have hcond : ¬(bits = 64 ∨
      castF64U64 ((value - offset) / scale) % 2 ^ 64 < 1 <<< bits) := by
    push_neg
    refine ⟨by omega, ?_⟩
    rw [hlt, Nat.shiftLeft_eq, one_mul]
    exact hbig
  simp only [bind, Except.bind]
  rw [if_pos hcond]

/-- Witness for the amended C5 at the concrete counterexample input. -/
theorem c5_scaled_write_amended_witness :
    (BitStream.new []).write_scaled_f64_bits 4 6 (1 / 16) (-1) = .error .valueOverflow :=
  c5_scaled_write_amended (BitStream.new []) 4 (1 / 16) (-1) 6 (by decide)
    (by with_unfolding_all decide)

/-- Setting the appended slot of `l ++ [x]` replaces it. -/
theorem set_append_len {α : Type} (l : List α) (x v : α) :
    (l ++ [x]).set l.length v = l ++ [v] := by
  induction l with
  | nil => rfl
  | cons a t ih => simp [List.set, ih]

/-- Reading the appended slot of `l ++ [x]` yields it. -/
theorem getD_append_len {α : Type} [Inhabited α] (l : List α) (x : α) :
    (l ++ [x]).getD l.length default = x := by
  induction l with
  | nil => rfl
  | cons a t ih => simpa using ih

/-- A full-byte write on a stream standing aligned at its end appends
the byte (reduced mod 256, the u8 cast). -/
theorem write_u8_atEnd {bs : BitStream} (h : bs.atEnd) (b : Nat) :
    bs.write_bits_u8 b 8 =
      .ok { data := bs.data ++ [b % 256], bit_offset := 0,
            byte_offset := bs.byte_offset + 1 } := by
  obtain ⟨h0, he⟩ := h
  obtain ⟨data, bo, off⟩ := bs
  simp only at h0 he
  subst h0
  subst he
  have hsan : b % 256 &&& (0xFF >>> (8 - 8)) = b % 256 := by
    have hm : (0xFF : Nat) >>> (8 - 8) = 2 ^ 8 - 1 := by decide
    rw [hm, Nat.and_pow_two_sub_one_eq_mod]
    omega
  have hmod : b % 256 % 256 = b % 256 := by omega
  unfold BitStream.write_bits_u8
  norm_num [hsan, hmod]
  have h255 : ∀ x : Nat, x &&& 255 = x % 256 := fun x => Nat.and_pow_two_sub_one_eq_mod x 8
  simp only [h255]
  omega

/-- The byte-writing loop on a stream aligned at its end appends all the
bytes (each reduced mod 256). -/
theorem writeBytes_atEnd {bs : BitStream} (h : bs.atEnd) (l : List Nat) :
    bs.writeBytes l =
      .ok { data := bs.data ++ l.map (· % 256), bit_offset := 0,
            byte_offset := bs.byte_offset + l.length } := by
  induction l generalizing bs with
  | nil =>
    obtain ⟨h0, he⟩ := h
    obtain ⟨data, bo, off⟩ := bs
    simp only at h0 he
    subst h0
    simp [BitStream.writeBytes]
  | cons b t ih =>
    obtain ⟨h0, he⟩ := h
    unfold BitStream.writeBytes
    rw [write_u8_atEnd ⟨h0, he⟩ b]
    have hnext : BitStream.atEnd
        { data := bs.data ++ [b % 256], bit_offset := 0, byte_offset := bs.byte_offset + 1 } := by
      constructor
      · rfl
      · simp [he]
    rw [ok_bind]
    rw [ih hnext]
    simp [List.append_assoc]
    try omega

/-- write_string on a stream aligned at its end appends the length byte
(`len as u8`) and then every byte of the string. -/
theorem write_string_atEnd {bs : BitStream} (h : bs.atEnd) (s : List Nat) :
    bs.write_string s =
      .ok { data := bs.data ++ [s.length % 256] ++ s.map (· % 256), bit_offset := 0,
            byte_offset := bs.byte_offset + 1 + s.length } := by
  unfold BitStream.write_string
  rw [write_u8_atEnd h s.length]
  have hnext : BitStream.atEnd
      { data := bs.data ++ [s.length % 256], bit_offset := 0,
        byte_offset := bs.byte_offset + 1 } := by
    constructor
    · rfl
    · simp [h.2]
  rw [ok_bind]
  rw [writeBytes_atEnd hnext s]

/-- Claim C10: write_string on a string longer than 255 bytes succeeds,
writing `len % 256` as the length byte followed by every byte of the
string, and the length prefix then disagrees with the byte count that
follows; hence an over-long mission silently encodes inconsistently
(shown on the stream Recording::into_stream starts from). -/
theorem c10_write_string_long (s : List Nat) (hb : ∀ b ∈ s, b < 256)
    (hl : 255 < s.length) :
    (BitStream.new []).write_string s =
      .ok { data := (s.length % 256) :: s, bit_offset := 0,
            byte_offset := s.length + 1 } ∧
    s.length % 256 ≠ s.length := by
  have hmap : s.map (· % 256) = s := by
    conv_rhs => rw [← List.map_id s]
    exact List.map_congr_left fun b hbm => Nat.mod_eq_of_lt (hb b hbm)
  constructor
  · have h2 := @write_string_atEnd (BitStream.new []) ⟨rfl, rfl⟩ s
    rw [hmap] at h2
    rw [h2]
    have h3 : (BitStream.new []).data = [] := rfl
    have h4 : (BitStream.new []).byte_offset = 0 := rfl
    rw [h3, h4]
    have h5 : (0 : Nat) + 1 + s.length = s.length + 1 := by omega
    rw [h5]
    rfl
  · have := Nat.mod_lt s.length (show 0 < 256 by omega)
    omega

/-- Witness for C10 at a 256-byte string of `a`s: the length byte is 0,
followed by the 256 bytes. -/
theorem c10_write_string_long_witness :
    (BitStream.new []).write_string (List.replicate 256 97) =
      .ok { data := ((List.replicate 256 97).length % 256) :: List.replicate 256 97,
            bit_offset := 0, byte_offset := (List.replicate 256 97).length + 1 } ∧
    (List.replicate 256 97).length % 256 ≠ (List.replicate 256 97).length :=
  c10_write_string_long (List.replicate 256 97)
    (fun b hbm => by
      have := List.eq_of_mem_replicate hbm
      omega)
    (by rw [List.length_replicate]; omega)

/-- A nonempty drop determines the entry at its head position. -/
theorem drop_getD {D : List Nat} {p : Nat} {x : Nat} {r : List Nat}
    (h : D.drop p = x :: r) : D.getD p 0 = x := by
  induction D generalizing p with
  | nil => simp at h
  | cons a t ih =>
    cases p with
    | zero => simpa using congrArg (fun l => l.headD 0) h
    | succ n =>
      simp only [List.drop_succ_cons] at h
      simpa using ih h

/-- A nonempty drop steps to the drop one position further. -/
theorem drop_succ {D : List Nat} {p : Nat} {x : Nat} {r : List Nat}
    (h : D.drop p = x :: r) : D.drop (p + 1) = r := by
  have := List.tail_drop D p
  rw [h] at this
  simpa using this.symm

/-- Positions and lengths determined by a nonempty drop. -/
theorem drop_len {D : List Nat} {p : Nat} {x : Nat} {r : List Nat}
    (h : D.drop p = x :: r) : p < D.length ∧ D.length = p + 1 + r.length := by
  have hl := congrArg List.length h
  rw [List.length_drop] at hl
  simp only [List.length_cons] at hl
  constructor <;> omega

/-- An aligned full-byte read at an in-range position returns the raw
entry and advances one byte. -/
theorem read_u8_aligned {D : List Nat} {p : Nat} (hp : p < D.length) :
    BitStream.read_u8 ⟨D, 0, p⟩ = .ok (D.getD p 0, ⟨D, 0, p + 1⟩) := by
  unfold BitStream.read_u8 BitStream.read_bits_u8
  rw [if_neg (by omega)]
  rw [if_neg (by simp only []; omega)]
  rw [if_pos (by simp only []; omega)]
  norm_num

/-- The strict byte loop (read_string) at an aligned position collects
the next `n` entries. -/
theorem readBytesStrict_aligned {D : List Nat} {p n : Nat} (hn : p + n ≤ D.length) :
    BitStream.readBytesStrict ⟨D, 0, p⟩ n = .ok ((D.drop p).take n, ⟨D, 0, p + n⟩) := by
  induction n generalizing p with
  | zero => simp [BitStream.readBytesStrict]
  | succ m ih =>
    unfold BitStream.readBytesStrict
    have hp : p < D.length := by omega
    have h8 := read_u8_aligned hp
    unfold BitStream.read_u8 at h8
    rw [h8, ok_bind]
    dsimp only
    rw [ih (by omega), ok_bind]
    dsimp only
    obtain ⟨x, r, hxr⟩ : ∃ x r, D.drop p = x :: r := by
      cases hd : D.drop p with
      | nil => have := congrArg List.length hd; rw [List.length_drop] at this; simp at this; omega
      | cons x r => exact ⟨x, r, rfl⟩
    rw [drop_getD hxr, hxr, drop_succ hxr]
    simp only [List.take_succ_cons, pure, Except.pure, Except.ok.injEq, Prod.mk.injEq]
    refine ⟨trivial, ?_⟩
    have hadd : p + 1 + m = p + (m + 1) := by omega
    rw [hadd]

/-- The EOF-tolerant byte loop at an aligned in-range position collects
the next `n` entries when they all exist. -/
theorem readBytesEof_aligned_full {D : List Nat} {p n : Nat} (hn : p + n ≤ D.length) :
    BitStream.readBytesEof ⟨D, 0, p⟩ n = .ok (some ((D.drop p).take n, ⟨D, 0, p + n⟩)) := by
  induction n generalizing p with
  | zero => simp [BitStream.readBytesEof]
  | succ m ih =>
    unfold BitStream.readBytesEof
    rw [if_neg (by simp [BitStream.eof]; omega)]
    have hp : p < D.length := by omega
    have h8 := read_u8_aligned hp
    unfold BitStream.read_u8 at h8
    rw [h8, ok_bind]
    dsimp only
    rw [ih (by omega), ok_bind]
    obtain ⟨x, r, hxr⟩ : ∃ x r, D.drop p = x :: r := by
      cases hd : D.drop p with
      | nil => have := congrArg List.length hd; rw [List.length_drop] at this; simp at this; omega
      | cons x r => exact ⟨x, r, rfl⟩
    rw [drop_getD hxr, hxr, drop_succ hxr]
    simp only [Option.map, List.take_succ_cons, pure, Except.pure, Except.ok.injEq,
      Option.some.injEq, Prod.mk.injEq]
    refine ⟨trivial, ?_⟩
    have hadd : p + 1 + m = p + (m + 1) := by omega
    rw [hadd]

/-- The EOF-tolerant byte loop signals `none` (decode stops successfully
with the frames so far) when fewer than `n` bytes remain. -/
theorem readBytesEof_aligned_trunc {D : List Nat} {p n : Nat} (hp : p ≤ D.length)
    (hn : D.length < p + n) :
    BitStream.readBytesEof ⟨D, 0, p⟩ n = .ok none := by
  induction n generalizing p with
  | zero => omega
  | succ m ih =>
    unfold BitStream.readBytesEof
    by_cases he : D.length ≤ p
    · rw [if_pos (by simp [BitStream.eof]; omega)]
    · rw [if_neg (by simp [BitStream.eof]; omega)]
      have hp2 : p < D.length := by omega
      have h8 := read_u8_aligned hp2
      unfold BitStream.read_u8 at h8
      rw [h8, ok_bind]
      dsimp only
      rw [ih (by omega) (by omega), ok_bind]
      rfl

/-- The frame loop stops successfully at the exact end of the data. -/
theorem readFramesGo_end {D : List Nat} {fuel : Nat} :
    Recording.readFramesGo (fuel + 1) ⟨D, 0, D.length⟩ = .ok [] := by
  unfold Recording.readFramesGo
  rw [if_pos (by simp [BitStream.eof])]

/-- The frame loop returns the frames so far (here none) when the
declared frame length exceeds the bytes remaining after it. -/
theorem readFramesGo_truncStep {D part : List Nat} {p fuel L : Nat}
    (hdrop : D.drop p = L :: part) (hL : 0 < L) (hpart : part.length < L) :
    Recording.readFramesGo (fuel + 1) ⟨D, 0, p⟩ = .ok [] := by
  obtain ⟨hp, hlen⟩ := drop_len hdrop
  unfold Recording.readFramesGo
  rw [if_neg (by simp [BitStream.eof]; omega)]
  rw [read_u8_aligned hp, ok_bind]
  dsimp only
  rw [drop_getD hdrop]
  rw [if_neg (by omega)]
  rw [readBytesEof_aligned_trunc (by omega) (by omega), ok_bind]

/-- The frame loop consumes one complete length-prefixed block, decodes
it as a Frame and conses it onto the rest. -/
theorem readFramesGo_block {D b rest : List Nat} {p fuel : Nat} {f : Frame}
    (hdrop : D.drop p = b.length :: (b ++ rest)) (hL : 0 < b.length)
    (hdec : Frame.fromBytes b = .ok f) :
    Recording.readFramesGo (fuel + 1) ⟨D, 0, p⟩ =
      (Recording.readFramesGo fuel ⟨D, 0, p + 1 + b.length⟩).map (f :: ·) := by
  obtain ⟨hp, hlen⟩ := drop_len hdrop
  conv_lhs => unfold Recording.readFramesGo
  rw [if_neg (by simp [BitStream.eof]; omega)]
  rw [read_u8_aligned hp, ok_bind]
  dsimp only
  rw [drop_getD hdrop, if_neg (by omega)]
  have hdrop1 : D.drop (p + 1) = b ++ rest := drop_succ hdrop
  have hfull := readBytesEof_aligned_full (D := D) (p := p + 1) (n := b.length)
    (by simp only [List.length_cons, List.length_append] at hlen; omega)
  rw [hdrop1, List.take_left] at hfull
  rw [hfull, ok_bind]
  dsimp only
  unfold Frame.fromBytes at hdec
  cases hfs : Frame.from_stream (BitStream.new b) with
  | error e => rw [hfs] at hdec; simp [Except.map] at hdec
  | ok pr =>
    rw [hfs] at hdec
    simp only [Except.map, Except.ok.injEq] at hdec
    rw [ok_bind]
    try dsimp only
    rw [hdec]
    cases Recording.readFramesGo fuel ⟨D, 0, p + 1 + b.length⟩ <;> rfl

/-- The frame loop over a run of complete well-formed blocks followed by
nothing returns exactly their decoded frames. -/
theorem readFramesGo_all {blocks : List (List Nat)} {frames : List Frame}
    (hfor : List.Forall₂ (fun b f => Frame.fromBytes b = .ok f) blocks frames) :
    (∀ b ∈ blocks, 0 < b.length) → ∀ {D : List Nat} {p fuel : Nat},
      D.drop p = encBlocks blocks → p ≤ D.length → D.length < fuel + p →
      Recording.readFramesGo fuel ⟨D, 0, p⟩ = .ok frames := by
  induction hfor with
  | nil =>
    intro _ D p fuel hdrop hple hfuel
    have hlen : D.length ≤ p := by
      have h := congrArg List.length hdrop
      rw [List.length_drop] at h
      have he : encBlocks [] = [] := rfl
      rw [he] at h
      simp only [List.length_nil] at h
      omega
    cases fuel with
    | zero => omega
    | succ fu =>
      unfold Recording.readFramesGo
      rw [if_pos (by simp only [BitStream.eof, decide_eq_true_eq]; omega)]
  | cons hbf hrest ih =>
    rename_i b f bl fl
    intro hpos D p fuel hdrop hple hfuel
    have hb0 : 0 < b.length := hpos b (by simp)
    have hdrop' : D.drop p = b.length :: (b ++ encBlocks bl) := by
      rw [hdrop]
      simp [encBlocks]
    obtain ⟨hp, hlen⟩ := drop_len hdrop'
    have hlen' : D.length = p + 1 + b.length + (encBlocks bl).length := by
      simp only [List.length_append] at hlen
      omega
    cases fuel with
    | zero => omega
    | succ fu =>
      rw [readFramesGo_block hdrop' hb0 hbf]
      have hdrop2 : D.drop (p + 1 + b.length) = encBlocks bl := by
        have h1 : D.drop (p + 1) = b ++ encBlocks bl := drop_succ hdrop'
        have h2 : D.drop (p + 1 + b.length) = (D.drop (p + 1)).drop b.length := by
          rw [List.drop_drop]
        rw [h2, h1, List.drop_left]
      rw [ih (fun x hx => hpos x (by simp [hx])) hdrop2 (by omega) (by omega)]
      try rfl

/-- The frame loop over a run of complete blocks followed by a truncated
final block (its length byte present, fewer payload bytes than declared)
returns exactly the frames of the complete blocks, with no error. -/
theorem readFramesGo_truncAll {blocks : List (List Nat)} {frames : List Frame}
    (hfor : List.Forall₂ (fun b f => Frame.fromBytes b = .ok f) blocks frames) :
    (∀ b ∈ blocks, 0 < b.length) → ∀ {D part : List Nat} {p fuel L : Nat},
      D.drop p = encBlocks blocks ++ L :: part → 0 < L → part.length < L →
      D.length < fuel + p →
      Recording.readFramesGo fuel ⟨D, 0, p⟩ = .ok frames := by
  induction hfor with
  | nil =>
    intro _ D part p fuel L hdrop hL hpart hfuel
    rw [show encBlocks [] ++ L :: part = L :: part by simp [encBlocks]] at hdrop
    obtain ⟨hp, -⟩ := drop_len hdrop
    cases fuel with
    | zero => omega
    | succ fu => exact readFramesGo_truncStep hdrop hL hpart
  | cons hbf hrest ih =>
    rename_i b f bl fl
    intro hpos D part p fuel L hdrop hL hpart hfuel
    have hb0 : 0 < b.length := hpos b (by simp)
    have hdrop' : D.drop p = b.length :: (b ++ (encBlocks bl ++ L :: part)) := by
      rw [hdrop]
      simp [encBlocks]
    obtain ⟨hp, hlen⟩ := drop_len hdrop'
    cases fuel with
    | zero => omega
    | succ fu =>
      rw [readFramesGo_block hdrop' hb0 hbf]
      have hdrop2 : D.drop (p + 1 + b.length) = encBlocks bl ++ L :: part := by
        have h1 : D.drop (p + 1) = b ++ (encBlocks bl ++ L :: part) := drop_succ hdrop'
        have h2 : D.drop (p + 1 + b.length) = (D.drop (p + 1)).drop b.length := by
          rw [List.drop_drop]
        rw [h2, h1, List.drop_left]
      rw [ih (fun x hx => hpos x (by simp [hx])) hdrop2 hL hpart (by omega)]
      try rfl

/-- read_string at the head of a stream whose first byte is the length
of the valid-UTF-8 byte run that follows. -/
theorem read_string_aligned {m rest : List Nat} (hv : isValidUtf8 m = true) :
    BitStream.read_string (BitStream.new (m.length :: m ++ rest)) =
      .ok (m, ⟨m.length :: m ++ rest, 0, 1 + m.length⟩) := by
  unfold BitStream.read_string BitStream.new
  have h8 := read_u8_aligned (D := m.length :: m ++ rest) (p := 0) (by simp)
  unfold BitStream.read_u8 at h8
  rw [h8, ok_bind]
  dsimp only
  have hgd : (m.length :: m ++ rest).getD 0 0 = m.length := rfl
  rw [hgd]
  have hstrict := readBytesStrict_aligned (D := m.length :: m ++ rest) (p := 1)
    (n := m.length) (by simp; omega)
  have hdrop1 : (m.length :: m ++ rest).drop 1 = m ++ rest := rfl
  rw [hdrop1, List.take_left] at hstrict
  rw [hstrict, ok_bind]
  dsimp only
  rw [if_pos hv]
  rfl

/-- Claim C6: truncating a valid encoded recording in the middle of its
last frame (after that frame's length byte, before all of its declared
bytes) decodes without error to the same mission and exactly the frames
strictly before the truncated one.  The first conjunct shows the
untruncated sequence is a valid encoded recording decoding to
`frames ++ [lastF]`; the second shows every truncation point j <
last.length yields `frames`. -/
theorem c6_truncated_decode
    (m : List Nat) (blocks : List (List Nat)) (frames : List Frame)
    (last : List Nat) (lastF : Frame) (j : Nat)
    (hmv : isValidUtf8 m = true) (hml : m.length < 256)
    (hfor : List.Forall₂ (fun b f => Frame.fromBytes b = .ok f) blocks frames)
    (hpos : ∀ b ∈ blocks, 0 < b.length) (hbl : ∀ b ∈ blocks, b.length < 256)
    (hlast : Frame.fromBytes last = .ok lastF)
    (hl0 : 0 < last.length) (hl255 : last.length < 256) (hj : j < last.length) :
    Recording.fromBytes (m.length :: m ++ (encBlocks blocks ++ last.length :: last)) =
      .ok { mission := m, frames := frames ++ [lastF] } ∧
    Recording.fromBytes (m.length :: m ++ (encBlocks blocks ++ last.length :: last.take j)) =
      .ok { mission := m, frames := frames } := by
  constructor
  · unfold Recording.fromBytes Recording.from_stream
    rw [read_string_aligned hmv, ok_bind]
    dsimp only
    have hdropm : (m.length :: m ++ (encBlocks blocks ++ last.length :: last)).drop
        (1 + m.length) = encBlocks (blocks ++ [last]) := by
      have h1 : (m.length :: m ++ (encBlocks blocks ++ last.length :: last)).drop 1 =
          m ++ (encBlocks blocks ++ last.length :: last) := rfl
      have h2 : (m.length :: m ++ (encBlocks blocks ++ last.length :: last)).drop
          (1 + m.length) =
          ((m.length :: m ++ (encBlocks blocks ++ last.length :: last)).drop 1).drop
            m.length := by
        rw [List.drop_drop]
      rw [h2, h1, List.drop_left]
      simp [encBlocks]
    have hall := @readFramesGo_all (blocks ++ [last]) (frames ++ [lastF])
      (List.rel_append hfor (List.Forall₂.cons hlast List.Forall₂.nil))
      (fun x hx => by
        rcases List.mem_append.mp hx with h | h
        · exact hpos x h
        · simp at h
          subst h
          exact hl0)
      (m.length :: m ++ (encBlocks blocks ++ last.length :: last))
      (1 + m.length)
      ((m.length :: m ++ (encBlocks blocks ++ last.length :: last)).length + 1)
      hdropm (by simp only [List.length_cons, List.length_append]; omega) (by omega)
    rw [hall, ok_bind]
    try rfl
  · unfold Recording.fromBytes Recording.from_stream
    rw [read_string_aligned hmv, ok_bind]
    dsimp only
    have hdropm : (m.length :: m ++ (encBlocks blocks ++ last.length :: last.take j)).drop
        (1 + m.length) = encBlocks blocks ++ last.length :: last.take j := by
      have h1 : (m.length :: m ++ (encBlocks blocks ++ last.length :: last.take j)).drop 1 =
          m ++ (encBlocks blocks ++ last.length :: last.take j) := rfl
      have h2 : (m.length :: m ++ (encBlocks blocks ++ last.length :: last.take j)).drop
          (1 + m.length) =
          ((m.length :: m ++ (encBlocks blocks ++ last.length :: last.take j)).drop 1).drop
            m.length := by
        rw [List.drop_drop]
      rw [h2, h1, List.drop_left]
    have htr := @readFramesGo_truncAll blocks frames hfor hpos
      (m.length :: m ++ (encBlocks blocks ++ last.length :: last.take j))
      (last.take j)
      (1 + m.length)
      ((m.length :: m ++ (encBlocks blocks ++ last.length :: last.take j)).length + 1)
      last.length
      hdropm hl0 (by rw [List.length_take]; omega) (by omega)
    rw [htr, ok_bind]
    try rfl

/-- Witness for C6 at the empty mission and the single 4-byte frame
block from the worked example, truncated after one of its four payload
bytes. -/
theorem c6_truncated_decode_witness :
    Recording.fromBytes [0, 4, 64, 0, 0, 0] =
      .ok { mission := [], frames := [{ m0 := none, m1 := none, delta := 16 }] } ∧
    Recording.fromBytes [0, 4, 64] =
      .ok { mission := [], frames := [] } :=
  c6_truncated_decode [] [] [] [64, 0, 0, 0] { m0 := none, m1 := none, delta := 16 } 1
    (by decide) (by decide) List.Forall₂.nil (by simp) (by simp)
    (by with_unfolding_all rfl) (by decide) (by decide) (by decide)

/-- A successful in-range write advances the bit position by exactly
the requested width and preserves the writer invariant. -/
theorem write_bits_u8_pos {bs bs' : BitStream} {v bits : Nat} (hw : bs.winv)
    (hb1 : 1 ≤ bits) (hb8 : bits ≤ 8) (h : bs.write_bits_u8 v bits = .ok bs') :
    bs'.winv ∧ bs'.bitPos = bs.bitPos + bits := by
  obtain ⟨hbo, hlen⟩ := hw
  unfold BitStream.write_bits_u8 at h
  rw [if_neg (by omega)] at h
  split at h
  · simp at h
  split_ifs at h <;>
    (simp only [Except.ok.injEq] at h
     subst h
     unfold BitStream.winv BitStream.bitPos
     dsimp only
     refine ⟨⟨by omega, ?_⟩, by omega⟩
     split_ifs at hlen ⊢ <;>
       simp only [List.length_append, List.length_set, List.length_replicate,
         List.length_cons, List.length_nil] <;> omega)

/-- Position accounting for write_bits_u16. -/
theorem write_bits_u16_pos {bs bs' : BitStream} {v bits : Nat} (hw : bs.winv)
    (hb1 : 1 ≤ bits) (hb8 : bits ≤ 16) (h : bs.write_bits_u16 v bits = .ok bs') :
    bs'.winv ∧ bs'.bitPos = bs.bitPos + bits := by
  unfold BitStream.write_bits_u16 at h
  dsimp only at h
  split at h
  · simp at h
  obtain ⟨bs1, h1, h2⟩ := bind_ok h
  by_cases hb : bits ≤ 8
  · obtain ⟨hw1, hp1⟩ := write_bits_u8_pos hw (by omega) (by omega) h1
    rw [if_pos hb] at h2
    obtain rfl := pure_ok h2
    rw [hp1, min_eq_left hb]
    exact ⟨hw1, rfl⟩
  · obtain ⟨hw1, hp1⟩ := write_bits_u8_pos hw (by omega) (by omega) h1
    rw [if_neg hb] at h2
    obtain ⟨hw2, hp2⟩ := write_bits_u8_pos hw1 (by omega) (by omega) h2
    refine ⟨hw2, ?_⟩
    rw [hp2, hp1]
    have : min bits 8 = 8 := by omega
    rw [this]
    omega

/-- Position accounting for write_bits_u32. -/
theorem write_bits_u32_pos {bs bs' : BitStream} {v bits : Nat} (hw : bs.winv)
    (hb1 : 1 ≤ bits) (hb8 : bits ≤ 32) (h : bs.write_bits_u32 v bits = .ok bs') :
    bs'.winv ∧ bs'.bitPos = bs.bitPos + bits := by
  unfold BitStream.write_bits_u32 at h
  dsimp only at h
  split at h
  · simp at h
  obtain ⟨bs1, h1, h2⟩ := bind_ok h
  by_cases hb : bits ≤ 16
  · obtain ⟨hw1, hp1⟩ := write_bits_u16_pos hw (by omega) (by omega) h1
    rw [if_pos hb] at h2
    obtain rfl := pure_ok h2
    rw [hp1, min_eq_left hb]
    exact ⟨hw1, rfl⟩
  · obtain ⟨hw1, hp1⟩ := write_bits_u16_pos hw (by omega) (by omega) h1
    rw [if_neg hb] at h2
    obtain ⟨hw2, hp2⟩ := write_bits_u16_pos hw1 (by omega) (by omega) h2
    refine ⟨hw2, ?_⟩
    rw [hp2, hp1]
    have : min bits 16 = 16 := by omega
    rw [this]
    omega

/-- Position accounting for write_bits_u64. -/
theorem write_bits_u64_pos {bs bs' : BitStream} {v bits : Nat} (hw : bs.winv)
    (hb1 : 1 ≤ bits) (hb8 : bits ≤ 64) (h : bs.write_bits_u64 v bits = .ok bs') :
    bs'.winv ∧ bs'.bitPos = bs.bitPos + bits := by
  unfold BitStream.write_bits_u64 at h
  dsimp only at h
  split at h
  · simp at h
  obtain ⟨bs1, h1, h2⟩ := bind_ok h
  by_cases hb : bits ≤ 32
  · obtain ⟨hw1, hp1⟩ := write_bits_u32_pos hw (by omega) (by omega) h1
    rw [if_pos hb] at h2
    obtain rfl := pure_ok h2
    rw [hp1, min_eq_left hb]
    exact ⟨hw1, rfl⟩
  · obtain ⟨hw1, hp1⟩ := write_bits_u32_pos hw (by omega) (by omega) h1
    rw [if_neg hb] at h2
    obtain ⟨hw2, hp2⟩ := write_bits_u32_pos hw1 (by omega) (by omega) h2
    refine ⟨hw2, ?_⟩
    rw [hp2, hp1]
    have : min bits 32 = 32 := by omega
    rw [this]
    omega

/-- Position accounting for write_bool. -/
theorem write_bool_pos {bs bs' : BitStream} {b : Bool} (hw : bs.winv)
    (h : bs.write_bool b = .ok bs') : bs'.winv ∧ bs'.bitPos = bs.bitPos + 1 :=
  write_bits_u8_pos hw (by omega) (by omega) h

/-- Position accounting for write_scaled_f64_bits. -/
theorem write_scaled_pos {bs bs' : BitStream} {q scale offset : ℚ} {bits : Nat}
    (hw : bs.winv) (hb1 : 1 ≤ bits) (hb8 : bits ≤ 64)
    (h : bs.write_scaled_f64_bits q bits scale offset = .ok bs') :
    bs'.winv ∧ bs'.bitPos = bs.bitPos + bits :=
  write_bits_u64_pos hw hb1 hb8 h

/-- Position accounting for write_angle. -/
theorem write_angle_pos {bs bs' : BitStream} {q : ℚ} (hw : bs.winv)
    (h : Move.write_angle bs q = .ok bs') : bs'.winv ∧ bs'.bitPos = bs.bitPos + 16 := by
  unfold Move.write_angle at h
  exact write_scaled_pos hw (by omega) (by omega) h

/-- Position accounting for an optional angle slot: at least the one
presence bit. -/
theorem write_optional_angle_pos {bs bs' : BitStream} {v : Option ℚ} (hw : bs.winv)
    (h : bs.write_optional v Move.write_angle = .ok bs') :
    bs'.winv ∧ bs.bitPos + 1 ≤ bs'.bitPos := by
  unfold BitStream.write_optional at h
  cases v with
  | some q =>
    obtain ⟨bs1, h1, h2⟩ := bind_ok h
    obtain ⟨hw1, hp1⟩ := write_bool_pos hw h1
    obtain ⟨hw2, hp2⟩ := write_angle_pos hw1 h2
    exact ⟨hw2, by omega⟩
  | none =>
    obtain ⟨hw1, hp1⟩ := write_bool_pos hw h
    exact ⟨hw1, by omega⟩

/-- A successfully encoded Move occupies at least 28 bits. -/
theorem move_into_stream_pos {bs bs' : BitStream} {m : Move} (hw : bs.winv)
    (h : m.into_stream bs = .ok bs') : bs'.winv ∧ bs.bitPos + 28 ≤ bs'.bitPos := by
  unfold Move.into_stream at h
  obtain ⟨bs1, h1, h⟩ := bind_ok h
  obtain ⟨hw1, hp1⟩ := write_optional_angle_pos hw h1
  obtain ⟨bs2, h2, h⟩ := bind_ok h
  obtain ⟨hw2, hp2⟩ := write_optional_angle_pos hw1 h2
  obtain ⟨bs3, h3, h⟩ := bind_ok h
  obtain ⟨hw3, hp3⟩ := write_optional_angle_pos hw2 h3
  obtain ⟨bs4, h4, h⟩ := bind_ok h
  obtain ⟨hw4, hp4⟩ := write_scaled_pos hw3 (by omega) (by omega) h4
  obtain ⟨bs5, h5, h⟩ := bind_ok h
  obtain ⟨hw5, hp5⟩ := write_scaled_pos hw4 (by omega) (by omega) h5
  obtain ⟨bs6, h6, h⟩ := bind_ok h
  obtain ⟨hw6, hp6⟩ := write_scaled_pos hw5 (by omega) (by omega) h6
  obtain ⟨bs7, h7, h⟩ := bind_ok h
  obtain ⟨hw7, hp7⟩ := write_bool_pos hw6 h7
  obtain ⟨bs8, h8, h⟩ := bind_ok h
  obtain ⟨hw8, hp8⟩ := write_bool_pos hw7 h8
  obtain ⟨bs9, h9, h⟩ := bind_ok h
  obtain ⟨hw9, hp9⟩ := write_bool_pos hw8 h9
  obtain ⟨bs10, h10, h⟩ := bind_ok h
  obtain ⟨hw10, hp10⟩ := write_bool_pos hw9 h10
  obtain ⟨bs11, h11, h⟩ := bind_ok h
  obtain ⟨hw11, hp11⟩ := write_bool_pos hw10 h11
  obtain ⟨bs12, h12, h⟩ := bind_ok h
  obtain ⟨hw12, hp12⟩ := write_bool_pos hw11 h12
  obtain ⟨hw13, hp13⟩ := write_bool_pos hw12 h
  exact ⟨hw13, by omega⟩

/-- A Frame with a present move slot occupies at least 40 bits once
encoded. -/
theorem frame_move_into_stream_pos {bs bs' : BitStream} {f : Frame} (hw : bs.winv)
    (hmov : f.has_move = true) (h : f.into_stream bs = .ok bs') :
    bs.bitPos + 40 ≤ bs'.bitPos := by
  unfold Frame.into_stream at h
  obtain ⟨bs1, h1, h⟩ := bind_ok h
  obtain ⟨bs2, h2, h⟩ := bind_ok h
  have hslot : ∀ {bsa bsb : BitStream} (v : Option Move), bsa.winv →
      bsa.write_optional v (fun bs mv => mv.into_stream bs) = .ok bsb →
      bsb.winv ∧ bsa.bitPos + 1 ≤ bsb.bitPos ∧
        (v.isSome = true → bsa.bitPos + 29 ≤ bsb.bitPos) := by
    intro bsa bsb v hwa hv
    unfold BitStream.write_optional at hv
    cases v with
    | some mv =>
      obtain ⟨bsc, hc1, hc2⟩ := bind_ok hv
      obtain ⟨hwc, hpc⟩ := write_bool_pos hwa hc1
      obtain ⟨hwd, hpd⟩ := move_into_stream_pos hwc hc2
      exact ⟨hwd, by omega, fun _ => by omega⟩
    | none =>
      obtain ⟨hwc, hpc⟩ := write_bool_pos hwa hv
      exact ⟨hwc, by omega, by simp⟩
  obtain ⟨hw1, hp1, hs1⟩ := hslot f.m0 hw h1
  obtain ⟨hw2, hp2, hs2⟩ := hslot f.m1 hw1 h2
  obtain ⟨hw3, hp3⟩ := write_bits_u16_pos hw2 (by omega) (by omega) h
  unfold Frame.has_move at hmov
  rcases Bool.or_eq_true_iff.mp hmov with hm | hm
  · have := hs1 hm
    omega
  · have := hs2 hm
    omega

/-- The writer invariant forces at least five buffer bytes once the bit
position reaches 40. -/
theorem winv_length_ge {bs : BitStream} (hw : bs.winv) (hp : 40 ≤ bs.bitPos) :
    5 ≤ bs.data.length := by
  obtain ⟨hbo, hlen⟩ := hw
  unfold BitStream.bitPos at hp
  split_ifs at hlen <;> omega

/-- A Frame whose packed form is shorter than 4 bytes has both move
slots absent. -/
theorem short_frame_no_moves {f : Frame} {l : List Nat}
    (h : Frame.intoBytes f = .ok l) (hs : l.length < 4) :
    f.m0 = none ∧ f.m1 = none := by
  unfold Frame.intoBytes at h
  cases hfs : f.into_stream (BitStream.new []) with
  | error e => rw [hfs] at h; simp [Except.map] at h
  | ok bsf =>
    rw [hfs] at h
    simp only [Except.map, Except.ok.injEq] at h
    subst h
    by_contra hcon
    have hmov : f.has_move = true := by
      unfold Frame.has_move
      rcases not_and_or.mp hcon with hm | hm
      · cases hm0 : f.m0 with
        | none => exact absurd hm0 hm
        | some mv => simp [hm0]
      · cases hm1 : f.m1 with
        | none => exact absurd hm1 hm
        | some mv => simp [hm1]
    have hwinv : (BitStream.new []).winv := by
      constructor <;> simp [BitStream.new]
    have hpos := frame_move_into_stream_pos hwinv hmov hfs
    have hwf : bsf.winv := by
      unfold Frame.into_stream at hfs
      obtain ⟨bs1, h1, hfs⟩ := bind_ok hfs
      obtain ⟨bs2, h2, hfs⟩ := bind_ok hfs
      have hslot : ∀ {bsa bsb : BitStream} (v : Option Move), bsa.winv →
          bsa.write_optional v (fun bs mv => mv.into_stream bs) = .ok bsb → bsb.winv := by
        intro bsa bsb v hwa hv
        unfold BitStream.write_optional at hv
        cases v with
        | some mv =>
          obtain ⟨bsc, hc1, hc2⟩ := bind_ok hv
          exact (move_into_stream_pos (write_bool_pos hwa hc1).1 hc2).1
        | none => exact (write_bool_pos hwa hv).1
      exact (write_bits_u16_pos (hslot f.m1 (hslot f.m0 hwinv h1) h2) (by omega)
        (by omega) hfs).1
    have := winv_length_ge hwf (by
      have : (BitStream.new []).bitPos = 0 := rfl
      omega)
    omega

set_option maxRecDepth 8000 in
/-- Exhaustive check over every 10-bit delta: a no-move Frame encodes
to exactly the two bytes [delta % 64 * 4, delta / 64 % 16] (two zero
presence bits then the delta, low bit first), and the 4-byte zero-padded
form decodes back to the same Frame. -/
theorem frame_nomove_encode : ∀ d, d < 1024 →
    Frame.intoBytes { m0 := none, m1 := none, delta := d } =
      .ok [d % 64 * 4, d / 64 % 16] ∧
    Frame.fromBytes [d % 64 * 4, d / 64 % 16, 0, 0] =
      .ok { m0 := none, m1 := none, delta := d } := by decide

/-- A successfully encoded no-move Frame has a delta (as u16) below
2^10: write_bits_u16's value check enforces it. -/
theorem nomove_encode_delta_lt {d : Nat} {l : List Nat}
    (h : Frame.intoBytes { m0 := none, m1 := none, delta := d } = .ok l) :
    d % 2 ^ 16 < 2 ^ 10 := by
  unfold Frame.intoBytes Frame.into_stream at h
  have h1 : (BitStream.new []).write_optional (none : Option Move)
      (fun bs mv => mv.into_stream bs) = .ok ⟨[0], 1, 0⟩ := rfl
  rw [h1, ok_bind] at h
  try dsimp only at h
  have h2 : BitStream.write_optional ⟨[0], 1, 0⟩ (none : Option Move)
      (fun bs mv => mv.into_stream bs) = .ok ⟨[0], 2, 0⟩ := rfl
  rw [h2, ok_bind] at h
  try dsimp only at h
  unfold BitStream.write_bits_u16 at h
  dsimp only at h
  split at h
  · simp [Except.map] at h
  · rename_i hcond
    rcases not_not.mp hcond with hc | hc
    · exact absurd hc (by decide)
    · simpa [Nat.shiftLeft_eq] using hc

/-- The frame-emission loop for one short frame on an aligned-at-end
outer stream: frame-length byte 4, the packed bytes, zero padding. -/
theorem writeFrames_single {bs bsf : BitStream} {f : Frame} (hAtEnd : bs.atEnd)
    (hfs : f.into_stream (BitStream.new []) = .ok bsf)
    (hlen4 : bsf.data.length ≤ 4) (hbytes : ∀ b ∈ bsf.data, b < 256) :
    Recording.writeFrames bs [f] =
      .ok ⟨bs.data ++ 4 :: (bsf.data ++ List.replicate (4 - bsf.data.length) 0), 0,
           bs.byte_offset + (5 - bsf.data.length) + bsf.data.length⟩ := by
  unfold Recording.writeFrames
  rw [hfs, ok_bind]
  dsimp only
  have hmax : max bsf.data.length 4 = 4 := by omega
  rw [hmax]
  unfold BitStream.write_u8
  rw [write_u8_atEnd hAtEnd 4, ok_bind]
  have hAtEnd1 : BitStream.atEnd
      { data := bs.data ++ [4 % 256], bit_offset := 0, byte_offset := bs.byte_offset + 1 } := by
    unfold BitStream.atEnd
    refine ⟨by trivial, ?_⟩
    rw [hAtEnd.2]
    simp
  rw [writeBytes_atEnd hAtEnd1 bsf.data, ok_bind]
  have hmapf : bsf.data.map (· % 256) = bsf.data := by
    conv_rhs => rw [← List.map_id bsf.data]
    exact List.map_congr_left fun b hbm => Nat.mod_eq_of_lt (hbytes b hbm)
  rw [hmapf]
  have hAtEnd2 : BitStream.atEnd
      { data := (bs.data ++ [4 % 256]) ++ bsf.data, bit_offset := 0,
        byte_offset := bs.byte_offset + 1 + bsf.data.length } := by
    unfold BitStream.atEnd
    refine ⟨by trivial, ?_⟩
    rw [hAtEnd.2]
    simp [List.length_append]
    try omega
  rw [writeBytes_atEnd hAtEnd2 (List.replicate (4 - bsf.data.length) 0), ok_bind]
  have hmapz : (List.replicate (4 - bsf.data.length) 0).map (· % 256) =
      List.replicate (4 - bsf.data.length) 0 := by
    conv_rhs => rw [← List.map_id (List.replicate (4 - bsf.data.length) 0)]
    exact List.map_congr_left fun b hbm => by
      rw [List.eq_of_mem_replicate hbm]
      rfl
  rw [hmapz]
  unfold Recording.writeFrames
  simp only [Except.ok.injEq, BitStream.mk.injEq]
  refine ⟨?_, by trivial, ?_⟩
  · simp [List.append_assoc]
  · simp only [List.length_replicate]
    omega

/-- Claim C7: a Frame whose packed form occupies fewer than 4 bytes is
emitted by Recording::into_stream as a frame-length byte equal to 4
followed by exactly 4 bytes (the packed bytes zero-padded at the tail),
and decoding those 4 bytes as a fresh Frame bit-stream reproduces the
original Frame. -/
theorem c7_short_frame_roundtrip {f : Frame} {fbytes : List Nat} (m : List Nat)
    (hmb : ∀ b ∈ m, b < 256) (hd : f.delta < 2 ^ 16)
    (henc : Frame.intoBytes f = .ok fbytes) (hshort : fbytes.length < 4) :
    Recording.intoBytes { mission := m, frames := [f] } =
      .ok ((m.length % 256) :: m ++ 4 :: (fbytes ++ List.replicate (4 - fbytes.length) 0)) ∧
    (fbytes ++ List.replicate (4 - fbytes.length) 0).length = 4 ∧
    Frame.fromBytes (fbytes ++ List.replicate (4 - fbytes.length) 0) = .ok f := by
  obtain ⟨hm0, hm1⟩ := short_frame_no_moves henc hshort
  obtain ⟨m0, m1, d⟩ := f
  dsimp only at hm0 hm1 hd
  subst hm0
  subst hm1
  have hdlt : d < 1024 := by
    have := nomove_encode_delta_lt henc
    rw [Nat.mod_eq_of_lt hd] at this
    omega
  obtain ⟨he, hdec⟩ := frame_nomove_encode d hdlt
  have hfb : fbytes = [d % 64 * 4, d / 64 % 16] := by
    rw [henc] at he
    simp only [Except.ok.injEq] at he
    exact he
  subst hfb
  have hlen2 : ([d % 64 * 4, d / 64 % 16] : List Nat).length = 2 := rfl
  refine ⟨?_, by simp, hdec⟩
  unfold Recording.intoBytes Recording.into_stream
  dsimp only
  rw [write_string_atEnd ⟨rfl, rfl⟩ m, ok_bind]
  have hmapm : m.map (· % 256) = m := by
    conv_rhs => rw [← List.map_id m]
    exact List.map_congr_left fun b hbm => Nat.mod_eq_of_lt (hmb b hbm)
  rw [hmapm]
  unfold Frame.intoBytes at henc
  cases hfs : Frame.into_stream { m0 := none, m1 := none, delta := d }
      (BitStream.new []) with
  | error e => rw [hfs] at henc; simp [Except.map] at henc
  | ok bsf =>
    rw [hfs] at henc
    simp only [Except.map, Except.ok.injEq] at henc
    have hsingle := @writeFrames_single
      { data := (BitStream.new []).data ++ [m.length % 256] ++ m, bit_offset := 0,
        byte_offset := (BitStream.new []).byte_offset + 1 + m.length }
      bsf { m0 := none, m1 := none, delta := d }
      ⟨rfl, by simp [BitStream.new]; try omega⟩ hfs (by rw [henc]; omega)
      (by
        rw [henc]
        intro b hbm
        simp only [List.mem_cons, List.mem_singleton] at hbm
        rcases hbm with h | h | h
        · subst h
          have : d % 64 < 64 := Nat.mod_lt d (by omega)
          omega
        · subst h
          have : d / 64 % 16 < 16 := Nat.mod_lt _ (by omega)
          omega
        · simp at h)
    rw [hsingle]
    simp only [Except.map, henc, BitStream.new, Except.ok.injEq, List.nil_append,
      List.length_cons, List.length_nil, List.cons_append, List.append_assoc]

/-- Witness for C7 at the worked example's frame (no moves, delta 16):
its packed form is the 2 bytes [0x40, 0x00], emitted as length byte 4
plus the zero-padded 4 bytes, which decode back to the frame. -/
theorem c7_short_frame_roundtrip_witness :
    Recording.intoBytes { mission := [], frames := [{ m0 := none, m1 := none, delta := 16 }] } =
      .ok [0, 4, 64, 0, 0, 0] ∧
    (([64, 0] : List Nat) ++ List.replicate (4 - ([64, 0] : List Nat).length) 0).length = 4 ∧
    Frame.fromBytes (([64, 0] : List Nat) ++ List.replicate (4 - ([64, 0] : List Nat).length) 0) =
      .ok { m0 := none, m1 := none, delta := 16 } :=
  @c7_short_frame_roundtrip { m0 := none, m1 := none, delta := 16 } [64, 0] []
    (by simp) (by decide) (by decide) (by decide)

/-! ### Claim C3: the TAS print → parse round trip -/
/-! ### C3 toolkit: combinator evaluation lemmas -/

theorem pMap_ok {α β : Type} {p : Parser α} (f : α → β) {i r : List Nat} {v : α}
    (h : p i = .ok r v) : pMap p f i = .ok r (f v) := by
  simp [pMap, h]

theorem pThen_ok {α β : Type} {p : Parser α} {q : Parser β} {i r r2 : List Nat}
    {v : α} {w : β} (hp : p i = .ok r v) (hq : q r = .ok r2 w) :
    pThen p q i = .ok r2 (v, w) := by
  simp [pThen, hp, hq]

theorem pThen_fail1 {α β : Type} {p : Parser α} (q : Parser β) {i : List Nat}
    (hp : p i = .fail) : pThen p q i = .fail := by
  simp [pThen, hp]

theorem pThen_fail2 {α β : Type} {p : Parser α} {q : Parser β} {i r : List Nat}
    {v : α} (hp : p i = .ok r v) (hq : q r = .fail) : pThen p q i = .fail := by
  simp [pThen, hp, hq]

theorem pPreceded_ok {α β : Type} {p : Parser α} {q : Parser β} {i r r2 : List Nat}
    {v : α} {w : β} (hp : p i = .ok r v) (hq : q r = .ok r2 w) :
    pPreceded p q i = .ok r2 w := by
  simp [pPreceded, pMap_ok _ (pThen_ok hp hq)]

theorem pPreceded_fail1 {α β : Type} {p : Parser α} (q : Parser β) {i : List Nat}
    (hp : p i = .fail) : pPreceded p q i = .fail := by
  simp [pPreceded, pMap, pThen_fail1 q hp]

theorem pTerminated_ok {α β : Type} {p : Parser α} {q : Parser β} {i r r2 : List Nat}
    {v : α} {w : β} (hp : p i = .ok r v) (hq : q r = .ok r2 w) :
    pTerminated p q i = .ok r2 v := by
  simp [pTerminated, pMap_ok _ (pThen_ok hp hq)]

theorem pOpt_ok {α : Type} {p : Parser α} {i r : List Nat} {v : α}
    (h : p i = .ok r v) : pOpt p i = .ok r (some v) := by
  simp [pOpt, h]

theorem pOpt_fail {α : Type} {p : Parser α} {i : List Nat}
    (h : p i = .fail) : pOpt p i = .ok i none := by
  simp [pOpt, h]

theorem pCut_ok {α : Type} {p : Parser α} {i r : List Nat} {v : α}
    (h : p i = .ok r v) : pCut p i = .ok r v := by
  simp [pCut, h]

theorem pAlt2_ok1 {α : Type} {p : Parser α} (q : Parser α) {i r : List Nat} {v : α}
    (h : p i = .ok r v) : pAlt2 p q i = .ok r v := by
  simp [pAlt2, h]

theorem pAlt2_fail1 {α : Type} {p q : Parser α} {i : List Nat}
    (h : p i = .fail) : pAlt2 p q i = q i := by
  simp [pAlt2, h]

theorem pChar_ok (c : Nat) (r : List Nat) : pChar c (c :: r) = .ok r c := by
  simp [pChar]

theorem pChar_ne {b c : Nat} (r : List Nat) (h : b ≠ c) : pChar c (b :: r) = .fail := by
  simp [pChar, h]

theorem pChar_nil (c : Nat) : pChar c [] = .fail := by
  simp [pChar]

theorem pTag_ok (t r : List Nat) : pTag t (t ++ r) = .ok r t := by
  simp [pTag, List.take_left, List.drop_left]

theorem pTag_ne {t i : List Nat} (h : i.take t.length ≠ t) : pTag t i = .fail := by
  simp [pTag, h]

/-! ### takeWhile / dropWhile over a split -/

theorem takeWhile_app {f : Nat → Bool} :
    ∀ {a : List Nat} (b : List Nat), (∀ x ∈ a, f x = true) →
      (∀ x ∈ b.take 1, f x = false) →
      (a ++ b).takeWhile f = a ∧ (a ++ b).dropWhile f = b
  | [], b, _, hb => by
    cases b with
    | nil => simp
    | cons x xs =>
      have hx : f x = false := hb x (by simp)
      simp [List.takeWhile_cons, List.dropWhile_cons, hx]
  | a :: as, b, ha, hb => by
    have hfa : f a = true := ha a (by simp)
    have ih := takeWhile_app (a := as) b (fun x hx => ha x (by simp [hx])) hb
    simp [List.takeWhile_cons, List.dropWhile_cons, hfa, ih.1, ih.2]

theorem sp_eq {w r : List Nat} (hw : ∀ x ∈ w, wsChar x = true)
    (hr : ∀ x ∈ r.take 1, wsChar x = false) : sp (w ++ r) = .ok r w := by
  have h := takeWhile_app (f := wsChar) r hw hr
  simp [sp, pTakeWhile, h.1, h.2]

theorem optSp_eq {w r : List Nat} (hw : ∀ x ∈ w, wsChar x = true)
    (hr : ∀ x ∈ r.take 1, wsChar x = false) : pOpt sp (w ++ r) = .ok r (some w) :=
  pOpt_ok (sp_eq hw hr)

/-! ### Decimal digit strings -/

theorem digitsToNat_append_digit (a : List Nat) (d : Nat) :
    digitsToNat (a ++ [d]) = 10 * digitsToNat a + (d - 48) := by
  simp [digitsToNat, List.foldl_append, Nat.mul_comm]

theorem natDigitsGo_spec : ∀ (fuel n : Nat), n < fuel →
    natDigitsGo fuel n ≠ [] ∧ (∀ b ∈ natDigitsGo fuel n, 48 ≤ b ∧ b ≤ 57) ∧
      digitsToNat (natDigitsGo fuel n) = n
  | 0, n, h => absurd h (by omega)
  | fuel + 1, n, h => by
    by_cases hn : n < 10
    · refine ⟨by simp [natDigitsGo, hn], ?_, ?_⟩
      · intro b hb
        simp [natDigitsGo, hn] at hb
        omega
      · simp [natDigitsGo, hn, digitsToNat]
    · have hlt : n / 10 < fuel := by omega
      have ih := natDigitsGo_spec fuel (n / 10) hlt
      refine ⟨by simp [natDigitsGo, hn], ?_, ?_⟩
      · intro b hb
        simp only [natDigitsGo, if_neg hn, List.mem_append, List.mem_singleton] at hb
        rcases hb with hb | hb
        · exact ih.2.1 b hb
        · subst hb; omega
      · simp only [natDigitsGo, if_neg hn]
        rw [digitsToNat_append_digit, ih.2.2]
        omega

theorem natDigits_ne_nil (n : Nat) : natDigits n ≠ [] :=
  (natDigitsGo_spec (n + 1) n (by omega)).1

theorem natDigits_digits (n : Nat) : ∀ b ∈ natDigits n, 48 ≤ b ∧ b ≤ 57 :=
  (natDigitsGo_spec (n + 1) n (by omega)).2.1

theorem digitsToNat_natDigits (n : Nat) : digitsToNat (natDigits n) = n :=
  (natDigitsGo_spec (n + 1) n (by omega)).2.2

theorem natDigitsGo_len : ∀ (fuel n k : Nat), n < fuel → n < 10 ^ (k + 1) →
    (natDigitsGo fuel n).length ≤ k + 1
  | 0, n, _, h, _ => absurd h (by omega)
  | fuel + 1, n, k, _, hk => by
    by_cases hn : n < 10
    · simp [natDigitsGo, hn]
    · have h10 : (10 : Nat) ^ (k + 1) = 10 ^ k * 10 := by ring
      have hdiv : n / 10 < 10 ^ k := by
        rw [Nat.div_lt_iff_lt_mul (by omega)]
        omega
      cases k with
      | zero => omega
      | succ k =>
        have ih := natDigitsGo_len fuel (n / 10) k (by omega)
          (by exact hdiv)
        simp only [natDigitsGo, if_neg hn, List.length_append, List.length_singleton]
        omega

theorem natDigits_len {n k : Nat} (h : n < 10 ^ (k + 1)) :
    (natDigits n).length ≤ k + 1 :=
  natDigitsGo_len (n + 1) n k (by omega) h

theorem digitsToNat_pad (j : Nat) (l : List Nat) :
    digitsToNat (List.replicate j 48 ++ l) = digitsToNat l := by
  induction j with
  | zero => simp
  | succ j ih => simp [digitsToNat, List.replicate_succ] at ih ⊢; exact ih

/-! ### fmtF64 structure and exact re-parsing -/

theorem fmtF64_decomp (q : ℚ) (hq : dyadicQ q = true) :
    q.den = 2 ^ natLog2 q.den ∧
    ((natLog2 q.den = 0 ∧
        fmtF64 q = (if q.num < 0 then [45] else []) ++ natDigits q.num.natAbs) ∨
      (0 < natLog2 q.den ∧
        fmtF64 q = (if q.num < 0 then [45] else []) ++
          natDigits (q.num.natAbs * 5 ^ natLog2 q.den / 10 ^ natLog2 q.den) ++
          [46] ++ padZeros (natLog2 q.den)
            (natDigits (q.num.natAbs * 5 ^ natLog2 q.den % 10 ^ natLog2 q.den)))) := by
  have hden : q.den = 2 ^ natLog2 q.den := by simpa [dyadicQ] using hq
  refine ⟨hden, ?_⟩
  by_cases hk : natLog2 q.den = 0
  · left
    refine ⟨hk, ?_⟩
    have h1 : q.den = 1 := by rw [hden, hk, pow_zero]
    have hl1 : natLog2 1 = 0 := rfl
    simp [fmtF64, h1, hk, hl1]
  · right
    refine ⟨Nat.pos_of_ne_zero hk, ?_⟩
    simp [fmtF64, ← hden, hk]

theorem isDigitB_of (b : Nat) (h : 48 ≤ b ∧ b ≤ 57) : isDigitB b = true := by
  simpa [isDigitB] using h

theorem parseFloat_core (neg : Bool) (ip fp : List Nat)
    (hip : ip ≠ []) (hipd : ∀ b ∈ ip, 48 ≤ b ∧ b ≤ 57)
    (hfpd : ∀ b ∈ fp, 48 ≤ b ∧ b ≤ 57) :
    parseFloatBytes ((if neg then [45] else []) ++ ip ++
        (if fp = [] then [] else 46 :: fp)) =
      (if neg then (-1 : ℚ) else 1) *
        ((digitsToNat ip : ℚ) + (digitsToNat fp : ℚ) / 10 ^ fp.length) := by
  obtain ⟨d, ip', rfl⟩ : ∃ d ip', ip = d :: ip' := by
    cases ip with
    | nil => exact absurd rfl hip
    | cons d t => exact ⟨d, t, rfl⟩
  have hd := hipd d (by simp)
  have hd45 : d ≠ 45 := by omega
  have hd43 : d ≠ 43 := by omega
  have hfptw : List.takeWhile isDigitB fp = fp ∧ List.dropWhile isDigitB fp = [] := by
    have := takeWhile_app (f := isDigitB) (a := fp) []
      (fun x hx => isDigitB_of x (hfpd x hx)) (by simp)
    simpa using this
  cases neg with
  | false =>
    cases fp with
    | nil =>
      have htw : List.takeWhile isDigitB (d :: ip') = d :: ip' ∧
          List.dropWhile isDigitB (d :: ip') = [] := by
        have := takeWhile_app (f := isDigitB) (a := d :: ip') []
          (fun x hx => isDigitB_of x (hipd x hx)) (by simp)
        simpa using this
      simp [parseFloatBytes, hd45, hd43, htw.1, htw.2]
    | cons f fs =>
      have htw := takeWhile_app (f := isDigitB) (a := d :: ip') (46 :: f :: fs)
        (fun x hx => isDigitB_of x (hipd x hx)) (by intro x hx; simp at hx; subst hx; decide)
      rw [List.cons_append] at htw
      simp only [if_neg (by simp : ¬(f :: fs = ([] : List Nat))), List.nil_append]
      simp [parseFloatBytes, hd45, hd43, htw.1, htw.2, hfptw.1, hfptw.2]
  | true =>
    cases fp with
    | nil =>
      have htw : List.takeWhile isDigitB (d :: ip') = d :: ip' ∧
          List.dropWhile isDigitB (d :: ip') = [] := by
        have := takeWhile_app (f := isDigitB) (a := d :: ip') []
          (fun x hx => isDigitB_of x (hipd x hx)) (by simp)
        simpa using this
      simp [parseFloatBytes, hd45, hd43, htw.1, htw.2]
    | cons f fs =>
      have htw := takeWhile_app (f := isDigitB) (a := d :: ip') (46 :: f :: fs)
        (fun x hx => isDigitB_of x (hipd x hx)) (by intro x hx; simp at hx; subst hx; decide)
      rw [List.cons_append] at htw
      simp only [if_neg (by simp : ¬(f :: fs = ([] : List Nat))), List.nil_append]
      simp [parseFloatBytes, hd45, hd43, htw.1, htw.2, hfptw.1, hfptw.2]

theorem digit1_eq {a r : List Nat} (ha : a ≠ []) (had : ∀ b ∈ a, 48 ≤ b ∧ b ≤ 57)
    (hr : ∀ x ∈ r.take 1, isDigitB x = false) : digit1 (a ++ r) = .ok r a := by
  have htw := takeWhile_app (f := isDigitB) (a := a) r
    (fun x hx => isDigitB_of x (had x hx)) hr
  have hne : a.isEmpty = false := by
    cases a with
    | nil => exact absurd rfl ha
    | cons x xs => rfl
  simp [digit1, htw.1, hne, List.drop_left]

theorem numStop_digit {r : List Nat} (hr : numStop r) :
    ∀ x ∈ r.take 1, isDigitB x = false := by
  intro x hx
  rcases hr x hx with h | h <;> subst h <;> decide

theorem numStop_head {r : List Nat} (hr : numStop r) (c : Nat)
    (hc : c = 46 ∨ c = 101 ∨ c = 69 ∨ c = 43 ∨ c = 45) : pChar c r = .fail := by
  cases r with
  | nil => exact pChar_nil c
  | cons x xs =>
    have := hr x (by simp)
    refine pChar_ne xs ?_
    rcases this with h | h <;> subst h <;> rcases hc with h | h | h | h | h <;> omega

/-- The optional-exponent tail parser of recognizeFloat returns `none`
at a stop byte. -/
theorem recExp_none {r : List Nat} (hr : numStop r) :
    pOpt (pThen (pAlt2 (pChar 101) (pChar 69))
      (pThen (pOpt (pAlt2 (pChar 43) (pChar 45))) (pCut digit1))) r = .ok r none := by
  refine pOpt_fail ?_
  refine pThen_fail1 _ ?_
  rw [pAlt2_fail1 (numStop_head hr 101 (by tauto))]
  exact numStop_head hr 69 (by tauto)

theorem recognizeFloatInner_eq (neg : Bool) (ip fp r : List Nat)
    (hip : ip ≠ []) (hipd : ∀ b ∈ ip, 48 ≤ b ∧ b ≤ 57)
    (hfpd : ∀ b ∈ fp, 48 ≤ b ∧ b ≤ 57) (hr : numStop r) :
    recognizeFloatInner (((if neg then [45] else []) ++ ip ++
        (if fp = [] then [] else 46 :: fp)) ++ r) = .ok r () := by
  obtain ⟨d, ip', rfl⟩ : ∃ d ip', ip = d :: ip' := by
    cases ip with
    | nil => exact absurd rfl hip
    | cons d t => exact ⟨d, t, rfl⟩
  have hd := hipd d (by simp)
  have hd45 : d ≠ 45 := by omega
  have hd43 : d ≠ 43 := by omega
  have hexp := recExp_none hr
  have hrd := numStop_digit hr
  have hsign45 : ∀ Y : List Nat, pOpt (pAlt2 (pChar 43) (pChar 45)) (45 :: Y) =
      .ok Y (some 45) := fun Y =>
    pOpt_ok (by rw [pAlt2_fail1 (pChar_ne _ (by decide : (45 : Nat) ≠ 43))]
                exact pChar_ok 45 _)
  have hsignd : ∀ Y : List Nat, pOpt (pAlt2 (pChar 43) (pChar 45)) (d :: Y) =
      .ok (d :: Y) none := fun Y =>
    pOpt_fail (by rw [pAlt2_fail1 (pChar_ne _ hd43)]
                  exact pChar_ne _ hd45)
  cases fp with
  | nil =>
    have hfrac : pOpt (pThen (pChar 46) (pOpt digit1)) r = .ok r none :=
      pOpt_fail (pThen_fail1 _ (numStop_head hr 46 (by tauto)))
    have hdig : digit1 ((d :: ip') ++ r) = .ok r (d :: ip') :=
      digit1_eq (by simp) hipd hrd
    have hmant : pAlt2
        (pMap (pThen digit1 (pOpt (pThen (pChar 46) (pOpt digit1)))) fun _ => ())
        (pMap (pThen (pChar 46) digit1) fun _ => ())
        ((d :: ip') ++ r) = .ok r () :=
      pAlt2_ok1 _ (pMap_ok _ (pThen_ok hdig hfrac))
    cases neg with
    | false =>
      simpa using pMap_ok (fun _ => ())
        (pThen_ok (hsignd (ip' ++ r)) (pThen_ok hmant hexp))
    | true =>
      simpa using pMap_ok (fun _ => ())
        (pThen_ok (hsign45 ((d :: ip') ++ r)) (pThen_ok hmant hexp))
  | cons f fs =>
    have hdigf : digit1 ((f :: fs) ++ r) = .ok r (f :: fs) :=
      digit1_eq (by simp) hfpd hrd
    have hfrac : pOpt (pThen (pChar 46) (pOpt digit1)) (46 :: ((f :: fs) ++ r)) =
        .ok r (some (46, some (f :: fs))) :=
      pOpt_ok (pThen_ok (pChar_ok 46 _) (pOpt_ok hdigf))
    have hdig : digit1 ((d :: ip') ++ (46 :: ((f :: fs) ++ r))) =
        .ok (46 :: ((f :: fs) ++ r)) (d :: ip') :=
      digit1_eq (by simp) hipd (by intro x hx; simp at hx; subst hx; decide)
    have hmant : pAlt2
        (pMap (pThen digit1 (pOpt (pThen (pChar 46) (pOpt digit1)))) fun _ => ())
        (pMap (pThen (pChar 46) digit1) fun _ => ())
        ((d :: ip') ++ (46 :: ((f :: fs) ++ r))) = .ok r () :=
      pAlt2_ok1 _ (pMap_ok _ (pThen_ok hdig hfrac))
    cases neg with
    | false =>
      simpa using pMap_ok (fun _ => ())
        (pThen_ok (hsignd (ip' ++ (46 :: ((f :: fs) ++ r))))
          (pThen_ok hmant hexp))
    | true =>
      simpa using pMap_ok (fun _ => ())
        (pThen_ok (hsign45 ((d :: ip') ++ (46 :: ((f :: fs) ++ r))))
          (pThen_ok hmant hexp))

theorem recognizeFloat_eq {a r : List Nat} (h : recognizeFloatInner (a ++ r) = .ok r ()) :
    recognizeFloat (a ++ r) = .ok r a := by
  simp only [recognizeFloat, h, List.length_append, Nat.add_sub_cancel]
  rw [List.take_left]

theorem sign_mul_natAbs (q : ℚ) :
    (if decide (q.num < 0) then (-1 : ℚ) else 1) * (q.num.natAbs : ℚ) = (q.num : ℚ) := by
  have habs : ((q.num.natAbs : ℚ)) = |(q.num : ℚ)| := by
    rw [Int.cast_natAbs, Int.cast_abs]
  rw [habs]
  by_cases h : q.num < 0
  · have hneg : (q.num : ℚ) < 0 := by exact_mod_cast h
    rw [abs_of_neg hneg]
    simp [h]
  · have hpos : (0 : ℚ) ≤ (q.num : ℚ) := by exact_mod_cast (by omega : (0 : ℤ) ≤ q.num)
    rw [abs_of_nonneg hpos]
    simp [h]

theorem signBytes_decide (q : ℚ) :
    (if q.num < 0 then ([45] : List Nat) else []) =
      (if decide (q.num < 0) then [45] else []) := by
  by_cases h : q.num < 0 <;> simp [h]

theorem padZeros_digits {k : Nat} {l : List Nat} (hl : ∀ b ∈ l, 48 ≤ b ∧ b ≤ 57) :
    ∀ b ∈ padZeros k l, 48 ≤ b ∧ b ≤ 57 := by
  intro b hb
  simp only [padZeros, List.mem_append] at hb
  rcases hb with hb | hb
  · have := List.eq_of_mem_replicate hb
    omega
  · exact hl b hb

theorem padZeros_ne_nil {k : Nat} {l : List Nat} (hl : l ≠ []) : padZeros k l ≠ [] := by
  simp [padZeros, hl]

theorem padZeros_len {k : Nat} {l : List Nat} (hl : l.length ≤ k) :
    (padZeros k l).length = k := by
  simp [padZeros]
  omega

theorem digitsToNat_padZeros (k : Nat) (l : List Nat) :
    digitsToNat (padZeros k l) = digitsToNat l :=
  digitsToNat_pad _ _

theorem double_fmt (q : ℚ) (hq : dyadicQ q = true) (r : List Nat) (hr : numStop r) :
    double (fmtF64 q ++ r) = .ok r q := by
  rcases fmtF64_decomp q hq with ⟨hden, hcase⟩
  rcases hcase with ⟨hk, hfmt⟩ | ⟨hk, hfmt⟩
  · have hden1 : q.den = 1 := by rw [hden, hk, pow_zero]
    have hshape : fmtF64 q ++ r =
        ((if decide (q.num < 0) then [45] else []) ++ natDigits q.num.natAbs ++
          (if ([] : List Nat) = [] then [] else 46 :: [])) ++ r := by
      rw [hfmt, signBytes_decide]
      simp
    have hinner := recognizeFloatInner_eq (decide (q.num < 0)) (natDigits q.num.natAbs)
      [] r (natDigits_ne_nil _) (natDigits_digits _) (by simp) hr
    have hrf := recognizeFloat_eq hinner
    have hpf := parseFloat_core (decide (q.num < 0)) (natDigits q.num.natAbs) []
      (natDigits_ne_nil _) (natDigits_digits _) (by simp)
    have hnil : (if ([] : List Nat) = [] then ([] : List Nat) else 46 :: []) = [] := rfl
    rw [hnil, List.append_nil] at hshape hrf hpf
    rw [hshape]
    simp only [double, hrf]
    rw [hpf, digitsToNat_natDigits]
    have hq1 : (q.num : ℚ) = q := by
      conv_rhs => rw [← Rat.num_div_den q]
      rw [hden1]
      norm_num
    have hval : (if decide (q.num < 0) then (-1 : ℚ) else 1) *
        ((q.num.natAbs : ℚ) + (digitsToNat ([] : List Nat) : ℚ) /
          10 ^ (List.length ([] : List Nat))) = q := by
      have e : (q.num.natAbs : ℚ) + (digitsToNat ([] : List Nat) : ℚ) /
          10 ^ (List.length ([] : List Nat)) = (q.num.natAbs : ℚ) := by
        norm_num [digitsToNat]
      rw [e, sign_mul_natAbs]
      exact hq1
    rw [hval]
  · have hA5 : ∀ b ∈ natDigits (q.num.natAbs * 5 ^ natLog2 q.den / 10 ^ natLog2 q.den),
        48 ≤ b ∧ b ≤ 57 := natDigits_digits _
    set k := natLog2 q.den with hkdef
    set A := q.num.natAbs with hAdef
    set I := A * 5 ^ k / 10 ^ k with hIdef
    set F := A * 5 ^ k % 10 ^ k with hFdef
    set fp := padZeros k (natDigits F) with hfpdef
    have hfpne : fp ≠ [] := padZeros_ne_nil (natDigits_ne_nil _)
    have hfpdig : ∀ b ∈ fp, 48 ≤ b ∧ b ≤ 57 := padZeros_digits (natDigits_digits _)
    have hFlt : F < 10 ^ k := Nat.mod_lt _ (by positivity)
    have hfplen : fp.length = k := by
      rw [hfpdef]
      refine padZeros_len ?_
      have h1 : F < 10 ^ ((k - 1) + 1) := by
        rw [show k - 1 + 1 = k by omega]
        exact hFlt
      have h2 := natDigits_len h1
      omega
    have hshape : fmtF64 q ++ r =
        ((if decide (q.num < 0) then [45] else []) ++ natDigits I ++
          (if fp = [] then [] else 46 :: fp)) ++ r := by
      rw [hfmt, signBytes_decide]
      simp [if_neg hfpne]
    have hinner := recognizeFloatInner_eq (decide (q.num < 0)) (natDigits I) fp r
      (natDigits_ne_nil _) (natDigits_digits _) hfpdig hr
    have hrf := recognizeFloat_eq hinner
    have hpf := parseFloat_core (decide (q.num < 0)) (natDigits I) fp
      (natDigits_ne_nil _) (natDigits_digits _) hfpdig
    rw [if_neg hfpne] at hrf hpf hshape
    simp only [List.append_assoc, List.cons_append] at hrf hpf hshape
    rw [hshape]
    simp only [double, hrf]
    rw [hpf, digitsToNat_natDigits, hfpdef, digitsToNat_padZeros, digitsToNat_natDigits,
      ← hfpdef, hfplen]
    have h10 : ((10 : ℚ)) ^ k ≠ 0 := by positivity
    have h5 : ((5 : ℚ)) ^ k ≠ 0 := by positivity
    have h2q : ((2 : ℚ)) ^ k ≠ 0 := by positivity
    have hnat : 10 ^ k * I + F = A * 5 ^ k := Nat.div_add_mod _ _
    have hcast : ((10 : ℚ)) ^ k * (I : ℚ) + (F : ℚ) = (A : ℚ) * 5 ^ k := by
      exact_mod_cast hnat
    have h25 : ((10 : ℚ)) ^ k = 2 ^ k * 5 ^ k := by
      rw [← mul_pow]
      norm_num
    have hIF : (I : ℚ) + (F : ℚ) / 10 ^ k = (A : ℚ) / 2 ^ k := by
      have e1 : (I : ℚ) + (F : ℚ) / 10 ^ k = (((10 : ℚ)) ^ k * I + F) / 10 ^ k := by
        field_simp
        ring
      rw [e1, hcast, h25, mul_comm ((2 : ℚ) ^ k) ((5 : ℚ) ^ k),
        mul_comm (A : ℚ) ((5 : ℚ) ^ k), mul_div_mul_left _ _ h5]
    have hq2 : (q.num : ℚ) / 2 ^ k = q := by
      conv_rhs => rw [← Rat.num_div_den q]
      rw [hden]
      push_cast
      norm_num
    have hval : (if decide (q.num < 0) then (-1 : ℚ) else 1) *
        ((I : ℚ) + (F : ℚ) / 10 ^ k) = q := by
      rw [hIF, ← mul_div_assoc, hAdef, sign_mul_natAbs]
      exact hq2
    rw [hval]

theorem fmtF64_natCast (n : Nat) : fmtF64 (n : ℚ) = natDigits n := by
  have h1 : ((n : ℚ)).den = 1 := Rat.den_natCast n
  have h2 : ((n : ℚ)).num = (n : ℤ) := Rat.num_natCast n
  have hl1 : natLog2 1 = 0 := rfl
  simp [fmtF64, h1, h2, hl1]

theorem dyadicQ_natCast (n : Nat) : dyadicQ (n : ℚ) = true := by
  have h1 : ((n : ℚ)).den = 1 := Rat.den_natCast n
  simp [dyadicQ, h1]
  rfl

theorem double_natDigits (n : Nat) (r : List Nat) (hr : numStop r) :
    double (natDigits n ++ r) = .ok r (n : ℚ) := by
  rw [← fmtF64_natCast n]
  exact double_fmt _ (dyadicQ_natCast n) r hr

theorem fmtF64_bytes (q : ℚ) : ∀ b ∈ fmtF64 q, b = 45 ∨ b = 46 ∨ (48 ≤ b ∧ b ≤ 57) := by
  have happ : ∀ (u v : List Nat),
      (∀ x ∈ u, x = 45 ∨ x = 46 ∨ (48 ≤ x ∧ x ≤ 57)) →
      (∀ x ∈ v, x = 45 ∨ x = 46 ∨ (48 ≤ x ∧ x ≤ 57)) →
      ∀ x ∈ u ++ v, x = 45 ∨ x = 46 ∨ (48 ≤ x ∧ x ≤ 57) := by
    intro u v hu hv x hx
    rcases List.mem_append.mp hx with hx | hx
    · exact hu x hx
    · exact hv x hx
  have hsign : ∀ x ∈ (if q.num < 0 then ([45] : List Nat) else []),
      x = 45 ∨ x = 46 ∨ (48 ≤ x ∧ x ≤ 57) := by
    split <;> simp
  have hnd : ∀ (n : Nat), ∀ x ∈ natDigits n, x = 45 ∨ x = 46 ∨ (48 ≤ x ∧ x ≤ 57) := by
    intro n x hx
    have := natDigits_digits n x hx
    omega
  have hpd : ∀ (k n : Nat), ∀ x ∈ padZeros k (natDigits n),
      x = 45 ∨ x = 46 ∨ (48 ≤ x ∧ x ≤ 57) := by
    intro k n x hx
    have := padZeros_digits (natDigits_digits n) x hx
    omega
  intro b hb
  simp only [fmtF64] at hb
  split at hb
  · split at hb
    · exact happ _ _ hsign (hnd _) b hb
    · exact happ _ _ (happ _ _ (happ _ _ hsign (hnd _)) (by simp)) (hpd _ _) b hb
  · exact happ _ _ hsign (hnd _) b hb

/-! ### Comment stripping distribution -/

theorem length_dropWhile_le (p : Nat → Bool) : ∀ l : List Nat,
    (l.dropWhile p).length ≤ l.length
  | [] => by simp
  | x :: xs => by
    rw [List.dropWhile_cons]
    split
    · have := length_dropWhile_le p xs
      simp only [List.length_cons]
      omega
    · simp

/-- Unfolding of one `stripCommentsGo` step on a cons cell. -/
theorem stripGo_cons (fuel x : Nat) (l : List Nat) :
    stripCommentsGo (fuel + 1) (x :: l) =
      if x = 47 ∧ l.headD 0 = 47 then
        stripCommentsGo fuel ((l.drop 1).dropWhile fun c => c ≠ 10)
      else x :: stripCommentsGo fuel l := rfl

theorem stripGo_fuel : ∀ (fuel1 fuel2 : Nat) (l : List Nat), l.length < fuel1 →
    l.length < fuel2 → stripCommentsGo fuel1 l = stripCommentsGo fuel2 l
  | 0, _, l, h1, _ => absurd h1 (by omega)
  | _ + 1, 0, l, _, h2 => absurd h2 (by omega)
  | fuel1 + 1, fuel2 + 1, [], _, _ => by simp [stripCommentsGo]
  | fuel1 + 1, fuel2 + 1, b :: rest, h1, h2 => by
    rw [stripGo_cons, stripGo_cons]
    split
    · have h3 := length_dropWhile_le (fun c : Nat => decide (c ≠ 10)) (rest.drop 1)
      have h4 := List.length_drop 1 rest
      simp only [List.length_cons] at h1 h2
      exact stripGo_fuel fuel1 fuel2 _ (by omega) (by omega)
    · simp only [List.length_cons] at h1 h2
      rw [stripGo_fuel fuel1 fuel2 rest (by omega) (by omega)]

theorem strip_cons_keep {b : Nat} {l : List Nat} (hb : ¬(b = 47 ∧ l.headD 0 = 47)) :
    stripComments (b :: l) = b :: stripComments l := by
  show stripCommentsGo (l.length + 1 + 1) (b :: l) = _
  rw [stripGo_cons, if_neg hb]
  rfl

theorem strip_append_clean : ∀ {a : List Nat} (b : List Nat), (∀ x ∈ a, x ≠ 47) →
    stripComments (a ++ b) = a ++ stripComments b
  | [], b, _ => by simp
  | x :: xs, b, ha => by
    have hx : x ≠ 47 := ha x (by simp)
    rw [List.cons_append, strip_cons_keep (by simp [hx]),
      strip_append_clean b (fun y hy => ha y (by simp [hy]))]
    rfl

theorem strip_comment {c : List Nat} (b : List Nat) (hc : ∀ x ∈ c, x ≠ 10) :
    stripComments (47 :: 47 :: (c ++ 10 :: b)) = 10 :: stripComments b := by
  have hdw : (c ++ 10 :: b).dropWhile (fun x => x ≠ 10) = 10 :: b := by
    have := takeWhile_app (f := fun x : Nat => decide (x ≠ 10)) (a := c) (10 :: b)
      (by intro x hx; simpa using hc x hx) (by simp)
    exact this.2
  show stripCommentsGo ((47 :: (c ++ 10 :: b)).length + 1 + 1) (47 :: 47 :: (c ++ 10 :: b)) = _
  rw [stripGo_cons, if_pos (by simp)]
  show stripCommentsGo ((c ++ 10 :: b).length + 1 + 1)
    ((c ++ 10 :: b).dropWhile fun x => x ≠ 10) = _
  rw [hdw, stripGo_cons, if_neg (by simp)]
  have hlen : b.length < (c ++ 10 :: b).length + 1 := by
    simp
    omega
  rw [stripGo_fuel _ (b.length + 1) b hlen (by omega)]
  rfl

theorem all_app {P : Nat → Prop} {a : List Nat} {b : List Nat}
    (ha : ∀ x ∈ a, P x) (hb : ∀ x ∈ b, P x) : ∀ x ∈ a ++ b, P x := by
  intro x hx
  rcases List.mem_append.mp hx with hx | hx
  · exact ha x hx
  · exact hb x hx

theorem natDigits_ne47 (n : Nat) : ∀ x ∈ natDigits n, x ≠ 47 := by
  intro x hx
  have := natDigits_digits n x hx
  omega

theorem natDigits_ne10 (n : Nat) : ∀ x ∈ natDigits n, x ≠ 10 := by
  intro x hx
  have := natDigits_digits n x hx
  omega

theorem fmtF64_ne47 (q : ℚ) : ∀ x ∈ fmtF64 q, x ≠ 47 := by
  intro x hx
  have := fmtF64_bytes q x hx
  omega

theorem boolBit_ne47 (b : Bool) : ∀ x ∈ boolBit b, x ≠ 47 := by
  intro x hx
  cases b <;> simp [boolBit] at hx <;> omega

theorem print_move_ne47 (om : Option Move) : ∀ x ∈ TasFile.print_move om, x ≠ 47 := by
  cases om with
  | none =>
    simp only [TasFile.print_move, List.append_assoc, List.forall_mem_append]
    repeat' apply And.intro
    all_goals decide
  | some mv =>
    simp only [TasFile.print_move, List.append_assoc, List.forall_mem_append]
    repeat' apply And.intro
    all_goals first
      | decide
      | exact fmtF64_ne47 _
      | exact boolBit_ne47 _

theorem strip_frames : ∀ (fuel : Nat) (fs : List Frame) (e : Nat) (tail : List Nat),
    stripComments ((TasFile.printFrames fuel fs e).1 ++ tail) =
      cleanFrames fuel fs ++ stripComments tail
  | 0, fs, e, tail => by simp [TasFile.printFrames, cleanFrames]
  | fuel + 1, [], e, tail => by simp [TasFile.printFrames, cleanFrames]
  | fuel + 1, f :: rest, e, tail => by
    by_cases hm : f.has_move
    · have ih := strip_frames fuel rest ((e + f.delta) % 2 ^ 32) tail
      simp only [TasFile.printFrames, cleanFrames, hm, if_true]
      have hsplit : asciiBytes " ms //" = asciiBytes " ms " ++ [47, 47] := rfl
      have hshape : ((asciiBytes "      moveframe " ++ natDigits f.delta ++
          asciiBytes " ms //" ++ natDigits ((e + f.delta) % 2 ^ 32) ++ [10] ++
          TasFile.print_move f.m0 ++ TasFile.print_move f.m1) ++
            (TasFile.printFrames fuel rest ((e + f.delta) % 2 ^ 32)).1) ++ tail =
          (asciiBytes "      moveframe " ++ natDigits f.delta ++ asciiBytes " ms ") ++
            (47 :: 47 :: (natDigits ((e + f.delta) % 2 ^ 32) ++ 10 ::
              (TasFile.print_move f.m0 ++ (TasFile.print_move f.m1 ++
                ((TasFile.printFrames fuel rest ((e + f.delta) % 2 ^ 32)).1 ++ tail))))) := by
        simp [hsplit, List.append_assoc]
      rw [hshape]
      rw [strip_append_clean _ (by
        refine all_app (all_app (by decide) (natDigits_ne47 _)) (by decide))]
      rw [strip_comment _ (natDigits_ne10 ((e + f.delta) % 2 ^ 32))]
      rw [strip_append_clean _ (print_move_ne47 _), strip_append_clean _ (print_move_ne47 _)]
      rw [ih]
      simp [List.append_assoc]
    · by_cases hcomb : 1 < 1 + countRun f.delta rest
      · have ih := strip_frames fuel (rest.drop (1 + countRun f.delta rest - 1))
          (((e + f.delta) % 2 ^ 32 +
            f.delta * (1 + countRun f.delta rest - 1) % 2 ^ 32) % 2 ^ 32) tail
        simp only [TasFile.printFrames, cleanFrames, hm, hcomb, if_true, if_false,
          Bool.false_eq_true]
        have hsplit : asciiBytes " ms // " = asciiBytes " ms " ++ [47, 47, 32] := rfl
        have hshape : ((asciiBytes "      frames " ++
            natDigits (1 + countRun f.delta rest) ++ [32] ++ natDigits f.delta ++
            asciiBytes " ms // " ++ natDigits ((e + f.delta) % 2 ^ 32) ++
            asciiBytes " -> " ++ natDigits (((e + f.delta) % 2 ^ 32 +
              f.delta * (1 + countRun f.delta rest - 1) % 2 ^ 32) % 2 ^ 32) ++ [10] ++
            (TasFile.printFrames fuel (rest.drop (1 + countRun f.delta rest - 1))
              (((e + f.delta) % 2 ^ 32 +
                f.delta * (1 + countRun f.delta rest - 1) % 2 ^ 32) % 2 ^ 32)).1) ++ tail) =
            (asciiBytes "      frames " ++ natDigits (1 + countRun f.delta rest) ++
              [32] ++ natDigits f.delta ++ asciiBytes " ms ") ++
              (47 :: 47 :: ((32 :: (natDigits ((e + f.delta) % 2 ^ 32) ++
                asciiBytes " -> " ++ natDigits (((e + f.delta) % 2 ^ 32 +
                  f.delta * (1 + countRun f.delta rest - 1) % 2 ^ 32) % 2 ^ 32))) ++ 10 ::
                ((TasFile.printFrames fuel (rest.drop (1 + countRun f.delta rest - 1))
                  (((e + f.delta) % 2 ^ 32 +
                    f.delta * (1 + countRun f.delta rest - 1) % 2 ^ 32) % 2 ^ 32)).1 ++
                  tail))) := by
          simp [hsplit, List.append_assoc]
        rw [hshape]
        rw [strip_append_clean _ (by
          refine all_app (all_app (all_app (all_app (by decide) ?_) ?_) ?_) (by decide)
          · exact natDigits_ne47 _
          · intro x hx
            simp at hx
            omega
          · exact natDigits_ne47 _)]
        have hc10 : ∀ x ∈ (32 :: (natDigits ((e + f.delta) % 2 ^ 32) ++
            asciiBytes " -> " ++ natDigits (((e + f.delta) % 2 ^ 32 +
              f.delta * (1 + countRun f.delta rest - 1) % 2 ^ 32) % 2 ^ 32))), x ≠ 10 := by
          intro x hx
          rcases List.mem_cons.mp hx with hx | hx
          · omega
          · rcases List.mem_append.mp hx with hx | hx
            · rcases List.mem_append.mp hx with hx | hx
              · exact natDigits_ne10 _ x hx
              · simp [asciiBytes] at hx
                omega
            · exact natDigits_ne10 _ x hx
        rw [strip_comment _ hc10]
        rw [ih]
        simp [List.append_assoc]
      · have ih := strip_frames fuel rest ((e + f.delta) % 2 ^ 32) tail
        simp only [TasFile.printFrames, cleanFrames, hm, hcomb, if_true, if_false,
          Bool.false_eq_true]
        have hsplit : asciiBytes " ms // " = asciiBytes " ms " ++ [47, 47, 32] := rfl
        have hshape : ((asciiBytes "      frame " ++ natDigits f.delta ++
            asciiBytes " ms // " ++ natDigits ((e + f.delta) % 2 ^ 32) ++ [10] ++
            (TasFile.printFrames fuel rest ((e + f.delta) % 2 ^ 32)).1) ++ tail) =
            (asciiBytes "      frame " ++ natDigits f.delta ++ asciiBytes " ms ") ++
              (47 :: 47 :: ((32 :: natDigits ((e + f.delta) % 2 ^ 32)) ++ 10 ::
                ((TasFile.printFrames fuel rest ((e + f.delta) % 2 ^ 32)).1 ++ tail))) := by
          simp [hsplit, List.append_assoc]
        rw [hshape]
        rw [strip_append_clean _ (by
          refine all_app (all_app (by decide) (natDigits_ne47 _)) (by decide))]
        have hc10 : ∀ x ∈ (32 :: natDigits ((e + f.delta) % 2 ^ 32)), x ≠ 10 := by
          intro x hx
          rcases List.mem_cons.mp hx with hx | hx
          · omega
          · exact natDigits_ne10 _ x hx
        rw [strip_comment _ hc10]
        rw [ih]
        simp [List.append_assoc]

theorem safeText_mem {v : List Nat} (hv : safeText v = true) :
    ∀ b ∈ v, 32 ≤ b ∧ b ≤ 126 ∧ b ≠ 34 ∧ b ≠ 47 ∧ b ≠ 92 := by
  intro b hb
  have := List.all_eq_true.mp hv b hb
  simpa using this

theorem escape_safe {v : List Nat} (hv : safeText v = true) :
    TasFile.escape v = 34 :: (v ++ [34]) := by
  have hmem := safeText_mem hv
  simp only [TasFile.escape]
  have hmap : (v.map fun b =>
      if b = 92 then [92, 92] else if b = 34 then [92, 34] else [b]) =
      v.map fun b => [b] := by
    apply List.map_congr_left
    intro b hb
    have h := hmem b hb
    rw [if_neg (by omega), if_neg (by omega)]
  rw [hmap]
  have hfl : ∀ w : List Nat, (List.map (fun b => [b]) w).flatten = w := by
    intro w
    induction w with
    | nil => rfl
    | cons x xs ih => simp [ih]
  simp [hfl v]

theorem escape_ne47 {v : List Nat} (hv : safeText v = true) :
    ∀ x ∈ TasFile.escape v, x ≠ 47 := by
  rw [escape_safe hv]
  intro x hx
  rcases List.mem_cons.mp hx with hx | hx
  · omega
  · rcases List.mem_append.mp hx with hx | hx
    · have := safeText_mem hv x hx
      omega
    · simp at hx
      omega

theorem strip_seqs : ∀ (ss : List Sequence) (e : Nat) (tail : List Nat),
    (∀ s ∈ ss, safeText s.name = true) →
    stripComments (TasFile.printSeqs ss e ++ tail) = cleanSeqs ss ++ stripComments tail
  | [], e, tail, _ => by simp [TasFile.printSeqs, cleanSeqs]
  | s :: rest, e, tail, hn => by
    have hname := hn s (by simp)
    have ih := strip_seqs rest (TasFile.printFrames (s.frames.length + 1) s.frames e).2 tail
      (fun x hx => hn x (by simp [hx]))
    simp only [TasFile.printSeqs, cleanSeqs, TasFile.print_sequence, cleanSeq]
    have hshape : (asciiBytes "   \x7b\n      " ++ TasFile.escape s.name ++ [10] ++
        (TasFile.printFrames (s.frames.length + 1) s.frames e).1 ++
        asciiBytes "   \x7d\n") ++
        TasFile.printSeqs rest (TasFile.printFrames (s.frames.length + 1) s.frames e).2 ++
          tail =
        (asciiBytes "   \x7b\n      " ++ TasFile.escape s.name ++ [10]) ++
          ((TasFile.printFrames (s.frames.length + 1) s.frames e).1 ++
            (asciiBytes "   \x7d\n" ++
              (TasFile.printSeqs rest
                (TasFile.printFrames (s.frames.length + 1) s.frames e).2 ++ tail))) := by
      simp [List.append_assoc]
    rw [hshape]
    rw [strip_append_clean _ (by
      refine all_app (all_app (by decide) (escape_ne47 hname)) (by decide))]
    rw [strip_frames]
    rw [strip_append_clean _ (by decide)]
    rw [ih]
    simp [List.append_assoc]

theorem strip_print (X : TasFile) (hmiss : safeText X.mission = true)
    (hnames : ∀ s ∈ X.sequences, safeText s.name = true) :
    stripComments (TasFile.print X) = cleanPrint X := by
  simp only [TasFile.print, cleanPrint]
  have hshape : asciiBytes "\x7b\n   " ++ TasFile.escape X.mission ++ [10] ++
      TasFile.printSeqs X.sequences 0 ++ asciiBytes "\x7d\n" =
      (asciiBytes "\x7b\n   " ++ TasFile.escape X.mission ++ [10]) ++
        (TasFile.printSeqs X.sequences 0 ++ asciiBytes "\x7d\n") := by
    simp [List.append_assoc]
  rw [hshape]
  rw [strip_append_clean _ (by
    refine all_app (all_app (by decide) (escape_ne47 hmiss)) (by decide))]
  rw [strip_seqs _ _ _ hnames]
  have : stripComments (asciiBytes "\x7d\n") = asciiBytes "\x7d\n" := rfl
  rw [this]
  simp [List.append_assoc]

/-- One-step unfolding of the `escaped` loop. -/
theorem escapedGo_step (normal : Parser (List Nat)) (esc : List Nat) (fuel : Nat)
    (input i : List Nat) :
    escapedGo normal esc (fuel + 1) input i =
      if i.isEmpty then .ok [] input
      else match normal i with
      | .ok i2 _ =>
        if i2.isEmpty then .ok [] input
        else if i.length ≤ i2.length then .ok i (input.take (input.length - i.length))
        else escapedGo normal esc fuel input i2
      | .abort => .abort
      | .fail =>
        if i.headD 0 = 92 then
          match i with
          | [_] => .fail
          | _ :: i1 =>
            match pOneOf esc i1 with
            | .ok i2 _ =>
              if i2.isEmpty then .ok [] input
              else escapedGo normal esc fuel input i2
            | .fail => .fail
            | .abort => .abort
          | [] => .fail
        else .ok i (input.take (input.length - i.length)) := rfl

theorem pIsNot_head_fail {set : List Nat} {b : Nat} (r : List Nat) (hb : b ∈ set) :
    pIsNot set (b :: r) = .fail := by
  have hf : notInSet set b = false := by
    simp [notInSet, hb]
  simp [pIsNot, List.takeWhile_cons, hf]

theorem parse_str_safe {s r : List Nat} (hs : safeText s = true) :
    parse_str (s ++ 34 :: r) = .ok (34 :: r) s := by
  have h34 : pIsNot [34, 92] (34 :: r) = .fail := pIsNot_head_fail r (by simp)
  cases s with
  | nil =>
    show escapedGo (pIsNot [34, 92]) [34, 110, 92] (r.length + 1 + 1) (34 :: r) (34 :: r) =
      .ok (34 :: r) []
    rw [escapedGo_step]
    simp [h34]
  | cons c cs =>
    have hmem := safeText_mem hs
    have hnotin : ∀ x ∈ c :: cs, notInSet [34, 92] x = true := by
      intro x hx
      have := hmem x hx
      simp [notInSet]
      omega
    have hrun := takeWhile_app (f := notInSet [34, 92]) (a := c :: cs) (34 :: r) hnotin
      (by intro x hx
          simp at hx
          subst hx
          simp [notInSet])
    have hisnot : pIsNot [34, 92] ((c :: cs) ++ 34 :: r) = .ok (34 :: r) (c :: cs) := by
      simp only [pIsNot, hrun.1]
      rw [if_neg (by simp)]
      rw [List.drop_left]
    show escapedGo (pIsNot [34, 92]) [34, 110, 92]
      (((cs ++ 34 :: r).length + 1) + 1) ((c :: cs) ++ 34 :: r) ((c :: cs) ++ 34 :: r) =
      .ok (34 :: r) (c :: cs)
    rw [escapedGo_step]
    rw [if_neg (by simp)]
    simp only [hisnot]
    rw [if_neg (by simp), if_neg (by simp; omega)]
    have hfuel : (cs ++ 34 :: r).length + 1 = (r.length + 1) + 1 + cs.length := by
      simp
      omega
    rw [hfuel]
    have hstep2 : ∀ extra : Nat, escapedGo (pIsNot [34, 92]) [34, 110, 92]
        ((r.length + 1) + 1 + extra) ((c :: cs) ++ 34 :: r) (34 :: r) =
        .ok (34 :: r) (((c :: cs) ++ 34 :: r).take
          (((c :: cs) ++ 34 :: r).length - (34 :: r).length)) := by
      intro extra
      rw [show (r.length + 1) + 1 + extra = (r.length + 1 + extra) + 1 by omega]
      rw [escapedGo_step]
      rw [if_neg (by simp)]
      simp only [h34]
      rw [if_neg (by simp)]
    rw [hstep2]
    have htake : (((c :: cs) ++ 34 :: r).take
        (((c :: cs) ++ 34 :: r).length - (34 :: r).length)) = c :: cs := by
      simp only [List.length_append, Nat.add_sub_cancel]
      exact List.take_left _ _
    rw [htake]

theorem stringRule_eq {s r : List Nat} (hs : safeText s = true) :
    stringRule (34 :: (s ++ 34 :: r)) = .ok r s :=
  pPreceded_ok (pChar_ok 34 _)
    (pCut_ok (pTerminated_ok (parse_str_safe hs) (pChar_ok 34 r)))

theorem fmtF64_ne_nil (q : ℚ) : fmtF64 q ≠ [] := by
  simp only [fmtF64]
  split
  · split
    · simp [natDigits_ne_nil]
    · simp [natDigits_ne_nil]
  · simp [natDigits_ne_nil]

theorem fmtF64_not_ws (q : ℚ) : ∀ x ∈ fmtF64 q, wsChar x = false := by
  intro x hx
  have := fmtF64_bytes q x hx
  simp [wsChar]
  omega

theorem take1_not_ws_app {u : List Nat} (v : List Nat)
    (hu : ∀ x ∈ u, wsChar x = false) (hne : u ≠ []) :
    ∀ x ∈ (u ++ v).take 1, wsChar x = false := by
  cases u with
  | nil => exact absurd rfl hne
  | cons d ds =>
    intro x hx
    rw [List.cons_append] at hx
    simp only [List.take_succ_cons, List.take_zero, List.mem_singleton] at hx
    subst hx
    exact hu x (by simp)

theorem optSp_none {i : List Nat} (hi : ∀ x ∈ i.take 1, wsChar x = false) :
    pOpt sp i = .ok i (some []) := by
  have h := optSp_eq (w := ([] : List Nat)) (by simp) hi
  simpa using h

theorem numStop_cons32 (l : List Nat) : numStop (32 :: l) := by
  intro x hx
  simp at hx
  omega

theorem numStop_cons41 (l : List Nat) : numStop (41 :: l) := by
  intro x hx
  simp at hx
  omega

theorem take1_cons_not_ws {b : Nat} (l : List Nat) (hb : wsChar b = false) :
    ∀ x ∈ (b :: l).take 1, wsChar x = false := by
  intro x hx
  simp at hx
  subst hx
  exact hb

theorem float3_eq (a b c : ℚ) (ha : dyadicQ a = true) (hb : dyadicQ b = true)
    (hc : dyadicQ c = true) (r : List Nat) :
    float3 (40 :: (fmtF64 a ++ 32 :: (fmtF64 b ++ 32 :: (fmtF64 c ++ 41 :: r)))) =
      .ok r (a, b, c) := by
  have hD1 : pPreceded (pOpt sp) double
      (fmtF64 a ++ 32 :: (fmtF64 b ++ 32 :: (fmtF64 c ++ 41 :: r))) =
      .ok (32 :: (fmtF64 b ++ 32 :: (fmtF64 c ++ 41 :: r))) a :=
    pPreceded_ok (optSp_none (take1_not_ws_app _ (fmtF64_not_ws a) (fmtF64_ne_nil a)))
      (double_fmt a ha _ (numStop_cons32 _))
  have hD2 : pPreceded (pOpt sp) double (32 :: (fmtF64 b ++ 32 :: (fmtF64 c ++ 41 :: r))) =
      .ok (32 :: (fmtF64 c ++ 41 :: r)) b :=
    pPreceded_ok
      (optSp_eq (w := [32]) (by decide)
        (take1_not_ws_app _ (fmtF64_not_ws b) (fmtF64_ne_nil b)))
      (double_fmt b hb _ (numStop_cons32 _))
  have hD3 : pPreceded (pOpt sp) double (32 :: (fmtF64 c ++ 41 :: r)) =
      .ok (41 :: r) c :=
    pPreceded_ok
      (optSp_eq (w := [32]) (by decide)
        (take1_not_ws_app _ (fmtF64_not_ws c) (fmtF64_ne_nil c)))
      (double_fmt c hc _ (numStop_cons41 _))
  have hwrap : ws_wrap (pThen (pPreceded (pOpt sp) double)
      (pThen (pPreceded (pOpt sp) double) (pPreceded (pOpt sp) double)))
      (fmtF64 a ++ 32 :: (fmtF64 b ++ 32 :: (fmtF64 c ++ 41 :: r))) =
      .ok (41 :: r) (a, b, c) :=
    pPreceded_ok (optSp_none (take1_not_ws_app _ (fmtF64_not_ws a) (fmtF64_ne_nil a)))
      (pTerminated_ok (pThen_ok hD1 (pThen_ok hD2 hD3))
        (optSp_none (take1_cons_not_ws _ (by decide))))
  exact pPreceded_ok (pChar_ok 40 _) (pCut_ok (pTerminated_ok hwrap (pChar_ok 41 r)))

theorem take1_of_headD {i : List Nat} (h : wsChar (i.headD 0) = false) :
    ∀ x ∈ i.take 1, wsChar x = false := by
  cases i with
  | nil => simp
  | cons c cs =>
    intro x hx
    simp at hx
    subst hx
    simpa using h

theorem pIsA_bit (t : Bool) {r : List Nat}
    (hr : ∀ x ∈ r.take 1, inSet [48, 49] x = false) :
    pIsA [48, 49] (boolBit t ++ r) = .ok r (boolBit t) := by
  have hbit : ∀ x ∈ boolBit t, inSet [48, 49] x = true := by
    cases t <;> decide
  have htw := takeWhile_app (f := inSet [48, 49]) (a := boolBit t) r hbit hr
  have hne : (boolBit t).isEmpty = false := by cases t <;> rfl
  simp [pIsA, htw.1, hne, List.drop_left]

theorem inSet01_32 (l : List Nat) : ∀ x ∈ (32 :: l).take 1, inSet [48, 49] x = false := by
  intro x hx
  simp at hx
  subst hx
  decide

theorem inSet01_41 (l : List Nat) : ∀ x ∈ (41 :: l).take 1, inSet [48, 49] x = false := by
  intro x hx
  simp at hx
  subst hx
  decide

theorem bit01_boolBit (t : Bool) : bit01 (boolBit t) = t := by
  cases t <;> rfl

theorem boolBit_not_ws_head (t : Bool) (v : List Nat) :
    ∀ x ∈ (boolBit t ++ v).take 1, wsChar x = false := by
  refine take1_of_headD ?_
  cases t <;> rfl

theorem bool6_eq (t0 t1 t2 t3 t4 t5 : Bool) (r : List Nat) :
    bool6 (40 :: (boolBit t0 ++ 32 :: (boolBit t1 ++ 32 :: (boolBit t2 ++ 32 ::
      (boolBit t3 ++ 32 :: (boolBit t4 ++ 32 :: (boolBit t5 ++ 41 :: r))))))) =
      .ok r (t0, t1, t2, t3, t4, t5) := by
  have hB : ∀ (t : Bool) (v : List Nat), (∀ x ∈ v.take 1, inSet [48, 49] x = false) →
      pPreceded (pOpt sp) (pIsA [48, 49]) (boolBit t ++ v) = .ok v (boolBit t) := by
    intro t v hv
    exact pPreceded_ok (optSp_none (boolBit_not_ws_head t v)) (pIsA_bit t hv)
  have hBs : ∀ (t : Bool) (v : List Nat), (∀ x ∈ v.take 1, inSet [48, 49] x = false) →
      pPreceded (pOpt sp) (pIsA [48, 49]) (32 :: (boolBit t ++ v)) = .ok v (boolBit t) := by
    intro t v hv
    exact pPreceded_ok (optSp_eq (w := [32]) (by decide) (boolBit_not_ws_head t v))
      (pIsA_bit t hv)
  have hchain : pThen (pPreceded (pOpt sp) (pIsA [48, 49]))
      (pThen (pPreceded (pOpt sp) (pIsA [48, 49]))
        (pThen (pPreceded (pOpt sp) (pIsA [48, 49]))
          (pThen (pPreceded (pOpt sp) (pIsA [48, 49]))
            (pThen (pPreceded (pOpt sp) (pIsA [48, 49]))
              (pPreceded (pOpt sp) (pIsA [48, 49]))))))
      (boolBit t0 ++ 32 :: (boolBit t1 ++ 32 :: (boolBit t2 ++ 32 ::
        (boolBit t3 ++ 32 :: (boolBit t4 ++ 32 :: (boolBit t5 ++ 41 :: r)))))) =
      .ok (41 :: r) (boolBit t0, boolBit t1, boolBit t2, boolBit t3, boolBit t4,
        boolBit t5) := by
    refine pThen_ok (hB t0 _ (inSet01_32 _)) ?_
    refine pThen_ok (hBs t1 _ (inSet01_32 _)) ?_
    refine pThen_ok (hBs t2 _ (inSet01_32 _)) ?_
    refine pThen_ok (hBs t3 _ (inSet01_32 _)) ?_
    refine pThen_ok (hBs t4 _ (inSet01_32 _)) ?_
    exact hBs t5 _ (inSet01_41 _)
  have hwrap := pPreceded_ok (optSp_none (boolBit_not_ws_head t0 _))
    (pTerminated_ok (pMap_ok (fun t => (bit01 t.1, bit01 t.2.1, bit01 t.2.2.1,
        bit01 t.2.2.2.1, bit01 t.2.2.2.2.1, bit01 t.2.2.2.2.2)) hchain)
      (optSp_none (take1_cons_not_ws _ (by decide))))
  have hfin := pPreceded_ok (pChar_ok 40 _) (pCut_ok (pTerminated_ok hwrap
    (pChar_ok 41 r)))
  simpa [bit01_boolBit] using hfin

theorem moveSafe_fields {mv : Move} (h : moveSafe mv = true) :
    dyadicQ (mv.yaw.getD 0) = true ∧ dyadicQ (mv.pitch.getD 0) = true ∧
    dyadicQ (mv.roll.getD 0) = true ∧ dyadicQ mv.mx = true ∧ dyadicQ mv.my = true ∧
    dyadicQ mv.mz = true := by
  simp [moveSafe] at h
  tauto

theorem tagged_float3 (tag : List Nat) (y p l : ℚ) (hy : dyadicQ y = true)
    (hp : dyadicQ p = true) (hl : dyadicQ l = true) (T : List Nat)
    (hT : wsChar (T.headD 0) = false) :
    pPreceded (pTag tag) (ws_wrap float3)
      (tag ++ (32 :: 40 :: (fmtF64 y ++ 32 :: (fmtF64 p ++ 32 :: (fmtF64 l ++ 41 ::
        (10 :: (asciiBytes "         " ++ T))))))) = .ok T (y, p, l) :=
  pPreceded_ok (pTag_ok tag _)
    (pPreceded_ok (optSp_eq (w := [32]) (by decide) (take1_cons_not_ws _ (by decide)))
      (pTerminated_ok (float3_eq y p l hy hp hl (10 :: (asciiBytes "         " ++ T)))
        (optSp_eq (w := 10 :: asciiBytes "         ") (by decide) (take1_of_headD hT))))

theorem tagged_bool6 (tag : List Nat) (t0 t1 t2 t3 t4 t5 : Bool) (r : List Nat) :
    pPreceded (pTag tag) (ws_wrap bool6)
      (tag ++ (32 :: 40 :: (boolBit t0 ++ 32 :: (boolBit t1 ++ 32 :: (boolBit t2 ++
        32 :: (boolBit t3 ++ 32 :: (boolBit t4 ++ 32 :: (boolBit t5 ++ 41 ::
        (10 :: (asciiBytes "      " ++ 125 :: r)))))))))) =
      .ok (125 :: r) (t0, t1, t2, t3, t4, t5) :=
  pPreceded_ok (pTag_ok tag _)
    (pPreceded_ok (optSp_eq (w := [32]) (by decide) (take1_cons_not_ws _ (by decide)))
      (pTerminated_ok (bool6_eq t0 t1 t2 t3 t4 t5 (10 :: (asciiBytes "      " ++ 125 :: r)))
        (optSp_eq (w := 10 :: asciiBytes "      ") (by decide)
          (take1_cons_not_ws _ (by decide)))))

theorem move_inner_eq (mv : Move) (hsafe : moveSafe mv = true) (r : List Nat) :
    move_inner (asciiBytes "camera" ++ (32 :: 40 :: (fmtF64 (mv.yaw.getD 0) ++ 32 :: (fmtF64 (mv.pitch.getD 0) ++ 32 :: (fmtF64 (mv.roll.getD 0) ++ 41 :: (10 :: (asciiBytes "         " ++ (asciiBytes "move" ++ (32 :: 40 :: (fmtF64 mv.mx ++ 32 :: (fmtF64 mv.my ++ 32 :: (fmtF64 mv.mz ++ 41 :: (10 :: (asciiBytes "         " ++ (asciiBytes "triggers" ++ (32 :: 40 :: (boolBit (mv.triggers.getD 0 false) ++ 32 :: (boolBit (mv.triggers.getD 1 false) ++ 32 :: (boolBit (mv.triggers.getD 2 false) ++ 32 :: (boolBit (mv.triggers.getD 3 false) ++ 32 :: (boolBit (mv.triggers.getD 4 false) ++ 32 :: (boolBit (mv.triggers.getD 5 false) ++ 41 :: (10 :: (asciiBytes "      " ++ 125 :: r)))))))))))))))))))))))) =
      .ok (125 :: r) (moveNorm mv) := by
  obtain ⟨hy, hp, hl, hx, hm, hz⟩ := moveSafe_fields hsafe
  have hT : pPreceded (pTag (asciiBytes "triggers")) (ws_wrap bool6)
      (asciiBytes "triggers" ++ (32 :: 40 :: (boolBit (mv.triggers.getD 0 false) ++ 32 :: (boolBit (mv.triggers.getD 1 false) ++ 32 :: (boolBit (mv.triggers.getD 2 false) ++ 32 :: (boolBit (mv.triggers.getD 3 false) ++ 32 :: (boolBit (mv.triggers.getD 4 false) ++ 32 :: (boolBit (mv.triggers.getD 5 false) ++ 41 :: (10 :: (asciiBytes "      " ++ 125 :: r)))))))))) =
      .ok (125 :: r) (mv.triggers.getD 0 false, mv.triggers.getD 1 false,
        mv.triggers.getD 2 false, mv.triggers.getD 3 false, mv.triggers.getD 4 false,
        mv.triggers.getD 5 false) :=
    tagged_bool6 _ _ _ _ _ _ _ r
  have hM : pPreceded (pTag (asciiBytes "move")) (ws_wrap float3)
      (asciiBytes "move" ++ (32 :: 40 :: (fmtF64 mv.mx ++ 32 :: (fmtF64 mv.my ++ 32 :: (fmtF64 mv.mz ++ 41 :: (10 :: (asciiBytes "         " ++ (asciiBytes "triggers" ++ (32 :: 40 :: (boolBit (mv.triggers.getD 0 false) ++ 32 :: (boolBit (mv.triggers.getD 1 false) ++ 32 :: (boolBit (mv.triggers.getD 2 false) ++ 32 :: (boolBit (mv.triggers.getD 3 false) ++ 32 :: (boolBit (mv.triggers.getD 4 false) ++ 32 :: (boolBit (mv.triggers.getD 5 false) ++ 41 :: (10 :: (asciiBytes "      " ++ 125 :: r))))))))))))))))) =
      .ok (asciiBytes "triggers" ++ (32 :: 40 :: (boolBit (mv.triggers.getD 0 false) ++ 32 :: (boolBit (mv.triggers.getD 1 false) ++ 32 :: (boolBit (mv.triggers.getD 2 false) ++ 32 :: (boolBit (mv.triggers.getD 3 false) ++ 32 :: (boolBit (mv.triggers.getD 4 false) ++ 32 :: (boolBit (mv.triggers.getD 5 false) ++ 41 :: (10 :: (asciiBytes "      " ++ 125 :: r)))))))))) (mv.mx, mv.my, mv.mz) :=
    tagged_float3 (asciiBytes "move") mv.mx mv.my mv.mz hx hm hz _ (by rfl)
  have hC : pPreceded (pTag (asciiBytes "camera")) (ws_wrap float3)
      (asciiBytes "camera" ++ (32 :: 40 :: (fmtF64 (mv.yaw.getD 0) ++ 32 :: (fmtF64 (mv.pitch.getD 0) ++ 32 :: (fmtF64 (mv.roll.getD 0) ++ 41 :: (10 :: (asciiBytes "         " ++ (asciiBytes "move" ++ (32 :: 40 :: (fmtF64 mv.mx ++ 32 :: (fmtF64 mv.my ++ 32 :: (fmtF64 mv.mz ++ 41 :: (10 :: (asciiBytes "         " ++ (asciiBytes "triggers" ++ (32 :: 40 :: (boolBit (mv.triggers.getD 0 false) ++ 32 :: (boolBit (mv.triggers.getD 1 false) ++ 32 :: (boolBit (mv.triggers.getD 2 false) ++ 32 :: (boolBit (mv.triggers.getD 3 false) ++ 32 :: (boolBit (mv.triggers.getD 4 false) ++ 32 :: (boolBit (mv.triggers.getD 5 false) ++ 41 :: (10 :: (asciiBytes "      " ++ 125 :: r)))))))))))))))))))))))) =
      .ok (asciiBytes "move" ++ (32 :: 40 :: (fmtF64 mv.mx ++ 32 :: (fmtF64 mv.my ++ 32 :: (fmtF64 mv.mz ++ 41 :: (10 :: (asciiBytes "         " ++ (asciiBytes "triggers" ++ (32 :: 40 :: (boolBit (mv.triggers.getD 0 false) ++ 32 :: (boolBit (mv.triggers.getD 1 false) ++ 32 :: (boolBit (mv.triggers.getD 2 false) ++ 32 :: (boolBit (mv.triggers.getD 3 false) ++ 32 :: (boolBit (mv.triggers.getD 4 false) ++ 32 :: (boolBit (mv.triggers.getD 5 false) ++ 41 :: (10 :: (asciiBytes "      " ++ 125 :: r))))))))))))))))) (mv.yaw.getD 0, mv.pitch.getD 0, mv.roll.getD 0) :=
    tagged_float3 (asciiBytes "camera") (mv.yaw.getD 0) (mv.pitch.getD 0)
      (mv.roll.getD 0) hy hp hl _ (by rfl)
  have hchain := pThen_ok hC (pThen_ok hM hT)
  have hwrap := pPreceded_ok (optSp_none (take1_of_headD (by rfl)))
    (pTerminated_ok (pMap_ok (fun v =>
      ({ yaw := some v.1.1, pitch := some v.1.2.1, roll := some v.1.2.2,
         mx := v.2.1.1, my := v.2.1.2.1, mz := v.2.1.2.2, freelook := true,
         triggers := [v.2.2.1, v.2.2.2.1, v.2.2.2.2.1, v.2.2.2.2.2.1,
           v.2.2.2.2.2.2.1, v.2.2.2.2.2.2.2] } : Move)) hchain)
      (optSp_none (take1_cons_not_ws _ (by decide))))
  simpa [moveNorm] using hwrap

theorem pMap_fail {α β : Type} {p : Parser α} (f : α → β) {i : List Nat}
    (h : p i = .fail) : pMap p f i = .fail := by
  simp [pMap, h]

theorem pPreceded_fail2 {α β : Type} {p : Parser α} {q : Parser β} {i r : List Nat}
    {v : α} (hp : p i = .ok r v) (hq : q r = .fail) : pPreceded p q i = .fail := by
  simp [pPreceded, pMap_fail _ (pThen_fail2 hp hq)]

theorem natDigits_not_ws (n : Nat) : ∀ x ∈ natDigits n, wsChar x = false := by
  intro x hx
  have := natDigits_digits n x hx
  simp [wsChar]
  omega

theorem castF64U16_natCast {d : Nat} (hd : d < 2 ^ 16) : castF64U16 ((d : Nat) : ℚ) = d := by
  have hfl : ⌊((d : Nat) : ℚ)⌋ = (d : ℤ) := Int.floor_natCast d
  have hnn : ¬(((d : Nat) : ℚ) < 0) := not_lt.mpr (by positivity)
  simp [castF64U16, hnn, hfl]
  omega

theorem move_some_run (mv : Move) (hsafe : moveSafe mv = true) (r : List Nat) :
    move_ (123 :: 10 :: (asciiBytes "         " ++ (asciiBytes "camera" ++ (32 :: 40 :: (fmtF64 (mv.yaw.getD 0) ++ 32 :: (fmtF64 (mv.pitch.getD 0) ++ 32 :: (fmtF64 (mv.roll.getD 0) ++ 41 :: (10 :: (asciiBytes "         " ++ (asciiBytes "move" ++ (32 :: 40 :: (fmtF64 mv.mx ++ 32 :: (fmtF64 mv.my ++ 32 :: (fmtF64 mv.mz ++ 41 :: (10 :: (asciiBytes "         " ++ (asciiBytes "triggers" ++ (32 :: 40 :: (boolBit (mv.triggers.getD 0 false) ++ 32 :: (boolBit (mv.triggers.getD 1 false) ++ 32 :: (boolBit (mv.triggers.getD 2 false) ++ 32 :: (boolBit (mv.triggers.getD 3 false) ++ 32 :: (boolBit (mv.triggers.getD 4 false) ++ 32 :: (boolBit (mv.triggers.getD 5 false) ++ 41 :: (10 :: (asciiBytes "      " ++ 125 :: r)))))))))))))))))))))))))) =
      .ok r (some (moveNorm mv)) :=
  pPreceded_ok (pChar_ok 123 _)
    (pCut_ok (pTerminated_ok
      (pPreceded_ok
        (optSp_eq (w := 10 :: asciiBytes "         ") (by decide) (take1_of_headD (by rfl)))
        (pOpt_ok (move_inner_eq mv hsafe r)))
      (pChar_ok 125 r)))

theorem move_inner_fail_close (r : List Nat) : move_inner (125 :: r) = .fail := by
  have htag : pTag (asciiBytes "camera") (125 :: r) = .fail := by
    refine pTag_ne ?_
    intro h
    have h2 : asciiBytes "camera" = 99 :: asciiBytes "amera" := rfl
    rw [h2] at h
    simp [List.take_succ_cons] at h
  unfold move_inner ws_wrap pPreceded pTerminated
  apply pMap_fail
  apply pThen_fail2 (optSp_none (take1_cons_not_ws _ (by decide)))
  apply pMap_fail
  apply pThen_fail1
  apply pMap_fail
  apply pThen_fail1
  apply pMap_fail
  apply pThen_fail1
  exact htag

theorem move_none_run (r : List Nat) :
    move_ (123 :: 10 :: (asciiBytes "      " ++ 125 :: r)) = .ok r none :=
  pPreceded_ok (pChar_ok 123 _)
    (pCut_ok (pTerminated_ok
      (pPreceded_ok
        (optSp_eq (w := 10 :: asciiBytes "      ") (by decide)
          (take1_cons_not_ws _ (by decide)))
        (pOpt_fail (move_inner_fail_close r)))
      (pChar_ok 125 r)))

theorem move_print_run (om : Option Move) (hsafe : om.all moveSafe = true) (X : List Nat) :
    ∃ Y : List Nat, TasFile.print_move om ++ X = asciiBytes "      " ++ 123 :: Y ∧
      move_ (123 :: Y) = .ok (10 :: X) (om.map moveNorm) := by
  cases om with
  | none =>
    refine ⟨10 :: (asciiBytes "      " ++ 125 :: (10 :: X)), ?_, ?_⟩
    · have h1 : asciiBytes "      \x7b\n" = asciiBytes "      " ++ [123, 10] := rfl
      have h2 : asciiBytes "      \x7d\n" = asciiBytes "      " ++ [125, 10] := rfl
      simp [TasFile.print_move, h1, h2, List.append_assoc]
    · exact move_none_run (10 :: X)
  | some mv =>
    have hs : moveSafe mv = true := by simpa using hsafe
    refine ⟨10 :: (asciiBytes "         " ++
      (asciiBytes "camera" ++ (32 :: 40 :: (fmtF64 (mv.yaw.getD 0) ++ 32 :: (fmtF64 (mv.pitch.getD 0) ++ 32 :: (fmtF64 (mv.roll.getD 0) ++ 41 :: (10 :: (asciiBytes "         " ++ (asciiBytes "move" ++ (32 :: 40 :: (fmtF64 mv.mx ++ 32 :: (fmtF64 mv.my ++ 32 :: (fmtF64 mv.mz ++ 41 :: (10 :: (asciiBytes "         " ++ (asciiBytes "triggers" ++ (32 :: 40 :: (boolBit (mv.triggers.getD 0 false) ++ 32 :: (boolBit (mv.triggers.getD 1 false) ++ 32 :: (boolBit (mv.triggers.getD 2 false) ++ 32 :: (boolBit (mv.triggers.getD 3 false) ++ 32 :: (boolBit (mv.triggers.getD 4 false) ++ 32 :: (boolBit (mv.triggers.getD 5 false) ++ 41 :: (10 :: (asciiBytes "      " ++ 125 :: (10 :: X)))))))))))))))))))))))))), ?_, ?_⟩
    · have h1 : asciiBytes "      \x7b\n" = asciiBytes "      " ++ [123, 10] := rfl
      have h2 : asciiBytes "      \x7d\n" = asciiBytes "      " ++ [125, 10] := rfl
      have h3 : asciiBytes "         camera (" =
        asciiBytes "         " ++ (asciiBytes "camera" ++ [32, 40]) := rfl
      have h4 : asciiBytes "         move (" =
        asciiBytes "         " ++ (asciiBytes "move" ++ [32, 40]) := rfl
      have h5 : asciiBytes "         triggers (" =
        asciiBytes "         " ++ (asciiBytes "triggers" ++ [32, 40]) := rfl
      have h6 : asciiBytes ")\n" = [41, 10] := rfl
      simp [TasFile.print_move, h1, h2, h3, h4, h5, h6, List.append_assoc]
    · exact move_some_run mv hs (10 :: X)

theorem take_app_le : ∀ (n : Nat) (u v : List Nat), n ≤ u.length →
    (u ++ v).take n = u.take n
  | 0, _, _, _ => by simp
  | n + 1, [], _, h => by simp at h
  | n + 1, x :: xs, v, h => by
    simp only [List.cons_append, List.take_succ_cons]
    rw [take_app_le n xs v (by simpa using h)]

theorem pTag_app_ne {t u : List Nat} (v : List Nat) (hlen : t.length ≤ u.length)
    (hne : u.take t.length ≠ t) : pTag t (u ++ v) = .fail := by
  refine pTag_ne ?_
  rw [take_app_le _ _ _ hlen]
  exact hne

theorem castF64Usize_natCast {c : Nat} (hc : c < 2 ^ 64) :
    castF64Usize ((c : Nat) : ℚ) = c := by
  have hfl : ⌊((c : Nat) : ℚ)⌋ = (c : ℤ) := Int.floor_natCast c
  have hnn : ¬(((c : Nat) : ℚ) < 0) := not_lt.mpr (by positivity)
  simp [castF64Usize, hnn, hfl]
  omega

theorem frameSafe_fields {f : Frame} (h : frameSafe f = true) :
    f.delta < 2 ^ 16 ∧ f.m0.all moveSafe = true ∧ f.m1.all moveSafe = true := by
  simp [frameSafe] at h
  tauto

theorem frame_moveframe_eq (f : Frame) (hsafe : frameSafe f = true) (R : List Nat) :
    frameRule (asciiBytes "moveframe " ++ (natDigits f.delta ++ (32 ::
      (asciiBytes "ms" ++ (32 :: (10 :: (TasFile.print_move f.m0 ++
        (TasFile.print_move f.m1 ++ R)))))))) = .ok (10 :: R) [frameNorm f] := by
  obtain ⟨hd, hs0, hs1⟩ := frameSafe_fields hsafe
  obtain ⟨Y0, hd0, hr0⟩ := move_print_run f.m0 hs0 (TasFile.print_move f.m1 ++ R)
  obtain ⟨Y1, hd1, hr1⟩ := move_print_run f.m1 hs1 R
  rw [hd0]
  have hA : pTerminated double (pPreceded sp (pTag (asciiBytes "ms")))
      (natDigits f.delta ++ (32 :: (asciiBytes "ms" ++ (32 :: (10 ::
        (asciiBytes "      " ++ 123 :: Y0)))))) =
      .ok (32 :: (10 :: (asciiBytes "      " ++ 123 :: Y0))) ((f.delta : Nat) : ℚ) :=
    pTerminated_ok (double_natDigits f.delta _ (numStop_cons32 _))
      (pPreceded_ok (sp_eq (w := [32]) (by decide) (take1_of_headD (by rfl)))
        (pTag_ok (asciiBytes "ms") _))
  have hsep1 : sp (32 :: (10 :: (asciiBytes "      " ++ 123 :: Y0))) =
      .ok (123 :: Y0) (32 :: 10 :: asciiBytes "      ") :=
    sp_eq (w := 32 :: 10 :: asciiBytes "      ") (by decide)
      (take1_cons_not_ws _ (by decide))
  have hm0 : move_ (123 :: Y0) = .ok (10 :: (TasFile.print_move f.m1 ++ R))
      (f.m0.map moveNorm) := hr0
  rw [hd1] at hm0
  have hsep2 : sp (10 :: (asciiBytes "      " ++ 123 :: Y1)) =
      .ok (123 :: Y1) (10 :: asciiBytes "      ") :=
    sp_eq (w := 10 :: asciiBytes "      ") (by decide) (take1_cons_not_ws _ (by decide))
  have hpair2 : pSeparatedPair move_ sp move_ (123 :: Y0) =
      .ok (10 :: R) (f.m0.map moveNorm, f.m1.map moveNorm) :=
    pMap_ok _ (pThen_ok hm0 (pThen_ok hsep2 hr1))
  have hpair : pSeparatedPair (pTerminated double (pPreceded sp (pTag (asciiBytes "ms"))))
      sp (pSeparatedPair move_ sp move_)
      (natDigits f.delta ++ (32 :: (asciiBytes "ms" ++ (32 :: (10 ::
        (asciiBytes "      " ++ 123 :: Y0)))))) =
      .ok (10 :: R) (((f.delta : Nat) : ℚ), (f.m0.map moveNorm, f.m1.map moveNorm)) :=
    pMap_ok _ (pThen_ok hA (pThen_ok hsep1 hpair2))
  have hmf : move_frame (32 :: (natDigits f.delta ++ (32 :: (asciiBytes "ms" ++ (32 ::
      (10 :: (asciiBytes "      " ++ 123 :: Y0))))))) = .ok (10 :: R) [frameNorm f] := by
    have := pPreceded_ok
      (optSp_eq (w := [32]) (by decide)
        (take1_not_ws_app _ (natDigits_not_ws _) (natDigits_ne_nil _)))
      (pMap_ok (fun v => ([{ m0 := v.2.1, m1 := v.2.2, delta := castF64U16 v.1 }] :
        List Frame)) hpair)
    simpa [frameNorm, castF64U16_natCast hd] using this
  have hfail1 : pTag (asciiBytes "frames") (asciiBytes "moveframe " ++
      (natDigits f.delta ++ (32 :: (asciiBytes "ms" ++ (32 :: (10 ::
        (asciiBytes "      " ++ 123 :: Y0))))))) = .fail :=
    pTag_app_ne _ (by decide) (by decide)
  have hfail2 : pTag (asciiBytes "frame") (asciiBytes "moveframe " ++
      (natDigits f.delta ++ (32 :: (asciiBytes "ms" ++ (32 :: (10 ::
        (asciiBytes "      " ++ 123 :: Y0))))))) = .fail :=
    pTag_app_ne _ (by decide) (by decide)
  simp only [frameRule, pAlt3]
  rw [pAlt2_fail1 (pPreceded_fail1 _ hfail1), pAlt2_fail1 (pPreceded_fail1 _ hfail2)]
  exact pPreceded_ok (pTag_ok (asciiBytes "moveframe") _) (pCut_ok hmf)

theorem frame_single_eq (d : Nat) (hd : d < 2 ^ 16) (R : List Nat) :
    frameRule (asciiBytes "frame " ++ (natDigits d ++ (32 :: (asciiBytes "ms" ++
      (32 :: R))))) = .ok (32 :: R) [{ m0 := none, m1 := none, delta := d }] := by
  have hef : empty_frame (32 :: (natDigits d ++ (32 :: (asciiBytes "ms" ++ (32 :: R))))) =
      .ok (32 :: R) [{ m0 := none, m1 := none, delta := d }] := by
    have hA : pTerminated double (pPreceded sp (pTag (asciiBytes "ms")))
        (natDigits d ++ (32 :: (asciiBytes "ms" ++ (32 :: R)))) =
        .ok (32 :: R) ((d : Nat) : ℚ) :=
      pTerminated_ok (double_natDigits d _ (numStop_cons32 _))
        (pPreceded_ok (sp_eq (w := [32]) (by decide) (take1_of_headD (by rfl)))
          (pTag_ok (asciiBytes "ms") _))
    have := pPreceded_ok
      (optSp_eq (w := [32]) (by decide)
        (take1_not_ws_app _ (natDigits_not_ws _) (natDigits_ne_nil _)))
      (pMap_ok (fun ms => ([{ m0 := none, m1 := none, delta := castF64U16 ms }] :
        List Frame)) hA)
    simpa [castF64U16_natCast hd] using this
  have hfail1 : pTag (asciiBytes "frames") (asciiBytes "frame " ++ (natDigits d ++
      (32 :: (asciiBytes "ms" ++ (32 :: R))))) = .fail :=
    pTag_app_ne _ (by decide) (by decide)
  simp only [frameRule, pAlt3]
  rw [pAlt2_fail1 (pPreceded_fail1 _ hfail1)]
  refine pAlt2_ok1 _ ?_
  exact pPreceded_ok (pTag_ok (asciiBytes "frame") _) (pCut_ok hef)

theorem frame_run_eq (c d : Nat) (hc : c < 2 ^ 64) (hd : d < 2 ^ 16) (R : List Nat) :
    frameRule (asciiBytes "frames " ++ (natDigits c ++ (32 :: (natDigits d ++
      (32 :: (asciiBytes "ms" ++ R)))))) =
      .ok R (List.replicate c { m0 := none, m1 := none, delta := d }) := by
  have hin : pDelimited sp double (pPreceded sp (pTag (asciiBytes "ms")))
      (32 :: (natDigits d ++ (32 :: (asciiBytes "ms" ++ R)))) = .ok R ((d : Nat) : ℚ) :=
    pPreceded_ok (sp_eq (w := [32]) (by decide)
        (take1_not_ws_app _ (natDigits_not_ws _) (natDigits_ne_nil _)))
      (pTerminated_ok (double_natDigits d _ (numStop_cons32 _))
        (pPreceded_ok (sp_eq (w := [32]) (by decide) (take1_of_headD (by rfl)))
          (pTag_ok (asciiBytes "ms") _)))
  have hef : empty_frames (32 :: (natDigits c ++ (32 :: (natDigits d ++ (32 ::
      (asciiBytes "ms" ++ R)))))) =
      .ok R (List.replicate c { m0 := none, m1 := none, delta := d }) := by
    have := pPreceded_ok
      (optSp_eq (w := [32]) (by decide)
        (take1_not_ws_app _ (natDigits_not_ws _) (natDigits_ne_nil _)))
      (pMap_ok (fun nm => (List.replicate (castF64Usize nm.1)
          ({ m0 := none, m1 := none, delta := (nm.2.map castF64U16).getD 1 } : Frame)))
        (pThen_ok (double_natDigits c _ (numStop_cons32 _)) (pOpt_ok hin)))
    simpa [castF64Usize_natCast hc, castF64U16_natCast hd] using this
  simp only [frameRule, pAlt3]
  refine pAlt2_ok1 _ ?_
  exact pPreceded_ok (pTag_ok (asciiBytes "frames") _) (pCut_ok hef)

/-- One-step unfolding of the `separated_list` loop. -/
theorem sepListGo_step {σ α : Type} (sep : Parser σ) (p : Parser α) (fuel : Nat)
    (i : List Nat) :
    sepListGo sep p (fuel + 1) i =
      match sep i with
      | .fail => .ok i []
      | .abort => .abort
      | .ok i1 _ =>
        if i.length ≤ i1.length then .fail
        else
          match p i1 with
          | .fail => .ok i []
          | .abort => .abort
          | .ok i2 v =>
            if i.length ≤ i2.length then .fail
            else
              match sepListGo sep p fuel i2 with
              | .ok i3 vs => .ok i3 (v :: vs)
              | .fail => .fail
              | .abort => .abort := rfl

theorem frameRule_fail_head {b : Nat} (r : List Nat) (hb : b ≠ 102 ∧ b ≠ 109) :
    frameRule (b :: r) = .fail := by
  have hf : ∀ t : List Nat, t.headD 0 ≠ b → t ≠ [] → pTag t (b :: r) = .fail := by
    intro t ht htne
    refine pTag_ne ?_
    intro h
    cases t with
    | nil => exact htne rfl
    | cons c cs =>
      simp only [List.length_cons, List.take_succ_cons] at h
      have hbc : b = c := by
        have := congrArg (fun l : List Nat => l.headD 0) h
        simpa using this
      simp at ht
      omega
  simp only [frameRule, pAlt3]
  rw [pAlt2_fail1 (pPreceded_fail1 _ (hf _ (by simpa using hb.1.symm) (by decide))),
    pAlt2_fail1 (pPreceded_fail1 _ (hf _ (by simpa using hb.1.symm) (by decide)))]
  exact pPreceded_fail1 _ (hf _ (by simpa using hb.2.symm) (by decide))

theorem has_move_false {f : Frame} (h : f.has_move = false) :
    f = { m0 := none, m1 := none, delta := f.delta } := by
  simp [Frame.has_move] at h
  obtain ⟨h0, h1⟩ := h
  cases f with
  | mk m0 m1 d =>
    simp at h0 h1 ⊢
    constructor
    · cases m0 with
      | none => rfl
      | some mv => simp at h0
    · cases m1 with
      | none => rfl
      | some mv => simp at h1

theorem countRun_le (d : Nat) : ∀ rest : List Frame, countRun d rest ≤ rest.length
  | [] => by simp [countRun]
  | f :: rest => by
    simp only [countRun]
    split
    · simp
    · have := countRun_le d rest
      simp
      omega

theorem countRun_take (d : Nat) : ∀ rest : List Frame,
    rest.take (countRun d rest) =
      List.replicate (countRun d rest) { m0 := none, m1 := none, delta := d }
  | [] => by simp [countRun]
  | f :: rest => by
    simp only [countRun]
    split
    · simp
    · rename_i hcond
      push_neg at hcond
      have hm : f.has_move = false := by
        have := hcond.1
        simpa using this
      have hd : f.delta = d := hcond.2
      have ih := countRun_take d rest
      rw [Nat.add_comm 1 (countRun d rest)]
      simp only [List.take_succ_cons, List.replicate_succ, ih]
      congr 1
      rw [has_move_false hm, hd]

theorem len_sp3 : (asciiBytes "   ").length = 3 := rfl

theorem len_sp6 : (asciiBytes "      ").length = 6 := rfl

theorem len_mf : (asciiBytes "moveframe ").length = 10 := rfl

theorem len_frs : (asciiBytes "frames ").length = 7 := rfl

theorem len_fr : (asciiBytes "frame ").length = 6 := rfl

theorem len_ms2 : (asciiBytes "ms").length = 2 := rfl

theorem len_cmf : (asciiBytes "      moveframe ").length = 16 := rfl

theorem len_cfrs : (asciiBytes "      frames ").length = 13 := rfl

theorem len_cfr : (asciiBytes "      frame ").length = 12 := rfl

theorem len_msp : (asciiBytes " ms ").length = 4 := rfl

theorem frameNorm_nomove (d : Nat) :
    frameNorm { m0 := none, m1 := none, delta := d } =
      { m0 := none, m1 := none, delta := d } := rfl

theorem frames_nil (fuelP fuelL : Nat) (w r : List Nat)
    (hfp : 0 < fuelP) (hfl : 0 < fuelL)
    (hwne : w ≠ []) (hwws : ∀ x ∈ w, wsChar x = true) :
    ∃ (u : List Nat) (gs : List (List Frame)),
      sepListGo sp frameRule fuelL
        (w ++ (cleanFrames fuelP ([] : List Frame) ++ (asciiBytes "   " ++ 125 :: r))) =
        .ok (u ++ (asciiBytes "   " ++ 125 :: r)) gs ∧
      u ≠ [] ∧ (∀ x ∈ u, wsChar x = true) ∧
      gs.flatten = ([] : List Frame).map frameNorm := by
  obtain ⟨fp, rfl⟩ : ∃ fp, fuelP = fp + 1 := ⟨fuelP - 1, by omega⟩
  obtain ⟨fl, rfl⟩ : ∃ fl, fuelL = fl + 1 := ⟨fuelL - 1, by omega⟩
  refine ⟨w, [], ?_, hwne, hwws, by simp⟩
  rw [sepListGo_step]
  have hid : w ++ (cleanFrames (fp + 1) [] ++ (asciiBytes "   " ++ 125 :: r)) =
      (w ++ asciiBytes "   ") ++ 125 :: r := by
    show w ++ (([] : List Nat) ++ (asciiBytes "   " ++ 125 :: r)) = _
    simp [List.append_assoc]
  rw [hid]
  have hsep : sp ((w ++ asciiBytes "   ") ++ 125 :: r) =
      .ok (125 :: r) (w ++ asciiBytes "   ") :=
    sp_eq (all_app hwws (by decide)) (take1_cons_not_ws _ (by decide))
  simp only [hsep]
  have hguard : ¬(((w ++ asciiBytes "   ") ++ 125 :: r).length ≤ (125 :: r).length) := by
    simp [List.length_append, List.length_cons, len_sp3]
    omega
  rw [if_neg hguard]
  simp only [frameRule_fail_head (b := 125) r (by omega)]
  rw [List.append_assoc]

theorem frames_loop : ∀ (n : Nat) (fs : List Frame) (fuelP fuelL : Nat) (w r : List Nat),
    fs.length ≤ n → fs.length < fuelP → fs.all frameSafe = true → fs.length < 2 ^ 53 →
    w ≠ [] → (∀ x ∈ w, wsChar x = true) →
    (w ++ (cleanFrames fuelP fs ++ (asciiBytes "   " ++ 125 :: r))).length < fuelL →
    ∃ (u : List Nat) (gs : List (List Frame)),
      sepListGo sp frameRule fuelL
        (w ++ (cleanFrames fuelP fs ++ (asciiBytes "   " ++ 125 :: r))) =
        .ok (u ++ (asciiBytes "   " ++ 125 :: r)) gs ∧
      u ≠ [] ∧ (∀ x ∈ u, wsChar x = true) ∧ gs.flatten = fs.map frameNorm := by
  intro n
  induction n with
  | zero =>
    intro fs fuelP fuelL w r hn hfp hsafe h53 hwne hwws hlen
    have hfs : fs = [] := List.length_eq_zero.mp (by omega)
    subst hfs
    exact frames_nil fuelP fuelL w r (by omega) (by omega) hwne hwws
  | succ n ih =>
    intro fs fuelP fuelL w r hn hfp hsafe h53 hwne hwws hlen
    cases fs with
    | nil =>
      exact frames_nil fuelP fuelL w r (by omega) (by omega) hwne hwws
    | cons f rest =>
      obtain ⟨fp, rfl⟩ : ∃ fp, fuelP = fp + 1 := ⟨fuelP - 1, by omega⟩
      obtain ⟨fl, rfl⟩ : ∃ fl, fuelL = fl + 1 := ⟨fuelL - 1, by omega⟩
      have hfsafe : frameSafe f = true := by
        have := List.all_eq_true.mp hsafe f (by simp)
        simpa using this
      have hrsafe : rest.all frameSafe = true := by
        rw [List.all_eq_true] at hsafe ⊢
        intro g hg
        exact hsafe g (by simp [hg])
      obtain ⟨hdlt, hs0, hs1⟩ := frameSafe_fields hfsafe
      by_cases hm : f.has_move
      · -- moveframe group
        have hclean : cleanFrames (fp + 1) (f :: rest) =
            asciiBytes "      moveframe " ++ natDigits f.delta ++ asciiBytes " ms " ++
              [10] ++ TasFile.print_move f.m0 ++ TasFile.print_move f.m1 ++
              cleanFrames fp rest := by
          simp [cleanFrames, hm]
        have hid : w ++ (cleanFrames (fp + 1) (f :: rest) ++ (asciiBytes "   " ++ 125 :: r)) =
            (w ++ asciiBytes "      ") ++ (asciiBytes "moveframe " ++ (natDigits f.delta ++
              (32 :: (asciiBytes "ms" ++ (32 :: (10 :: (TasFile.print_move f.m0 ++
                (TasFile.print_move f.m1 ++ (cleanFrames fp rest ++
                  (asciiBytes "   " ++ 125 :: r)))))))))) := by
          rw [hclean]
          have h1 : asciiBytes "      moveframe " =
            asciiBytes "      " ++ asciiBytes "moveframe " := rfl
          have h2 : asciiBytes " ms " = 32 :: (asciiBytes "ms" ++ [32]) := rfl
          simp [h1, h2, List.append_assoc]
        rw [hclean] at hlen
        rw [hid, sepListGo_step]
        have hsep : sp ((w ++ asciiBytes "      ") ++ (asciiBytes "moveframe " ++
            (natDigits f.delta ++ (32 :: (asciiBytes "ms" ++ (32 :: (10 ::
              (TasFile.print_move f.m0 ++ (TasFile.print_move f.m1 ++
                (cleanFrames fp rest ++ (asciiBytes "   " ++ 125 :: r))))))))))) =
            .ok (asciiBytes "moveframe " ++ (natDigits f.delta ++ (32 ::
              (asciiBytes "ms" ++ (32 :: (10 :: (TasFile.print_move f.m0 ++
                (TasFile.print_move f.m1 ++ (cleanFrames fp rest ++
                  (asciiBytes "   " ++ 125 :: r))))))))))
              (w ++ asciiBytes "      ") :=
          sp_eq (all_app hwws (by decide)) (take1_of_headD (by rfl))
        simp only [hsep]
        rw [if_neg (by simp [List.length_append, List.length_cons, len_sp3, len_sp6, len_mf, len_frs, len_fr, len_ms2, len_cmf, len_cfrs, len_cfr, len_msp]; omega)]
        have hgroup := frame_moveframe_eq f hfsafe
          (cleanFrames fp rest ++ (asciiBytes "   " ++ 125 :: r))
        simp only [hgroup]
        rw [if_neg (by simp [List.length_append, List.length_cons, len_sp3, len_sp6, len_mf, len_frs, len_fr, len_ms2, len_cmf, len_cfrs, len_cfr, len_msp]; omega)]
        obtain ⟨u, gs, hres, hune, huws, hflat⟩ := ih rest fp fl [10] r
          (by simpa using hn) (by simpa using hfp) hrsafe
          (by simp at h53 ⊢; omega) (by simp) (by decide)
          (by simp [List.length_append, List.length_cons, len_sp3, len_sp6, len_mf, len_frs, len_fr, len_ms2, len_cmf, len_cfrs, len_cfr, len_msp] at hlen ⊢; omega)
        have hres' : sepListGo sp frameRule fl (10 :: (cleanFrames fp rest ++
            (asciiBytes "   " ++ 125 :: r))) =
            .ok (u ++ (asciiBytes "   " ++ 125 :: r)) gs := hres
        simp only [hres']
        refine ⟨u, [frameNorm f] :: gs, rfl, hune, huws, ?_⟩
        simp [hflat]
      · by_cases hcomb : 1 < 1 + countRun f.delta rest
        · -- collapsed frames group
          have hc64 : 1 + countRun f.delta rest < 2 ^ 64 := by
            have := countRun_le f.delta rest
            simp at h53
            have h2 : (2 : Nat) ^ 53 < 2 ^ 64 := by norm_num
            omega
          have hclean : cleanFrames (fp + 1) (f :: rest) =
              asciiBytes "      frames " ++ natDigits (1 + countRun f.delta rest) ++
                [32] ++ natDigits f.delta ++ asciiBytes " ms " ++ [10] ++
                cleanFrames fp (rest.drop (1 + countRun f.delta rest - 1)) := by
            simp [cleanFrames, hm, hcomb]
          have hid : w ++ (cleanFrames (fp + 1) (f :: rest) ++
              (asciiBytes "   " ++ 125 :: r)) =
              (w ++ asciiBytes "      ") ++ (asciiBytes "frames " ++
                (natDigits (1 + countRun f.delta rest) ++ (32 :: (natDigits f.delta ++
                  (32 :: (asciiBytes "ms" ++ (32 :: (10 ::
                    (cleanFrames fp (rest.drop (1 + countRun f.delta rest - 1)) ++
                      (asciiBytes "   " ++ 125 :: r)))))))))) := by
            rw [hclean]
            have h1 : asciiBytes "      frames " =
              asciiBytes "      " ++ asciiBytes "frames " := rfl
            have h2 : asciiBytes " ms " = 32 :: (asciiBytes "ms" ++ [32]) := rfl
            simp [h1, h2, List.append_assoc]
          rw [hclean] at hlen
          rw [hid, sepListGo_step]
          have hsep : sp ((w ++ asciiBytes "      ") ++ (asciiBytes "frames " ++
              (natDigits (1 + countRun f.delta rest) ++ (32 :: (natDigits f.delta ++
                (32 :: (asciiBytes "ms" ++ (32 :: (10 ::
                  (cleanFrames fp (rest.drop (1 + countRun f.delta rest - 1)) ++
                    (asciiBytes "   " ++ 125 :: r))))))))))) =
              .ok (asciiBytes "frames " ++
                (natDigits (1 + countRun f.delta rest) ++ (32 :: (natDigits f.delta ++
                  (32 :: (asciiBytes "ms" ++ (32 :: (10 ::
                    (cleanFrames fp (rest.drop (1 + countRun f.delta rest - 1)) ++
                      (asciiBytes "   " ++ 125 :: r))))))))))
                (w ++ asciiBytes "      ") :=
            sp_eq (all_app hwws (by decide)) (take1_of_headD (by rfl))
          simp only [hsep]
          rw [if_neg (by simp [List.length_append, List.length_cons, len_sp3, len_sp6, len_mf, len_frs, len_fr, len_ms2, len_cmf, len_cfrs, len_cfr, len_msp]; omega)]
          have hgroup := frame_run_eq (1 + countRun f.delta rest) f.delta hc64 hdlt
            (32 :: (10 :: (cleanFrames fp (rest.drop (1 + countRun f.delta rest - 1)) ++
              (asciiBytes "   " ++ 125 :: r))))
          simp only [hgroup]
          rw [if_neg (by simp [List.length_append, List.length_cons, len_sp3, len_sp6, len_mf, len_frs, len_fr, len_ms2, len_cmf, len_cfrs, len_cfr, len_msp]; omega)]
          obtain ⟨u, gs, hres, hune, huws, hflat⟩ := ih
            (rest.drop (1 + countRun f.delta rest - 1)) fp fl [32, 10] r
            (by simp at hn ⊢; omega) (by simp at hfp ⊢; omega)
            (by rw [List.all_eq_true] at hrsafe ⊢
                intro g hg
                exact hrsafe g (List.mem_of_mem_drop hg))
            (by simp at h53 ⊢; omega) (by simp) (by decide)
            (by simp [List.length_append, List.length_cons, len_sp3, len_sp6, len_mf, len_frs, len_fr, len_ms2, len_cmf, len_cfrs, len_cfr, len_msp] at hlen ⊢; omega)
          have hres' : sepListGo sp frameRule fl (32 :: (10 :: (cleanFrames fp
              (rest.drop (1 + countRun f.delta rest - 1)) ++
              (asciiBytes "   " ++ 125 :: r)))) =
              .ok (u ++ (asciiBytes "   " ++ 125 :: r)) gs := hres
          simp only [hres']
          refine ⟨u, List.replicate (1 + countRun f.delta rest)
            { m0 := none, m1 := none, delta := f.delta } :: gs, rfl, hune, huws, ?_⟩
          have htake := countRun_take f.delta rest
          have h0 : f.m0 = none ∧ f.m1 = none := by
            simp [Frame.has_move] at hm
            exact hm
          have hnf : frameNorm f = { m0 := none, m1 := none, delta := f.delta } := by
            simp [frameNorm, h0.1, h0.2]
          have harith : 1 + countRun f.delta rest - 1 = countRun f.delta rest := by
            omega
          rw [harith] at hflat
          simp only [List.flatten_cons, hflat, List.map_cons]
          conv_rhs => rw [← List.take_append_drop (countRun f.delta rest) rest]
          rw [List.map_append, htake, List.map_replicate, frameNorm_nomove, hnf,
            Nat.add_comm 1 (countRun f.delta rest), List.replicate_succ]
          simp
        · -- single frame line
          have hclean : cleanFrames (fp + 1) (f :: rest) =
              asciiBytes "      frame " ++ natDigits f.delta ++ asciiBytes " ms " ++
                [10] ++ cleanFrames fp rest := by
            simp [cleanFrames, hm, hcomb]
          have hid : w ++ (cleanFrames (fp + 1) (f :: rest) ++
              (asciiBytes "   " ++ 125 :: r)) =
              (w ++ asciiBytes "      ") ++ (asciiBytes "frame " ++ (natDigits f.delta ++
                (32 :: (asciiBytes "ms" ++ (32 :: (10 :: (cleanFrames fp rest ++
                  (asciiBytes "   " ++ 125 :: r)))))))) := by
            rw [hclean]
            have h1 : asciiBytes "      frame " =
              asciiBytes "      " ++ asciiBytes "frame " := rfl
            have h2 : asciiBytes " ms " = 32 :: (asciiBytes "ms" ++ [32]) := rfl
            simp [h1, h2, List.append_assoc]
          rw [hclean] at hlen
          rw [hid, sepListGo_step]
          have hsep : sp ((w ++ asciiBytes "      ") ++ (asciiBytes "frame " ++
              (natDigits f.delta ++ (32 :: (asciiBytes "ms" ++ (32 :: (10 ::
                (cleanFrames fp rest ++ (asciiBytes "   " ++ 125 :: r))))))))) =
              .ok (asciiBytes "frame " ++ (natDigits f.delta ++ (32 ::
                (asciiBytes "ms" ++ (32 :: (10 :: (cleanFrames fp rest ++
                  (asciiBytes "   " ++ 125 :: r))))))))
                (w ++ asciiBytes "      ") :=
            sp_eq (all_app hwws (by decide)) (take1_of_headD (by rfl))
          simp only [hsep]
          rw [if_neg (by simp [List.length_append, List.length_cons, len_sp3, len_sp6, len_mf, len_frs, len_fr, len_ms2, len_cmf, len_cfrs, len_cfr, len_msp]; omega)]
          have hgroup := frame_single_eq f.delta hdlt
            (10 :: (cleanFrames fp rest ++ (asciiBytes "   " ++ 125 :: r)))
          simp only [hgroup]
          rw [if_neg (by simp [List.length_append, List.length_cons, len_sp3, len_sp6, len_mf, len_frs, len_fr, len_ms2, len_cmf, len_cfrs, len_cfr, len_msp]; omega)]
          obtain ⟨u, gs, hres, hune, huws, hflat⟩ := ih rest fp fl [32, 10] r
            (by simpa using hn) (by simpa using hfp) hrsafe
            (by simp at h53 ⊢; omega) (by simp) (by decide)
            (by simp [List.length_append, List.length_cons, len_sp3, len_sp6, len_mf, len_frs, len_fr, len_ms2, len_cmf, len_cfrs, len_cfr, len_msp] at hlen ⊢; omega)
          have hres' : sepListGo sp frameRule fl (32 :: (10 :: (cleanFrames fp rest ++
              (asciiBytes "   " ++ 125 :: r)))) =
              .ok (u ++ (asciiBytes "   " ++ 125 :: r)) gs := hres
          simp only [hres']
          have hf : f = { m0 := none, m1 := none, delta := f.delta } :=
            has_move_false (by simpa using hm)
          refine ⟨u, [{ m0 := none, m1 := none, delta := f.delta }] :: gs, rfl,
            hune, huws, ?_⟩
          simp only [List.flatten_cons, hflat, List.map_cons]
          rw [← frameNorm_nomove f.delta, ← hf]
          simp

theorem frames_entry (f : Frame) (rest : List Frame) (fp : Nat) (r : List Nat)
    (hsafe : (f :: rest).all frameSafe = true)
    (h53 : (f :: rest).length < 2 ^ 53)
    (hfp : (f :: rest).length < fp + 1) :
    ∃ (K u : List Nat) (gs : List (List Frame)),
      cleanFrames (fp + 1) (f :: rest) ++ (asciiBytes "   " ++ 125 :: r) =
        asciiBytes "      " ++ K ∧
      wsChar (K.headD 0) = false ∧
      separated_list sp frameRule K = .ok (u ++ (asciiBytes "   " ++ 125 :: r)) gs ∧
      u ≠ [] ∧ (∀ x ∈ u, wsChar x = true) ∧
      gs.flatten = (f :: rest).map frameNorm := by
  have hfsafe : frameSafe f = true := by
    have := List.all_eq_true.mp hsafe f (by simp)
    simpa using this
  have hrsafe : rest.all frameSafe = true := by
    rw [List.all_eq_true] at hsafe ⊢
    intro g hg
    exact hsafe g (by simp [hg])
  obtain ⟨hdlt, hs0, hs1⟩ := frameSafe_fields hfsafe
  by_cases hm : f.has_move
  · -- moveframe group
    have hclean : cleanFrames (fp + 1) (f :: rest) =
        asciiBytes "      moveframe " ++ natDigits f.delta ++ asciiBytes " ms " ++
          [10] ++ TasFile.print_move f.m0 ++ TasFile.print_move f.m1 ++
          cleanFrames fp rest := by
      simp [cleanFrames, hm]
    have hid : cleanFrames (fp + 1) (f :: rest) ++ (asciiBytes "   " ++ 125 :: r) =
        asciiBytes "      " ++ (asciiBytes "moveframe " ++
          (natDigits f.delta ++ (32 :: (asciiBytes "ms" ++ (32 :: (10 ::
            (TasFile.print_move f.m0 ++ (TasFile.print_move f.m1 ++
              (cleanFrames fp rest ++ (asciiBytes "   " ++ 125 :: r)))))))))) := by
      rw [hclean]
      have h1 : asciiBytes "      moveframe " =
        asciiBytes "      " ++ asciiBytes "moveframe " := rfl
      have h2 : asciiBytes " ms " = 32 :: (asciiBytes "ms" ++ [32]) := rfl
      simp [h1, h2, List.append_assoc]
    have hgroup := frame_moveframe_eq f hfsafe
      (cleanFrames fp rest ++ (asciiBytes "   " ++ 125 :: r))
    obtain ⟨u, gs, hres, hune, huws, hflat⟩ := frames_loop rest.length rest fp
      ((10 :: (cleanFrames fp rest ++ (asciiBytes "   " ++ 125 :: r))).length + 1)
      [10] r (by simp) (by simpa using hfp) hrsafe
      (by simp at h53 ⊢; omega) (by simp) (by decide)
      (by simp [List.length_append, List.length_cons, len_sp3, len_sp6, len_mf, len_frs, len_fr, len_ms2, len_cmf, len_cfrs, len_cfr, len_msp])
    have hres' : sepListGo sp frameRule
        ((10 :: (cleanFrames fp rest ++ (asciiBytes "   " ++ 125 :: r))).length + 1)
        (10 :: (cleanFrames fp rest ++ (asciiBytes "   " ++ 125 :: r))) =
        .ok (u ++ (asciiBytes "   " ++ 125 :: r)) gs := hres
    refine ⟨_, u, [frameNorm f] :: gs, hid, by rfl, ?_, hune, huws, by simp [hflat]⟩
    simp only [separated_list]
    simp only [hgroup]
    rw [if_neg (by simp [List.length_append, List.length_cons, len_sp3, len_sp6, len_mf, len_frs, len_fr, len_ms2, len_cmf, len_cfrs, len_cfr, len_msp]; omega)]
    simp only [hres']
  · by_cases hcomb : 1 < 1 + countRun f.delta rest
    · -- collapsed frames group
      have hc64 : 1 + countRun f.delta rest < 2 ^ 64 := by
        have := countRun_le f.delta rest
        simp at h53
        have h2 : (2 : Nat) ^ 53 < 2 ^ 64 := by norm_num
        omega
      have hclean : cleanFrames (fp + 1) (f :: rest) =
          asciiBytes "      frames " ++ natDigits (1 + countRun f.delta rest) ++
            [32] ++ natDigits f.delta ++ asciiBytes " ms " ++ [10] ++
            cleanFrames fp (rest.drop (1 + countRun f.delta rest - 1)) := by
        simp [cleanFrames, hm, hcomb]
      have hid : cleanFrames (fp + 1) (f :: rest) ++ (asciiBytes "   " ++ 125 :: r) =
          asciiBytes "      " ++ (asciiBytes "frames " ++
            (natDigits (1 + countRun f.delta rest) ++ (32 :: (natDigits f.delta ++
              (32 :: (asciiBytes "ms" ++ (32 :: (10 ::
                (cleanFrames fp (rest.drop (1 + countRun f.delta rest - 1)) ++
                  (asciiBytes "   " ++ 125 :: r)))))))))) := by
        rw [hclean]
        have h1 : asciiBytes "      frames " =
          asciiBytes "      " ++ asciiBytes "frames " := rfl
        have h2 : asciiBytes " ms " = 32 :: (asciiBytes "ms" ++ [32]) := rfl
        simp [h1, h2, List.append_assoc]
      have hgroup := frame_run_eq (1 + countRun f.delta rest) f.delta hc64 hdlt
        (32 :: (10 :: (cleanFrames fp (rest.drop (1 + countRun f.delta rest - 1)) ++
          (asciiBytes "   " ++ 125 :: r))))
      obtain ⟨u, gs, hres, hune, huws, hflat⟩ := frames_loop rest.length
        (rest.drop (1 + countRun f.delta rest - 1)) fp
        ((32 :: (10 :: (cleanFrames fp (rest.drop (1 + countRun f.delta rest - 1)) ++
          (asciiBytes "   " ++ 125 :: r)))).length + 1)
        [32, 10] r (by simp) (by simp at hfp ⊢; omega)
        (by rw [List.all_eq_true] at hrsafe ⊢
            intro g hg
            exact hrsafe g (List.mem_of_mem_drop hg))
        (by simp at h53 ⊢; omega) (by simp) (by decide)
        (by simp [List.length_append, List.length_cons, len_sp3, len_sp6, len_mf, len_frs, len_fr, len_ms2, len_cmf, len_cfrs, len_cfr, len_msp])
      have hres' : sepListGo sp frameRule
          ((32 :: (10 :: (cleanFrames fp (rest.drop (1 + countRun f.delta rest - 1)) ++
            (asciiBytes "   " ++ 125 :: r)))).length + 1)
          (32 :: (10 :: (cleanFrames fp (rest.drop (1 + countRun f.delta rest - 1)) ++
            (asciiBytes "   " ++ 125 :: r)))) =
          .ok (u ++ (asciiBytes "   " ++ 125 :: r)) gs := hres
      refine ⟨_, u, List.replicate (1 + countRun f.delta rest)
        { m0 := none, m1 := none, delta := f.delta } :: gs, hid, by rfl, ?_, hune,
        huws, ?_⟩
      · simp only [separated_list]
        simp only [hgroup]
        rw [if_neg (by simp [List.length_append, List.length_cons, len_sp3, len_sp6, len_mf, len_frs, len_fr, len_ms2, len_cmf, len_cfrs, len_cfr, len_msp]; omega)]
        simp only [hres']
      · have htake := countRun_take f.delta rest
        have h0 : f.m0 = none ∧ f.m1 = none := by
          simp [Frame.has_move] at hm
          exact hm
        have hnf : frameNorm f = { m0 := none, m1 := none, delta := f.delta } := by
          simp [frameNorm, h0.1, h0.2]
        have harith : 1 + countRun f.delta rest - 1 = countRun f.delta rest := by
          omega
        rw [harith] at hflat
        simp only [List.flatten_cons, hflat, List.map_cons]
        conv_rhs => rw [← List.take_append_drop (countRun f.delta rest) rest]
        rw [List.map_append, htake, List.map_replicate, frameNorm_nomove, hnf,
          Nat.add_comm 1 (countRun f.delta rest), List.replicate_succ]
        simp
    · -- single frame line
      have hclean : cleanFrames (fp + 1) (f :: rest) =
          asciiBytes "      frame " ++ natDigits f.delta ++ asciiBytes " ms " ++
            [10] ++ cleanFrames fp rest := by
        simp [cleanFrames, hm, hcomb]
      have hid : cleanFrames (fp + 1) (f :: rest) ++ (asciiBytes "   " ++ 125 :: r) =
          asciiBytes "      " ++ (asciiBytes "frame " ++ (natDigits f.delta ++
            (32 :: (asciiBytes "ms" ++ (32 :: (10 :: (cleanFrames fp rest ++
              (asciiBytes "   " ++ 125 :: r)))))))) := by
        rw [hclean]
        have h1 : asciiBytes "      frame " =
          asciiBytes "      " ++ asciiBytes "frame " := rfl
        have h2 : asciiBytes " ms " = 32 :: (asciiBytes "ms" ++ [32]) := rfl
        simp [h1, h2, List.append_assoc]
      have hgroup := frame_single_eq f.delta hdlt
        (10 :: (cleanFrames fp rest ++ (asciiBytes "   " ++ 125 :: r)))
      obtain ⟨u, gs, hres, hune, huws, hflat⟩ := frames_loop rest.length rest fp
        ((32 :: (10 :: (cleanFrames fp rest ++ (asciiBytes "   " ++ 125 :: r)))).length + 1)
        [32, 10] r (by simp) (by simpa using hfp) hrsafe
        (by simp at h53 ⊢; omega) (by simp) (by decide)
        (by simp [List.length_append, List.length_cons, len_sp3, len_sp6, len_mf, len_frs, len_fr, len_ms2, len_cmf, len_cfrs, len_cfr, len_msp])
      have hres' : sepListGo sp frameRule
          ((32 :: (10 :: (cleanFrames fp rest ++ (asciiBytes "   " ++ 125 :: r)))).length + 1)
          (32 :: (10 :: (cleanFrames fp rest ++ (asciiBytes "   " ++ 125 :: r)))) =
          .ok (u ++ (asciiBytes "   " ++ 125 :: r)) gs := hres
      have hf : f = { m0 := none, m1 := none, delta := f.delta } :=
        has_move_false (by simpa using hm)
      refine ⟨_, u, [{ m0 := none, m1 := none, delta := f.delta }] :: gs, hid, by rfl,
        ?_, hune, huws, ?_⟩
      · simp only [separated_list]
        simp only [hgroup]
        rw [if_neg (by simp [List.length_append, List.length_cons, len_sp3, len_sp6, len_mf, len_frs, len_fr, len_ms2, len_cmf, len_cfrs, len_cfr, len_msp]; omega)]
        simp only [hres']
      · simp only [List.flatten_cons, hflat, List.map_cons]
        rw [← frameNorm_nomove f.delta, ← hf]
        simp

theorem seqsTail_head (ss : List Sequence) (r : List Nat) :
    wsChar ((seqsTail ss r).headD 0) = false := by
  cases ss <;> rfl

theorem cleanSeqs_shape (ss : List Sequence) (r : List Nat) :
    ∃ w3 : List Nat, (∀ x ∈ w3, wsChar x = true) ∧
      cleanSeqs ss ++ 125 :: r = w3 ++ seqsTail ss r := by
  cases ss with
  | nil => exact ⟨[], by simp, by simp [cleanSeqs, seqsTail]⟩
  | cons s rest =>
    refine ⟨asciiBytes "   ", by decide, ?_⟩
    have h1 : asciiBytes "   \x7b\n      " =
        asciiBytes "   " ++ 123 :: 10 :: asciiBytes "      " := rfl
    have h2 : asciiBytes "   \x7d\n" = asciiBytes "   " ++ 125 :: [10] := rfl
    simp [cleanSeqs, cleanSeq, seqsTail, h1, h2, List.append_assoc]

theorem many0Go_step {α : Type} (p : Parser α) (fuel : Nat) (i : List Nat) :
    many0Go p (fuel + 1) i =
      match p i with
      | .fail => .ok i []
      | .abort => .abort
      | .ok i1 v =>
        if i.length ≤ i1.length then .fail
        else
          match many0Go p fuel i1 with
          | .ok i2 vs => .ok i2 (v :: vs)
          | .fail => .fail
          | .abort => .abort := rfl

theorem seqRule_fail (r : List Nat) : ws_wrap sequenceRule (125 :: r) = .fail := by
  have hchar : pChar 123 (125 :: r) = .fail := rfl
  have hseq : sequenceRule (125 :: r) = .fail := by
    simp only [sequenceRule, delim_context_cut]
    exact pPreceded_fail1 _ hchar
  exact pPreceded_fail2 (optSp_none (take1_cons_not_ws _ (by decide)))
    (pMap_fail _ (pThen_fail1 _ hseq))

theorem pair_run (nm : List Nat) (fs : List Frame) (t : List Nat)
    (hname : safeText nm = true) (hfs : fs.all frameSafe = true)
    (h53 : fs.length < 2 ^ 53) :
    ∃ (u : List Nat) (gs : List (List Frame)),
      (∀ x ∈ u, wsChar x = true) ∧ gs.flatten = fs.map frameNorm ∧
      pSeparatedPair stringRule sp (separated_list sp frameRule)
        (34 :: (nm ++ 34 :: (10 :: (cleanFrames (fs.length + 1) fs ++
          (asciiBytes "   " ++ 125 :: t))))) =
        .ok (u ++ 125 :: t) (nm, gs) := by
  cases fs with
  | nil =>
    refine ⟨[], [], by simp, by simp, ?_⟩
    have h0 : (10 :: (cleanFrames (List.length ([] : List Frame) + 1)
        ([] : List Frame) ++ (asciiBytes "   " ++ 125 :: t))) =
        (10 :: asciiBytes "   ") ++ (125 :: t) := by
      simp [cleanFrames]
    rw [h0]
    have hsp : sp ((10 :: asciiBytes "   ") ++ (125 :: t)) =
        .ok (125 :: t) (10 :: asciiBytes "   ") :=
      sp_eq (by decide) (take1_cons_not_ws _ (by decide))
    have hsep : separated_list sp frameRule (125 :: t) = .ok (125 :: t) [] := by
      simp only [separated_list]
      simp only [frameRule_fail_head (b := 125) t (by decide)]
    exact pMap_ok _ (pThen_ok (stringRule_eq hname) (pThen_ok hsp hsep))
  | cons f fr =>
    obtain ⟨K, u, gs, heq, hhead, hsep, hune, huws, hflat⟩ :=
      frames_entry f fr (fr.length + 1) t
        (by simpa using hfs) (by simpa using h53) (by simp)
    refine ⟨u ++ asciiBytes "   ", gs, ?_, hflat, ?_⟩
    · intro x hx
      rcases List.mem_append.mp hx with h | h
      · exact huws x h
      · have : x = 32 := by
          simp [asciiBytes] at h
          omega
        subst this
        rfl
    · have h0 : (10 :: (cleanFrames (List.length (f :: fr) + 1) (f :: fr) ++
          (asciiBytes "   " ++ 125 :: t))) = (10 :: asciiBytes "      ") ++ K := by
        simp only [List.length_cons]
        simp only [heq, List.cons_append]
      rw [h0]
      have hsp : sp ((10 :: asciiBytes "      ") ++ K) =
          .ok K (10 :: asciiBytes "      ") :=
        sp_eq (by decide) (take1_of_headD hhead)
      have hsep' : separated_list sp frameRule K =
          .ok ((u ++ asciiBytes "   ") ++ 125 :: t) gs := by
        rw [List.append_assoc]
        exact hsep
      exact pMap_ok _ (pThen_ok (stringRule_eq hname) (pThen_ok hsp hsep'))

theorem seq_one (s : Sequence) (rest : List Sequence) (r : List Nat)
    (hname : safeText s.name = true) (hfs : s.frames.all frameSafe = true)
    (h53 : s.frames.length < 2 ^ 53) :
    ws_wrap sequenceRule (seqsTail (s :: rest) r) =
      .ok (seqsTail rest r)
        { name := s.name, frames := s.frames.map frameNorm } := by
  obtain ⟨w3, hw3, hshape⟩ := cleanSeqs_shape rest r
  obtain ⟨u, gs, huws, hflat, hpair⟩ :=
    pair_run s.name s.frames (10 :: (cleanSeqs rest ++ 125 :: r)) hname hfs h53
  have hb : seqsTail (s :: rest) r =
      123 :: ((10 :: asciiBytes "      ") ++ (34 :: (s.name ++ 34 :: (10 ::
        (cleanFrames (s.frames.length + 1) s.frames ++ (asciiBytes "   " ++
          125 :: (10 :: (cleanSeqs rest ++ 125 :: r)))))))) := by
    simp [seqsTail, escape_safe hname, List.append_assoc]
  rw [hb, ← hflat]
  have htrail : pOpt sp (10 :: (cleanSeqs rest ++ 125 :: r)) =
      .ok (seqsTail rest r) (some (10 :: w3)) := by
    have h1 : (10 :: (cleanSeqs rest ++ 125 :: r)) = (10 :: w3) ++ seqsTail rest r := by
      simp [hshape]
    rw [h1]
    refine optSp_eq ?_ (take1_of_headD (seqsTail_head rest r))
    intro x hx
    rcases List.mem_cons.mp hx with h | h
    · subst h
      rfl
    · exact hw3 x h
  have hopt2 : pOpt sp (u ++ 125 :: (10 :: (cleanSeqs rest ++ 125 :: r))) =
      .ok (125 :: (10 :: (cleanSeqs rest ++ 125 :: r))) (some u) :=
    optSp_eq huws (take1_cons_not_ws _ (by decide))
  refine pPreceded_ok (optSp_none (take1_cons_not_ws _ (by decide)))
    (pTerminated_ok ?_ htrail)
  refine pPreceded_ok (pChar_ok 123 _) (pCut_ok (pTerminated_ok ?_ (pChar_ok 125 _)))
  exact pPreceded_ok (optSp_eq (by decide) (take1_cons_not_ws _ (by decide)))
    (pTerminated_ok (pMap_ok _ hpair) hopt2)

theorem seqs_nil (fuel : Nat) (r : List Nat) (hf : 0 < fuel) :
    many0Go (ws_wrap sequenceRule) fuel (seqsTail [] r) = .ok (125 :: r) [] := by
  obtain ⟨fl, rfl⟩ : ∃ fl, fuel = fl + 1 := ⟨fuel - 1, by omega⟩
  have hs : seqsTail ([] : List Sequence) r = 125 :: r := rfl
  rw [hs, many0Go_step, seqRule_fail r]

theorem seqs_loop : ∀ (n : Nat) (ss : List Sequence) (fuel : Nat) (r : List Nat),
    ss.length ≤ n → (∀ s ∈ ss, seqSafe s = true) →
    (seqsTail ss r).length < fuel →
    many0Go (ws_wrap sequenceRule) fuel (seqsTail ss r) =
      .ok (125 :: r)
        (ss.map fun s => { name := s.name, frames := s.frames.map frameNorm }) := by
  intro n
  induction n with
  | zero =>
    intro ss fuel r hn hsafe hlen
    have hss : ss = [] := List.length_eq_zero.mp (by omega)
    subst hss
    simpa using seqs_nil fuel r (by omega)
  | succ n ih =>
    intro ss fuel r hn hsafe hlen
    cases ss with
    | nil => simpa using seqs_nil fuel r (by omega)
    | cons s rest =>
      obtain ⟨fl, rfl⟩ : ∃ fl, fuel = fl + 1 := ⟨fuel - 1, by omega⟩
      have hs := hsafe s (by simp)
      simp only [seqSafe, Bool.and_eq_true, decide_eq_true_eq] at hs
      obtain ⟨⟨hname, h53⟩, hfsafe⟩ := hs
      have h1 := seq_one s rest r hname hfsafe h53
      obtain ⟨w3, hw3, hshape⟩ := cleanSeqs_shape rest r
      have hlen2 := congrArg List.length hshape
      simp only [List.length_append, List.length_cons] at hlen2
      have hlen3 : (seqsTail rest r).length < (seqsTail (s :: rest) r).length := by
        have hrw : seqsTail (s :: rest) r =
            123 :: (10 :: (asciiBytes "      " ++ (TasFile.escape s.name ++ (10 ::
              (cleanFrames (s.frames.length + 1) s.frames ++ (asciiBytes "   " ++
                (125 :: (10 :: (cleanSeqs rest ++ 125 :: r))))))))) := rfl
        rw [hrw]
        simp only [List.length_append, List.length_cons, len_sp3, len_sp6]
        omega
      rw [many0Go_step]
      simp only [h1]
      rw [if_neg (by omega)]
      rw [ih rest fl r (by simpa using hn)
        (fun x hx => hsafe x (by simp [hx])) (by omega)]
      simp

theorem tasfile_clean (X : TasFile) (h : tasSafe X = true) :
    tasfile (cleanPrint X) = .ok [10] (tasNormalize X) := by
  have hmiss : safeText X.mission = true := by
    simp only [tasSafe, Bool.and_eq_true] at h
    exact h.1
  have hseqs : ∀ s ∈ X.sequences, seqSafe s = true := by
    simp only [tasSafe, Bool.and_eq_true, List.all_eq_true] at h
    exact fun s hs => h.2 s hs
  obtain ⟨w3, hw3, hshape⟩ := cleanSeqs_shape X.sequences [10]
  have hb : cleanPrint X = 123 :: ((10 :: asciiBytes "   ") ++ (34 :: (X.mission ++
      34 :: (10 :: (cleanSeqs X.sequences ++ 125 :: [10]))))) := by
    have h1 : asciiBytes "\x7b\n   " = 123 :: 10 :: asciiBytes "   " := rfl
    have h2 : asciiBytes "\x7d\n" = 125 :: [10] := rfl
    simp [cleanPrint, escape_safe hmiss, h1, h2, List.append_assoc]
  rw [hb]
  have htrail : pOpt sp (10 :: (cleanSeqs X.sequences ++ 125 :: [10])) =
      .ok (seqsTail X.sequences [10]) (some (10 :: w3)) := by
    have h1 : (10 :: (cleanSeqs X.sequences ++ 125 :: [10])) =
        (10 :: w3) ++ seqsTail X.sequences [10] := by
      simp [hshape]
    rw [h1]
    refine optSp_eq ?_ (take1_of_headD (seqsTail_head _ _))
    intro x hx
    rcases List.mem_cons.mp hx with h | h
    · subst h
      rfl
    · exact hw3 x h
  have hm : many0 (ws_wrap sequenceRule) (seqsTail X.sequences [10]) =
      .ok (125 :: [10]) (X.sequences.map fun s =>
        { name := s.name, frames := s.frames.map frameNorm }) := by
    simp only [many0]
    exact seqs_loop X.sequences.length X.sequences _ [10] le_rfl hseqs (by omega)
  refine pPreceded_ok (pChar_ok 123 _) (pCut_ok (pTerminated_ok
    (pMap_ok _ (pThen_ok ?_ hm)) (pChar_ok 125 _)))
  exact pPreceded_ok (optSp_eq (by decide) (take1_cons_not_ws _ (by decide)))
    (pTerminated_ok (stringRule_eq hmiss) htrail)

theorem flatten_norm (ls : List Sequence) :
    ((ls.map fun s => ({ name := s.name, frames := s.frames.map frameNorm } :
        Sequence)).map fun s => s.frames).flatten =
      ((ls.map fun s => s.frames).flatten).map frameNorm := by
  induction ls with
  | nil => rfl
  | cons a t ih => simp only [List.map_cons, List.flatten_cons, List.map_append, ih]

/-- Claim C3, amended: for every TasFile whose mission and sequence
names are quote/slash/backslash-free printable ASCII, whose move floats
are dyadic rationals, whose deltas fit u16 and whose frame counts fit
2^53, printing and re-parsing succeeds and returns exactly the
normalized file `tasNormalize X`; its flattened frame list is the
original flattened list with each move slot normalized (yaw/pitch/roll
defaulted into `Some`, `freelook` forced `true`, triggers padded to
six). -/
theorem c3_parse_print_norm (X : TasFile) (h : tasSafe X = true) :
    TasFile.parse (TasFile.print X) = .ok (tasNormalize X) ∧
    TasFile.flatten (tasNormalize X) = (TasFile.flatten X).map frameNorm := by
  have hmiss : safeText X.mission = true := by
    simp only [tasSafe, Bool.and_eq_true] at h
    exact h.1
  have hnames : ∀ s ∈ X.sequences, safeText s.name = true := by
    simp only [tasSafe, Bool.and_eq_true, List.all_eq_true] at h
    intro s hs
    have := h.2 s hs
    simp only [seqSafe, Bool.and_eq_true] at this
    exact this.1.1
  constructor
  · simp only [TasFile.parse]
    rw [strip_print X hmiss hnames, tasfile_clean X h]
  · simp only [TasFile.flatten, tasNormalize]
    exact flatten_norm X.sequences

set_option maxRecDepth 40000 in
/-- Claim C3 as stated is false: for the TasFile `c3X` (one moveframe
whose move has `freelook := false`), print → parse succeeds but returns
the normalized file, whose flattened frame list disagrees with the
original on the move fields (`move_inner` hard-codes `freelook := true`
and wraps yaw/pitch/roll in `Some`). -/
theorem c3_print_parse_claim_false :
    TasFile.parse (TasFile.print c3X) = .ok (tasNormalize c3X) ∧
    TasFile.flatten (tasNormalize c3X) ≠ TasFile.flatten c3X := by
  with_unfolding_all decide

theorem c3_parse_print_norm_witness :
    tasSafe c3X = true ∧
    (TasFile.parse (TasFile.print c3X) = .ok (tasNormalize c3X) ∧
     TasFile.flatten (tasNormalize c3X) = (TasFile.flatten c3X).map frameNorm) :=
  ⟨by decide, c3_parse_print_norm c3X (by decide)⟩

end Recverify
